import Mathlib

/-!
# A shallow embedding of the `jsonapi` struct-tag marshaling library

This file embeds the field-resolution and document-mapping engine of the
`jsonapi` Go package (`src/jsonapi/jsonapi.go`) and proves the frozen claims
about it.

Modelling conventions, fixed once here:

* JSON fragments (`json.RawMessage` in the source) are modelled by their
  parsed form `JsonVal`.  The byte-level JSON codec (`encoding/json`) is an
  external collaborator of the engine (spec §1), specified as a bijection
  between values and fragment text, so a fragment is identified with its
  parse tree.  A `json.RawMessage` that may be absent (`len == 0` in the
  source) is modelled as `Option JsonVal`, `none` standing for the empty
  message.  Byte-level operations of the source are mapped to the fragment
  level: the first-byte dispatch `data[0] == '['`/`'{'`/`'"'` becomes a match
  on the head constructor, and the numeric-string quote wrap/strip becomes
  conversion between a number and its decimal-string fragment.
* Go `map`s are modelled as association lists; a lookup miss models the
  zero-length `RawMessage` a Go map returns for a missing key.  `nil` and
  empty maps/slices are identified.
* Machine integer widths are collapsed: all signed integer kinds are `Int`,
  all unsigned ones `Nat`; `uint8` keeps its own kind because the engine
  treats byte collections specially.  Float values only ever arise in this
  development as the generic JSON decoding of an integral number, so they
  are carried exactly as `vfloat (n : Int)`; float arithmetic never occurs.
* Go struct types are finite trees here, so a value of the inductive `GoVal`
  cannot alias itself.  The self-referential-pointer detection of the source
  (`derefValue`, `derefInput`, `initValue`) is therefore modelled twice: the
  functional embedding omits the dead check, and a separate heap embedding
  (`HeapModel` below) has real addresses and implements it faithfully.
-/

/-- A parsed JSON fragment: the model of a non-empty `json.RawMessage`. -/
inductive JsonVal where
  | jnull
  | jbool (b : Bool)
  | jnum (n : Int)
  | jstr (s : String)
  | jarr (xs : List JsonVal)
  | jobj (fields : List (String × JsonVal))
deriving Repr, BEq

/-- `NullJson` of the source: the fragment `null`. -/
def NullJson : JsonVal := .jnull

/-- The `reflect.Kind` enumeration, restricted to the kinds this engine
inspects.  Signed integer widths are collapsed into `int` and unsigned ones
into `uint`, except `uint8`, which `isToOne` singles out; the two complex
widths are collapsed into `complex` and the two float widths into `float`. -/
inductive Kind where
  | invalid
  | bool
  | int
  | uint8
  | uint
  | float
  | complex
  | func
  | chan
  | string
  | array
  | slice
  | gomap
  | pointer
  | interface_
  | struct_
deriving Repr, DecidableEq

/-- The error values of the package.  `wrapped ctx e` models
`fmt.Errorf(ctx + ": %w", e)`; `errorsIs` below recovers `errors.Is`. -/
inductive GoErr where
  /-- `TagErr{Field, Err}` with the inner error flattened to its message. -/
  | tagErr (field : String) (msg : String)
  /-- `UnsupportedTypeErr{Field, Kind}`. -/
  | unsupportedType (field : String) (kind : Kind)
  /-- `MarshalErr{Field, Err}`. -/
  | marshalErr (field : String) (e : GoErr)
  /-- `UnmarshalErr{Field, Err}`. -/
  | unmarshalErr (field : String) (e : GoErr)
  /-- `ErrNotStruct`. -/
  | notStruct
  /-- `ErrNotStructPtr`. -/
  | notStructPtr
  /-- `ErrSelfRefPtr`. -/
  | selfRefPtr
  /-- an anonymous `errors.New` / `fmt.Errorf` error. -/
  | msg (s : String)
  /-- `fmt.Errorf("<ctx>: %w", e)`. -/
  | wrapped (ctx : String) (e : GoErr)
deriving Repr, BEq

/-- `errors.Is e target` for the sentinel errors of the package: unwraps
`wrapped` layers and compares. -/
def GoErr.errorsIs : GoErr → GoErr → Bool
  | .wrapped _ e, target => e.errorsIs target
  | e, target => e == target

mutual
/-- The static shape of a Go type, restricted to what the engine inspects.
`struct_` carries the declared type name (Go type identity — the source keys
its visited-set on `reflect.Type`) and the field list. -/
inductive GoType where
  | bool
  | int
  | uint8
  | uint
  | float
  | complex
  | func
  | chan
  | string
  | array (len : Nat) (elem : GoType)
  | slice (elem : GoType)
  | gomap (key elem : GoType)
  | pointer (elem : GoType)
  | interface_
  | struct_ (name : String) (fields : List StructField)
deriving Repr

/-- One declared field of a struct type: its Go name, the `jsonapi` and
`json` struct-tag values (absent when the tag key is not present), the
embedded (`Anonymous`) and exported flags, and its type. -/
inductive StructField where
  | mk (name : String) (tagJsonApi : Option String) (tagJson : Option String)
      (anonymous : Bool) (exported : Bool) (typ : GoType)
deriving Repr
end

mutual
/-- Structural equality on `GoType`; models Go type identity (two struct
types with the same declared name and fields are the same type). -/
def GoType.beq : GoType → GoType → Bool
  | .bool, .bool => true
  | .int, .int => true
  | .uint8, .uint8 => true
  | .uint, .uint => true
  | .float, .float => true
  | .complex, .complex => true
  | .func, .func => true
  | .chan, .chan => true
  | .string, .string => true
  | .array n e, .array n' e' => n == n' && e.beq e'
  | .slice e, .slice e' => e.beq e'
  | .gomap k e, .gomap k' e' => k.beq k' && e.beq e'
  | .pointer e, .pointer e' => e.beq e'
  | .interface_, .interface_ => true
  | .struct_ n fs, .struct_ n' fs' => n == n' && GoType.beqFieldList fs fs'
  | _, _ => false

def GoType.beqField : StructField → StructField → Bool
  | .mk n tja tj a e t, .mk n' tja' tj' a' e' t' =>
    n == n' && tja == tja' && tj == tj' && a == a' && e == e' && t.beq t'

def GoType.beqFieldList : List StructField → List StructField → Bool
  | [], [] => true
  | f :: fs, f' :: fs' => GoType.beqField f f' && GoType.beqFieldList fs fs'
  | _, _ => false
end

instance : BEq GoType := ⟨GoType.beq⟩

instance : BEq StructField := ⟨GoType.beqField⟩

def StructField.name : StructField → String
  | .mk n _ _ _ _ _ => n

def StructField.tagJsonApi : StructField → Option String
  | .mk _ t _ _ _ _ => t

def StructField.tagJson : StructField → Option String
  | .mk _ _ t _ _ _ => t

def StructField.anonymous : StructField → Bool
  | .mk _ _ _ a _ _ => a

def StructField.exported : StructField → Bool
  | .mk _ _ _ _ e _ => e

def StructField.typ : StructField → GoType
  | .mk _ _ _ _ _ t => t

/-- `reflect.Type.Kind()`. -/
def GoType.kind : GoType → Kind
  | .bool => .bool
  | .int => .int
  | .uint8 => .uint8
  | .uint => .uint
  | .float => .float
  | .complex => .complex
  | .func => .func
  | .chan => .chan
  | .string => .string
  | .array _ _ => .array
  | .slice _ => .slice
  | .gomap _ _ => .gomap
  | .pointer _ => .pointer
  | .interface_ => .interface_
  | .struct_ _ _ => .struct_

/-- `reflect.Type.Elem()` for array/slice/map/pointer types.  The source
only calls `Elem` on such types; elsewhere this returns the type itself. -/
def GoType.elem : GoType → GoType
  | .array _ e => e
  | .slice e => e
  | .gomap _ e => e
  | .pointer e => e
  | t => t

/-- `derefType`: the type of `t` after following all pointers. -/
def derefType : GoType → GoType
  | .pointer t => derefType t
  | t => t

mutual
/-- A Go value, carrying enough static-type information for the kind
dispatches of the engine.  `vptr t none` is a nil `*t`; `viface none` is a
nil interface; `vinvalid` is the invalid `reflect.Value{}` that dereferencing
a nil pointer/interface produces. -/
inductive GoVal where
  | vinvalid
  | vbool (b : Bool)
  | vint (n : Int)
  | vuint8 (n : Nat)
  | vuint (n : Nat)
  /-- a `float64` holding the integral value `n`; see the header note. -/
  | vfloat (n : Int)
  | vstring (s : String)
  /-- a fixed-size array with element type `elem`. -/
  | varray (elem : GoType) (elems : List GoVal)
  /-- a slice with element type `elem` (`nil` and empty are identified). -/
  | vslice (elem : GoType) (elems : List GoVal)
  /-- a map with string keys (the only key type this development uses). -/
  | vmap (keyT elemT : GoType) (entries : List (String × GoVal))
  /-- a pointer of type `*elem`; `none` is nil. -/
  | vptr (elem : GoType) (pointee : Option GoVal)
  /-- an interface value; `none` is nil. -/
  | viface (inner : Option GoVal)
  /-- a struct value of type `typ` with its field values in declaration
  order. -/
  | vstruct (typ : GoType) (fields : List GoVal)
deriving Repr, BEq
end

/-- `reflect.Value.Kind()`. -/
def GoVal.kind : GoVal → Kind
  | .vinvalid => .invalid
  | .vbool _ => .bool
  | .vint _ => .int
  | .vuint8 _ => .uint8
  | .vuint _ => .uint
  | .vfloat _ => .float
  | .vstring _ => .string
  | .varray _ _ => .array
  | .vslice _ _ => .slice
  | .vmap _ _ _ => .gomap
  | .vptr _ _ => .pointer
  | .viface _ => .interface_
  | .vstruct _ _ => .struct_

/-- `reflect.Value.Type()` (defaulting to `interface_` for the invalid
value, which the source never asks the type of). -/
def GoVal.typeOf : GoVal → GoType
  | .vinvalid => .interface_
  | .vbool _ => .bool
  | .vint _ => .int
  | .vuint8 _ => .uint8
  | .vuint _ => .uint
  | .vfloat _ => .float
  | .vstring _ => .string
  | .varray e xs => .array xs.length e
  | .vslice e _ => .slice e
  | .vmap k e _ => .gomap k e
  | .vptr e _ => .pointer e
  | .viface _ => .interface_
  | .vstruct t _ => t

/-- `v.Type().Elem().Kind()` as used by `isToOne` (only consulted on slice
values; `invalid` elsewhere). -/
def GoVal.elemKind : GoVal → Kind
  | .varray e _ => e.kind
  | .vslice e _ => e.kind
  | _ => .invalid

/-- `derefValue`: the value after following all pointer/interface
indirection; dereferencing nil yields the invalid value.  The source also
compares each dereferenced value against the starting one and fails with
`ErrSelfRefPtr`; on the finite trees of `GoVal` that comparison can never
succeed, so the (here dead) error branch is omitted; it is modelled
faithfully in the heap embedding `HeapModel.hderefValue` below. -/
def derefValue : GoVal → GoVal
  | .vptr _ none => .vinvalid
  | .vptr _ (some w) => derefValue w
  | .viface none => .vinvalid
  | .viface (some w) => derefValue w
  | v => v

/-- `isToOne`: whether the supplied value represents a to-one relationship.
A to-many relationship must be an array, or a slice of anything that is not
a byte. -/
def isToOne (fv : GoVal) : Bool :=
  fv.kind != Kind.array && (fv.kind != Kind.slice || fv.elemKind == Kind.uint8)

/-- `reflect.Value.IsValid`. -/
def GoVal.isValid : GoVal → Bool
  | .vinvalid => false
  | _ => true

mutual
/-- `reflect.Value.IsZero` (for the kinds that occur as values here). -/
def GoVal.isZero : GoVal → Bool
  | .vinvalid => false
  | .vbool b => b == false
  | .vint n => n == 0
  | .vuint8 n => n == 0
  | .vuint n => n == 0
  | .vfloat n => n == 0
  | .vstring s => s == ""
  | .varray _ xs => GoVal.isZeroList xs
  | .vslice _ xs => xs.isEmpty
  | .vmap _ _ es => es.isEmpty
  | .vptr _ p => p.isNone
  | .viface i => i.isNone
  | .vstruct _ fs => GoVal.isZeroList fs

def GoVal.isZeroList : List GoVal → Bool
  | [] => true
  | x :: xs => x.isZero && GoVal.isZeroList xs
end

/-- `reflect.Value.Len` (array/slice/map kinds). -/
def GoVal.len : GoVal → Nat
  | .varray _ xs => xs.length
  | .vslice _ xs => xs.length
  | .vmap _ _ es => es.length
  | _ => 0

/-- `isEmpty`: true iff the value should be omitted under `omitempty` —
invalid, the kind's zero value, or an empty array/slice/map.  Assumes the
input has been dereferenced. -/
def isEmpty (v : GoVal) : Bool :=
  if !v.isValid || v.isZero then true
  else
    match v.kind with
    | .array | .slice | .gomap => v.len == 0
    | _ => false

mutual
/-- The zero value of a type (`reflect.New(t).Elem()`). -/
def GoType.zeroVal : GoType → GoVal
  | .bool => .vbool false
  | .int => .vint 0
  | .uint8 => .vuint8 0
  | .uint => .vuint 0
  | .float => .vfloat 0
  | .complex => .vinvalid
  | .func => .vinvalid
  | .chan => .vinvalid
  | .string => .vstring ""
  | .array n e => .varray e (List.replicate n e.zeroVal)
  | .slice e => .vslice e []
  | .gomap k e => .vmap k e []
  | .pointer e => .vptr e none
  | .interface_ => .viface none
  | .struct_ n fs => .vstruct (.struct_ n fs) (GoType.zeroFields fs)

def GoType.zeroFields : List StructField → List GoVal
  | [] => []
  | .mk _ _ _ _ _ t :: fs => t.zeroVal :: GoType.zeroFields fs
end

/-! ## Decimal strings

The numeric `string` option wraps the JSON encoding of a number in quotes
and strips them again on decode.  At the fragment level that is conversion
between `jnum n` and `jstr` of `n`'s decimal representation, so the
embedding needs an executable decimal codec with a round-trip proof. -/

/-- The decimal digits of `n`, most significant first (empty for `0`);
structured with fuel so that it reduces definitionally (`natDigits` below
supplies enough). -/
def natDigitsGo : Nat → Nat → List Char
  | 0, _ => []
  | fuel + 1, n =>
    if n = 0 then []
    else natDigitsGo fuel (n / 10) ++ [Char.ofNat (48 + n % 10)]

def natDigits (n : Nat) : List Char := natDigitsGo n n

theorem natDigitsGo_fuel (n : Nat) :
    ∀ f₁ f₂, n ≤ f₁ → n ≤ f₂ → natDigitsGo f₁ n = natDigitsGo f₂ n := by
  induction n using Nat.strong_induction_on with
  | _ n ih =>
    intro f₁ f₂ h₁ h₂
    by_cases h0 : n = 0
    · subst h0
      cases f₁ <;> cases f₂ <;> simp [natDigitsGo]
    · match f₁, f₂, Nat.lt_of_lt_of_le (Nat.pos_of_ne_zero h0) h₁,
        Nat.lt_of_lt_of_le (Nat.pos_of_ne_zero h0) h₂ with
      | a + 1, b + 1, _, _ =>
        have hlt : n / 10 < n := Nat.div_lt_self (Nat.pos_of_ne_zero h0) (by omega)
        simp only [natDigitsGo, h0, if_false]
        rw [ih (n / 10) hlt a b (by omega) (by omega)]

def natToString (n : Nat) : String :=
  if n = 0 then "0" else ⟨natDigits n⟩

/-- Decimal parse of a digit list (most significant first); `none` on a
non-digit. -/
def digitsToNat : List Char → Nat → Option Nat
  | [], acc => some acc
  | c :: cs, acc =>
    if 48 ≤ c.toNat && c.toNat ≤ 57 then
      digitsToNat cs (acc * 10 + (c.toNat - 48))
    else none

def stringToNat (s : String) : Option Nat :=
  match s.data with
  | [] => none
  | cs => digitsToNat cs 0

/-- Decimal encoding of an integer. -/
def intToString (n : Int) : String :=
  if n < 0 then "-" ++ natToString n.natAbs else natToString n.natAbs

/-- Decimal parse of an integer string. -/
def stringToInt (s : String) : Option Int :=
  match s.data with
  | [] => none
  | c :: cs =>
    if c = '-' then (digitsToNat cs 0).map (fun m => -(Int.ofNat m))
    else (digitsToNat (c :: cs) 0).map (fun m => Int.ofNat m)

theorem toNat_digitChar (n : Nat) :
    (Char.ofNat (48 + n % 10)).toNat = 48 + n % 10 := by
  have h : Nat.isValidChar (48 + n % 10) := by left; omega
  simp [Char.ofNat, h, Char.toNat, Char.ofNatAux, UInt32.toNat, BitVec.toNat_ofNat]

theorem natDigits_eq (n : Nat) (h0 : n ≠ 0) :
    natDigits n = natDigits (n / 10) ++ [Char.ofNat (48 + n % 10)] := by
  have hpos : 0 < n := Nat.pos_of_ne_zero h0
  have hlt : n / 10 < n := Nat.div_lt_self hpos (by omega)
  match n, hpos with
  | m + 1, _ =>
    show natDigitsGo (m + 1) (m + 1) = _
    simp only [natDigitsGo, h0, if_false]
    rw [natDigitsGo_fuel ((m + 1) / 10) m ((m + 1) / 10) (by omega) (by omega)]
    rfl

theorem digitsToNat_append_digit (ds : List Char) (n acc : Nat) :
    digitsToNat (ds ++ [Char.ofNat (48 + n % 10)]) acc
      = (digitsToNat ds acc).map (fun m => m * 10 + n % 10) := by
  induction ds generalizing acc with
  | nil =>
    simp only [List.nil_append, digitsToNat]
    rw [if_pos (by simp only [toNat_digitChar, Bool.and_eq_true, decide_eq_true_eq]
                   constructor <;> omega)]
    simp only [digitsToNat, toNat_digitChar]
    have : 48 + n % 10 - 48 = n % 10 := by omega
    rw [this]
    rfl
  | cons c cs ih =>
    simp only [List.cons_append, digitsToNat]
    by_cases h : (48 ≤ c.toNat && c.toNat ≤ 57) = true
    · simp [h, ih]
    · simp [h]

theorem digitsToNat_natDigits (n : Nat) :
    ∀ acc, digitsToNat (natDigits n) acc
      = some (acc * 10 ^ (natDigits n).length + n) := by
  induction n using Nat.strong_induction_on with
  | _ n ih =>
    intro acc
    by_cases h0 : n = 0
    · subst h0
      simp [natDigits, natDigitsGo, digitsToNat]
    · have hlt : n / 10 < n := Nat.div_lt_self (Nat.pos_of_ne_zero h0) (by omega)
      rw [natDigits_eq n h0, digitsToNat_append_digit, ih _ hlt acc]
      simp only [Option.map_some', Option.map_some, Option.some.injEq, List.length_append,
        List.length_cons, List.length_nil]
      rw [pow_succ, ← Nat.mul_assoc]
      generalize acc * 10 ^ (natDigits (n / 10)).length = A
      omega

theorem natDigits_digits (n : Nat) :
    ∀ c ∈ natDigits n, 48 ≤ c.toNat ∧ c.toNat ≤ 57 := by
  induction n using Nat.strong_induction_on with
  | _ n ih =>
    intro c hc
    by_cases h0 : n = 0
    · subst h0
      simp [natDigits, natDigitsGo] at hc
    · have hlt : n / 10 < n := Nat.div_lt_self (Nat.pos_of_ne_zero h0) (by omega)
      rw [natDigits_eq n h0] at hc
      rcases List.mem_append.mp hc with h | h
      · exact ih _ hlt c h
      · rw [List.mem_singleton] at h; subst h; rw [toNat_digitChar]; omega

theorem natDigits_ne_nil (n : Nat) (h0 : n ≠ 0) : natDigits n ≠ [] := by
  rw [natDigits_eq n h0]; simp

theorem stringToNat_mk_cons (c : Char) (cs : List Char) :
    stringToNat ⟨c :: cs⟩ = digitsToNat (c :: cs) 0 := rfl

theorem stringToInt_mk_cons (c : Char) (cs : List Char) :
    stringToInt ⟨c :: cs⟩
      = if c = '-' then (digitsToNat cs 0).map (fun m => -(Int.ofNat m))
        else (digitsToNat (c :: cs) 0).map (fun m => Int.ofNat m) := rfl

/-- The decimal codec round-trips on naturals. -/
theorem stringToNat_natToString (n : Nat) : stringToNat (natToString n) = some n := by
  by_cases h0 : n = 0
  · subst h0; decide
  · have hne := natDigits_ne_nil n h0
    have hval := digitsToNat_natDigits n 0
    have hform : natToString n = (⟨natDigits n⟩ : String) := by
      simp [natToString, h0]
    match hd : natDigits n with
    | [] => exact absurd hd hne
    | c :: cs =>
      rw [hd] at hval
      rw [hform, hd, stringToNat_mk_cons, hval]
      simp

theorem natToString_data_digits (n : Nat) :
    ∀ c ∈ (natToString n).data, 48 ≤ c.toNat ∧ c.toNat ≤ 57 := by
  intro c hc
  by_cases h0 : n = 0
  · subst h0
    simp only [natToString, if_pos rfl] at hc
    have : c = '0' := by simpa [String.data] using hc
    subst this; decide
  · simp only [natToString, h0, if_false] at hc
    exact natDigits_digits n c hc

/-- The decimal codec round-trips on integers. -/
theorem stringToInt_intToString (n : Int) : stringToInt (intToString n) = some n := by
  by_cases hneg : n < 0
  · have h1 : intToString n = "-" ++ natToString n.natAbs := by
      simp [intToString, hneg]
    have h0 : n.natAbs ≠ 0 := by omega
    have hdata : ("-" ++ natToString n.natAbs) = (⟨'-' :: (natToString n.natAbs).data⟩ : String) := by
      apply String.ext
      rw [String.data_append]
      rfl
    rw [h1, hdata, stringToInt_mk_cons, if_pos rfl]
    have hform : (natToString n.natAbs).data = natDigits n.natAbs := by
      simp [natToString, h0]
    rw [hform, digitsToNat_natDigits]
    simp only [Option.map_some', Option.some.injEq, Nat.zero_mul, Nat.zero_add,
      Int.ofNat_eq_coe]
    omega
  · have h1 : intToString n = natToString n.natAbs := by
      simp [intToString, hneg]
    have hdig := natToString_data_digits n.natAbs
    have h3 := stringToNat_natToString n.natAbs
    rw [h1]
    match hd : (natToString n.natAbs).data with
    | [] =>
      rw [stringToNat, hd] at h3
      exact absurd h3 (by simp)
    | c :: cs =>
      have hcdig : 48 ≤ c.toNat ∧ c.toNat ≤ 57 := hdig c (by rw [hd]; simp)
      have hcm : ¬(c = '-') := by
        intro hcc; subst hcc; revert hcdig; decide
      have hmk : natToString n.natAbs = (⟨c :: cs⟩ : String) := by
        apply String.ext; rw [hd]
      rw [hmk, stringToInt_mk_cons, if_neg hcm]
      rw [hmk, stringToNat_mk_cons] at h3
      rw [h3]
      simp only [Option.map_some', Option.some.injEq, Int.ofNat_eq_coe]
      omega

/-! ## Struct tags and annotation parsing -/

/-- The tag-key and tag-value constants of the source. -/
def TagKeyJson : String := "json"

def TagKeyJsonApi : String := "jsonapi"

def TagValueIgnore : String := "-"

def TagValueId : String := "id"

def TagValueAttr : String := "attr"

def TagValueRel : String := "rel"

def TagValueMeta : String := "meta"

def TagValueOmitEmpty : String := "omitempty"

def TagValueString : String := "string"

/-- `strings.Cut(s, ",")` on a character list: the part before the first
comma, the part after it, and whether a comma was found. -/
def cutList : List Char → List Char × List Char × Bool
  | [] => ([], [], false)
  | c :: cs =>
    if c = ',' then ([], cs, true)
    else
      let r := cutList cs
      (c :: r.1, r.2.1, r.2.2)

/-- `strings.Cut(s, ",")`. -/
def cutComma (s : String) : String × String × Bool :=
  let r := cutList s.data
  (⟨r.1⟩, ⟨r.2.1⟩, r.2.2)

theorem cutList_rest_length (cs : List Char) (h : cs ≠ []) :
    (cutList cs).2.1.length < cs.length := by
  induction cs with
  | nil => exact absurd rfl h
  | cons c cs ih =>
    by_cases hc : c = ','
    · simp [cutList, hc]
    · simp only [cutList, if_neg hc, List.length_cons]
      by_cases hcs : cs = []
      · subst hcs; simp [cutList]
      · exact Nat.lt_trans (ih hcs) (Nat.lt_succ_self _)

/-- `tag` of the source: a parsed jsonapi struct tag. -/
structure tag where
  typ : String := ""
  name : String := ""
  namePrec : Nat := 0
  rscType : String := ""
  quote : Bool := false
  omitempty : Bool := false
deriving Repr, DecidableEq

/-- `field` of the source: the tag found on a struct field together with
the index path from the top-level struct. -/
structure field where
  tag : tag := {}
  idxs : List Nat := []
deriving Repr, DecidableEq

/-- `splitTypeAndOpts`: the jsonapi tag value split into the kind token and
the remaining options, plus whether the tag key was present. -/
def splitTypeAndOpts (f : StructField) : String × String × Bool :=
  match f.tagJsonApi with
  | none => ("", "", false)
  | some value =>
    let r := cutComma value
    (r.1, r.2.1, true)

/-- The loop body of `optFlags`, cutting one option per step; the fuel
(one per remaining character suffices, since each cut drops at least one)
keeps the recursion structural so that it reduces definitionally. -/
def optFlagsGo : Nat → List Char → Bool → Bool → Bool × Bool
  | _, [], omitempty, quote => (omitempty, quote)
  | 0, _ :: _, omitempty, quote => (omitempty, quote)
  | fuel + 1, c :: cs, omitempty, quote =>
    let r := cutList (c :: cs)
    let opt : String := ⟨r.1⟩
    let omitempty' := if opt = TagValueOmitEmpty then true else omitempty
    let quote' := if opt = TagValueString then true else quote
    optFlagsGo fuel r.2.1 omitempty' quote'

/-- `optFlags`: the values of the `omitempty` and `string` flags in the
supplied options. -/
def optFlags (opts : String) : Bool × Bool :=
  optFlagsGo opts.data.length opts.data false false

/-- `splitFirstAndOpts`: the first option and the remaining options. -/
def splitFirstAndOpts (opts : String) : String × String :=
  let r := cutComma opts
  (r.1, r.2.1)

/-- `splitNameAndOpts`: the document name, its precedence (3 for a declared
jsonapi name, 2 for a json tag name, 1 for the Go field name) and the
remaining options. -/
def splitNameAndOpts (f : StructField) (opts : String) : String × Nat × String :=
  let r := splitFirstAndOpts opts
  if r.1 ≠ "" then (r.1, 3, r.2)
  else
    let jsonName := (cutComma (f.tagJson.getD "")).1
    if jsonName ≠ "" then (jsonName, 2, r.2)
    else (f.name, 1, r.2)

/-- `parseIdTag`: parses `jsonapi:"id,type,opt..."`. -/
def parseIdTag (f : StructField) (opts : String) : Except GoErr tag :=
  let r := splitFirstAndOpts opts
  if r.1 = "" then .error (.tagErr f.name "required: type")
  else
    let flags := optFlags r.2
    .ok { typ := TagValueId, rscType := r.1, omitempty := flags.1, quote := flags.2 }

/-- `parseAttrTag`: parses `jsonapi:"attr,name,opt..."`. -/
def parseAttrTag (f : StructField) (opts : String) : Except GoErr tag :=
  let r := splitNameAndOpts f opts
  let flags := optFlags r.2.2
  .ok { typ := TagValueAttr, name := r.1, namePrec := r.2.1,
        omitempty := flags.1, quote := flags.2 }

/-- `parseMetaTag`: parses `jsonapi:"meta,name,opt..."`. -/
def parseMetaTag (f : StructField) (opts : String) : Except GoErr tag :=
  let r := splitNameAndOpts f opts
  let flags := optFlags r.2.2
  .ok { typ := TagValueMeta, name := r.1, namePrec := r.2.1,
        omitempty := flags.1, quote := flags.2 }

/-- `parseRelTag`: parses `jsonapi:"rel,name,type,opt..."`. -/
def parseRelTag (f : StructField) (opts : String) : Except GoErr tag :=
  let r := splitNameAndOpts f opts
  let r2 := splitFirstAndOpts r.2.2
  if r2.1 = "" then .error (.tagErr f.name "required: type")
  else
    let flags := optFlags r2.2
    .ok { typ := TagValueRel, name := r.1, namePrec := r.2.1, rscType := r2.1,
          omitempty := flags.1, quote := flags.2 }

/-- `parseTag`: rejects unmappable underlying kinds, then dispatches on the
kind token. -/
def parseTag (f : StructField) (typ opts : String) : Except GoErr tag :=
  match (derefType f.typ).kind with
  | .func | .chan | .complex => .error (.unsupportedType f.name (derefType f.typ).kind)
  | _ =>
    if typ = TagValueId then parseIdTag f opts
    else if typ = TagValueAttr then parseAttrTag f opts
    else if typ = TagValueMeta then parseMetaTag f opts
    else if typ = TagValueRel then parseRelTag f opts
    else .error (.tagErr f.name ("unknown tag type: " ++ typ))

/-! ## The field resolver: `parseTags` -/

/-- `reflect.Value.Field(i)` (struct values only; the invalid value
otherwise — the source panics there, and only reaches it on valid paths). -/
def GoVal.fieldAt (v : GoVal) (i : Nat) : GoVal :=
  match v with
  | .vstruct _ fs => fs.getD i .vinvalid
  | _ => .vinvalid

/-- The sort comparator of `parseTags`: by tag type, then name, then path
depth ascending, then name precedence descending (`Ordering.then` models the
`if c := cmp.Compare(...); c != 0 { return c }` chain). -/
def fieldCmp (a b : field) : Ordering :=
  (compare a.tag.typ b.tag.typ).then
    ((compare a.tag.name b.tag.name).then
      ((compare a.idxs.length b.idxs.length).then
        (compare b.tag.namePrec a.tag.namePrec)))

def fieldLE (a b : field) : Bool :=
  fieldCmp a b ≠ Ordering.gt

/-- `fieldLE` as a relation (for the sort). -/
def fieldLEProp (a b : field) : Prop := fieldLE a b = true

instance : DecidableRel fieldLEProp := fun a b => by
  unfold fieldLEProp; infer_instance

/-- `slices.SortFunc(fields, ...)` (the source's unstable sort is modelled
by insertion sort; every property proved below depends only on sortedness
or on the result being a permutation). -/
def sortFields (fs : List field) : List field :=
  fs.insertionSort fieldLEProp

/-- `getDominantField`: the highest-precedence field of a run of fields
sharing tag type and name, sorted by depth then name precedence; `none`
when no dominant field can be determined. -/
def getDominantField : List field → Option field
  | [] => none
  | [f] => some f
  | f0 :: f1 :: _ =>
    if f0.idxs.length = f1.idxs.length ∧ f0.tag.namePrec = f1.tag.namePrec then none
    else some f0

theorem length_dropWhile_le {α : Type} (p : α → Bool) (l : List α) :
    (l.dropWhile p).length ≤ l.length := by
  induction l with
  | nil => simp [List.dropWhile]
  | cons x xs ih =>
    by_cases h : p x
    · simp only [List.dropWhile, h]
      exact Nat.le_trans ih (Nat.le_succ _)
    · simp [List.dropWhile, h]

/-- Maximal runs of consecutive elements equal (under `eq`) to the run's
first element: the grouping performed by the nested index loops after the
sort in `parseTags`.  Fuel (the list length suffices) keeps the recursion
structural so that it reduces definitionally. -/
def chunkRunsByGo (eq : field → field → Bool) : Nat → List field → List (List field)
  | _, [] => []
  | 0, _ :: _ => []
  | fuel + 1, f :: fs =>
    (f :: fs.takeWhile (eq f)) :: chunkRunsByGo eq fuel (fs.dropWhile (eq f))

def chunkRunsBy (eq : field → field → Bool) (fs : List field) : List (List field) :=
  chunkRunsByGo eq fs.length fs

/-- Equality of tag type (the outer grouping key of the filter loop). -/
def sameTyp (a b : field) : Bool := a.tag.typ == b.tag.typ

/-- Equality of tag name (the inner grouping key). -/
def sameName (a b : field) : Bool := a.tag.name == b.tag.name

/-- Equality of both keys: the run relation of claim C3. -/
def sameTypName (a b : field) : Bool := sameTyp a b && sameName a b

/-- The post-sort filter of `parseTags`: group by tag type, then by name
within each type group, and keep each run's dominant field (if any). -/
def filterDominantFields (fs : List field) : List field :=
  (chunkRunsBy sameTyp fs).flatMap
    (fun typRun =>
      (chunkRunsBy sameName typRun).flatMap
        (fun run => (getDominantField run).toList))

/-- `structElem` of `parseTags`: a struct in the traversal queue, either a
type or a value (`ok` true when the value is present), with the index path
to it. -/
structure structElem where
  t : GoType
  v : GoVal := .vinvalid
  ok : Bool
  idxs : List Nat
deriving Repr

/-- Processing of one struct field in the `parseTags` traversal: either
collects a parsed `field`, queues a `structElem` for the next level, or
skips.  Mirrors the body of the inner `for i` loop. -/
def parseTagsStep (c : structElem) (f : StructField) (i : Nat) :
    Except GoErr (List field × List structElem) :=
  let r := splitTypeAndOpts f
  let typ := r.1
  let opts := r.2.1
  let tagOk := r.2.2
  let fIdxs := c.idxs ++ [i]
  let typeBranch : Except GoErr (List field × List structElem) :=
    let ft := derefType f.typ
    if ft.kind = .struct_ then .ok ([], [{ t := ft, ok := false, idxs := fIdxs }])
    else .ok ([], [])
  if !tagOk && f.anonymous then
    if c.ok then
      let fv := derefValue (c.v.fieldAt i)
      if fv.kind = .struct_ then
        .ok ([], [{ t := fv.typeOf, v := fv, ok := true, idxs := fIdxs }])
      else if fv.kind ≠ .invalid then
        .ok ([], [])
      else
        -- value is a nil ptr to a struct type: fall through to the type
        typeBranch
    else
      typeBranch
  else
    let typ' := if !tagOk then TagValueAttr else typ
    if !f.exported && !f.anonymous then .ok ([], [])
    else if typ' = TagValueIgnore then .ok ([], [])
    else do
      let tg ← parseTag f typ' opts
      .ok ([{ tag := tg, idxs := fIdxs }], [])

/-- The inner field loop of `parseTags` over all fields of one struct. -/
def parseTagsFieldsGo (c : structElem) :
    List StructField → Nat → Except GoErr (List field × List structElem)
  | [], _ => .ok ([], [])
  | f :: rest, i => do
    let r ← parseTagsStep c f i
    let r' ← parseTagsFieldsGo c rest (i + 1)
    .ok (r.1 ++ r'.1, r.2 ++ r'.2)

/-- One level of the breadth-first traversal: processes every queued
`structElem`, threading the visited-type set and skipping ambiguous or
already-visited type-only elements. -/
def parseTagsLevelGo (types : List GoType) (allCurrent : List structElem) :
    List structElem → Except GoErr (List field × List structElem × List GoType)
  | [] => .ok ([], [], types)
  | c :: rest =>
    if !c.ok && (types.contains c.t || allCurrent.countP (fun x => x.t == c.t) > 1) then
      parseTagsLevelGo types allCurrent rest
    else
      let types' := c.t :: types
      match c.t with
      | .struct_ _ sfields => do
        let r ← parseTagsFieldsGo c sfields 0
        let r' ← parseTagsLevelGo types' allCurrent rest
        .ok (r.1 ++ r'.1, r.2 ++ r'.2.1, r'.2.2)
      | _ => parseTagsLevelGo types' allCurrent rest

/-- The outer level loop of the breadth-first traversal, with explicit fuel
(the source's loop terminates because each queued element is structurally
smaller than its parent or its type was not yet visited; `parseTags` below
supplies sufficient fuel). -/
def parseTagsBFS : Nat → List GoType → List structElem → Except GoErr (List field)
  | 0, _, current => if current.isEmpty then .ok [] else .error (.msg "out of fuel")
  | fuel + 1, types, current =>
    if current.isEmpty then .ok []
    else do
      let r ← parseTagsLevelGo types current current
      let rest ← parseTagsBFS fuel r.2.2 r.2.1
      .ok (r.1 ++ rest)

mutual
/-- Structural size of a type (for the traversal fuel of `parseTags`). -/
def GoType.tsize : GoType → Nat
  | .array _ e => e.tsize + 1
  | .slice e => e.tsize + 1
  | .gomap k e => k.tsize + e.tsize + 1
  | .pointer e => e.tsize + 1
  | .struct_ _ fs => GoType.tsizeFields fs + 1
  | _ => 1

def GoType.tsizeFields : List StructField → Nat
  | [] => 0
  | .mk _ _ _ _ _ t :: fs => t.tsize + GoType.tsizeFields fs + 1
end

mutual
/-- Structural size of a value (for the traversal fuel of `parseTags`). -/
def GoVal.vsize : GoVal → Nat
  | .varray _ xs => GoVal.vsizeList xs + 1
  | .vslice _ xs => GoVal.vsizeList xs + 1
  | .vmap _ _ es => GoVal.vsizeEntries es + 1
  | .vptr _ (some w) => w.vsize + 1
  | .viface (some w) => w.vsize + 1
  | .vstruct _ fs => GoVal.vsizeList fs + 1
  | _ => 1

def GoVal.vsizeList : List GoVal → Nat
  | [] => 0
  | x :: xs => x.vsize + GoVal.vsizeList xs + 1

def GoVal.vsizeEntries : List (String × GoVal) → Nat
  | [] => 0
  | (_, x) :: xs => x.vsize + GoVal.vsizeEntries xs + 1
end

/-- `parseTags`: the full field resolver — breadth-first traversal, sort,
then collision filtering.  The fuel passed to the level loop strictly
exceeds the number of levels the traversal can produce (each queued element
is a structurally smaller value or a strictly smaller unvisited type). -/
def parseTags (v : GoVal) : Except GoErr (List field) :=
  match parseTagsBFS (v.vsize + v.typeOf.tsize + 1) []
      [{ t := v.typeOf, v := v, ok := true, idxs := [] }] with
  | .error e => .error e
  | .ok fields => .ok (filterDominantFields (sortFields fields))

/-! ## The resource document model -/

/-- `ResourceIdentifier`: `ident.id = none` models the zero-length
`json.RawMessage`. -/
structure ResourceIdentifier where
  rtype : String := ""
  id : Option JsonVal := none
  meta : List (String × JsonVal) := []
deriving Repr, BEq

/-- `ToOneResourceLinkage`.  Link values are passed through untouched by the
engine, so they are carried as raw fragments. -/
structure ToOneResourceLinkage where
  links : List (String × JsonVal) := []
  meta : List (String × JsonVal) := []
  data : ResourceIdentifier := {}
deriving Repr, BEq

/-- `ToManyResourceLinkage`. -/
structure ToManyResourceLinkage where
  links : List (String × JsonVal) := []
  meta : List (String × JsonVal) := []
  data : List ResourceIdentifier := []
deriving Repr, BEq

/-- `Resource`; its maps are association lists (see the header note). -/
structure Resource where
  ident : ResourceIdentifier := {}
  attributes : List (String × JsonVal) := []
  toOneRelationships : List (String × ToOneResourceLinkage) := []
  toManyRelationships : List (String × ToManyResourceLinkage) := []
  links : List (String × JsonVal) := []
deriving Repr, BEq

/-- `newResource()` (the freshly initialized maps are empty ones). -/
def newResource : Resource := {}

/-- Go map assignment `m[k] = v` on an association list. -/
def alistSet {α : Type} : List (String × α) → String → α → List (String × α)
  | [], k, v => [(k, v)]
  | (k', v') :: rest, k, v =>
    if k' = k then (k, v) :: rest else (k', v') :: alistSet rest k v

/-- Go map read `m[k]` on an association list (`none` models the zero
value a Go map yields for a missing key). -/
def alistGet {α : Type} : List (String × α) → String → Option α
  | [], _ => none
  | (k', v') :: rest, k => if k' = k then some v' else alistGet rest k

/-! ## The scalar transcoder: `marshalJson` / `unmarshalJson` -/

/-- `quotable`: kinds convertible to/from a string by quote wrapping —
the numeric kinds. -/
def quotable (k : Kind) : Bool :=
  match k with
  | .int | .uint8 | .uint | .float => true
  | _ => false

/-- Key-sorted copy of an association list: `encoding/json` marshals Go
maps with their keys in sorted order. -/
def sortByKey {α : Type} (m : List (String × α)) : List (String × α) :=
  m.mergeSort (fun a b => compare a.1 b.1 ≠ Ordering.gt)

mutual
/-- The generic JSON codec's encode direction (`json.Marshal`) on the
values of this development.  External collaborator (spec §1): numbers,
strings, booleans, arrays/slices, string-keyed maps (keys sorted) and
`null` for nil references.  Two boundaries of the model: the base64 text
encoding Go uses for byte slices is not modelled (byte slices encode
element-wise like other slices; no claim depends on their encoded form),
and nested struct values — which Go encodes by the *plain* `json` tag
rules, not the engine's — are rejected. -/
def encodeGo : GoVal → Except GoErr JsonVal
  | .vinvalid => .ok .jnull
  | .vbool b => .ok (.jbool b)
  | .vint n => .ok (.jnum n)
  | .vuint8 n => .ok (.jnum (Int.ofNat n))
  | .vuint n => .ok (.jnum (Int.ofNat n))
  | .vfloat n => .ok (.jnum n)
  | .vstring s => .ok (.jstr s)
  | .varray _ xs => do
    let js ← encodeGoList xs
    .ok (.jarr js)
  | .vslice _ xs => do
    let js ← encodeGoList xs
    .ok (.jarr js)
  | .vmap _ _ es => do
    let js ← encodeGoEntries es
    .ok (.jobj (sortByKey js))
  | .vptr _ none => .ok .jnull
  | .vptr _ (some w) => encodeGo w
  | .viface none => .ok .jnull
  | .viface (some w) => encodeGo w
  | .vstruct _ _ => .error (.msg "model boundary: nested struct encoding")

def encodeGoList : List GoVal → Except GoErr (List JsonVal)
  | [] => .ok []
  | x :: xs => do
    let j ← encodeGo x
    let js ← encodeGoList xs
    .ok (j :: js)

def encodeGoEntries : List (String × GoVal) → Except GoErr (List (String × JsonVal))
  | [] => .ok []
  | (k, x) :: xs => do
    let j ← encodeGo x
    let js ← encodeGoEntries xs
    .ok ((k, j) :: js)
end

/-- The byte-level quote wrap `"\"" + fragment + "\""` at the fragment
level: the encoding of a quotable kind is a number, and wrapping its
decimal text in quotes yields the corresponding string fragment. -/
def quoteWrap : JsonVal → JsonVal
  | .jnum n => .jstr (intToString n)
  | j => j

/-- `marshalJson`: encodes a value to a raw fragment, `null` for the
invalid value, applying the numeric quote wrap when requested. -/
def marshalJson (v : GoVal) (quote : Bool) : Except GoErr JsonVal :=
  if !v.isValid then .ok NullJson
  else do
    let j ← encodeGo v
    if quote && quotable v.kind then .ok (quoteWrap j) else .ok j

/-! ## The document mapper, marshal direction -/

/-- `fieldByIndex`: follows the index path, dereferencing between hops.
The final value is not dereferenced.  (The error return of the source can
only be the dead self-reference error; see `derefValue`.) -/
def fieldByIndex : GoVal → List Nat → GoVal
  | v, [] => v
  | v, i :: rest => fieldByIndex ((derefValue v).fieldAt i) rest

/-- `marshalId`: sets the resource type, then the id unless omitted. -/
def marshalId (v : GoVal) (r : Resource) (f : field) : Except GoErr Resource :=
  let r := { r with ident := { r.ident with rtype := f.tag.rscType } }
  let fv := derefValue (fieldByIndex v f.idxs)
  if f.tag.omitempty && isEmpty fv then .ok r
  else
    match marshalJson fv f.tag.quote with
    | .error e => .error (.marshalErr f.tag.name e)
    | .ok j => .ok { r with ident := { r.ident with id := some j } }

/-- `marshalAttr`. -/
def marshalAttr (v : GoVal) (r : Resource) (f : field) : Except GoErr Resource :=
  let fv := derefValue (fieldByIndex v f.idxs)
  if f.tag.omitempty && isEmpty fv then .ok r
  else
    match marshalJson fv f.tag.quote with
    | .error e => .error (.marshalErr f.tag.name e)
    | .ok j => .ok { r with attributes := alistSet r.attributes f.tag.name j }

/-- `marshalMeta`. -/
def marshalMeta (v : GoVal) (r : Resource) (f : field) : Except GoErr Resource :=
  let fv := derefValue (fieldByIndex v f.idxs)
  if f.tag.omitempty && isEmpty fv then .ok r
  else
    match marshalJson fv f.tag.quote with
    | .error e => .error (.marshalErr f.tag.name e)
    | .ok j => .ok { r with ident := { r.ident with meta := alistSet r.ident.meta f.tag.name j } }

/-- `marshalToOneRel`. -/
def marshalToOneRel (fv : GoVal) (r : Resource) (f : field) : Except GoErr Resource :=
  match marshalJson fv f.tag.quote with
  | .error e => .error (.marshalErr f.tag.name e)
  | .ok j =>
    let linkage : ToOneResourceLinkage := { data := { rtype := f.tag.rscType, id := some j } }
    .ok { r with toOneRelationships := alistSet r.toOneRelationships f.tag.name linkage }

/-- The element loop of `marshalToManyRel`: dereferences and transcodes
each element in order.  (The source pre-sizes the linkage and assigns per
index; on the error-free paths the claims exercise, that equals building
the list and storing it once.) -/
def marshalToManyElems (f : field) : List GoVal → Except GoErr (List ResourceIdentifier)
  | [] => .ok []
  | x :: xs =>
    match marshalJson (derefValue x) f.tag.quote with
    | .error e => .error (.marshalErr f.tag.name e)
    | .ok j => do
      let rest ← marshalToManyElems f xs
      .ok ({ rtype := f.tag.rscType, id := some j } :: rest)

/-- `marshalToManyRel`. -/
def marshalToManyRel (fv : GoVal) (r : Resource) (f : field) : Except GoErr Resource :=
  let elems := match fv with
    | .varray _ xs => xs
    | .vslice _ xs => xs
    | _ => []
  match marshalToManyElems f elems with
  | .error e => .error e
  | .ok ids =>
    let linkage : ToManyResourceLinkage := { data := ids }
    .ok { r with toManyRelationships := alistSet r.toManyRelationships f.tag.name linkage }

/-- `marshalRel`: dereferences the field, honours `omitempty`, then
dispatches on the to-one/to-many classification. -/
def marshalRel (v : GoVal) (r : Resource) (f : field) : Except GoErr Resource :=
  let fv := derefValue (fieldByIndex v f.idxs)
  if f.tag.omitempty && isEmpty fv then .ok r
  else if isToOne fv then marshalToOneRel fv r f
  else marshalToManyRel fv r f

/-- `marshalField`: dispatch on the tag type. -/
def marshalField (v : GoVal) (r : Resource) (f : field) : Except GoErr Resource :=
  if f.tag.typ = TagValueId then marshalId v r f
  else if f.tag.typ = TagValueAttr then marshalAttr v r f
  else if f.tag.typ = TagValueRel then marshalRel v r f
  else if f.tag.typ = TagValueMeta then marshalMeta v r f
  else .error (.msg ("unknown tag type " ++ f.tag.typ))

/-- The per-field marshal loop shared by `FormatResource` and
`MarshalResource`, with the per-field error wrapping of the source. -/
def marshalFields (v : GoVal) : Resource → List field → Except GoErr Resource
  | r, [] => .ok r
  | r, f :: fs =>
    match marshalField v r f with
    | .error e => .error (.wrapped ("jsonapi: marshaling field " ++ f.tag.name) e)
    | .ok r' => marshalFields v r' fs

/-! ## Document-level JSON: `Resource.MarshalJSON` / `Resource.UnmarshalJSON`

The byte-level `json.Marshal`/`json.Unmarshal` of the document is the
external codec; at the fragment level `Resource.MarshalJSON` builds the
document object (struct fields in declaration order, embedded identifier
fields first, `omitempty` dropping empty maps, map keys sorted) and
`Resource.UnmarshalJSON` consumes one. -/

/-- The three `ResourceIdentifier` members as JSON object fields
(`type,omitempty`, `id,omitempty`, `meta,omitempty`). -/
def identJsonFields (ri : ResourceIdentifier) : List (String × JsonVal) :=
  (if ri.rtype = "" then [] else [("type", JsonVal.jstr ri.rtype)])
    ++ (match ri.id with | some j => [("id", j)] | none => [])
    ++ (if ri.meta.isEmpty then [] else [("meta", JsonVal.jobj (sortByKey ri.meta))])

/-- A `ResourceIdentifier` as a JSON object. -/
def encodeIdent (ri : ResourceIdentifier) : JsonVal :=
  .jobj (identJsonFields ri)

/-- `ToOneResourceLinkage` as JSON (`links,omitempty`, `meta,omitempty`,
`data` always present). -/
def encodeToOneLinkage (l : ToOneResourceLinkage) : JsonVal :=
  .jobj ((if l.links.isEmpty then [] else [("links", JsonVal.jobj (sortByKey l.links))])
    ++ (if l.meta.isEmpty then [] else [("meta", JsonVal.jobj (sortByKey l.meta))])
    ++ [("data", encodeIdent l.data)])

/-- `ToManyResourceLinkage` as JSON. -/
def encodeToManyLinkage (l : ToManyResourceLinkage) : JsonVal :=
  .jobj ((if l.links.isEmpty then [] else [("links", JsonVal.jobj (sortByKey l.links))])
    ++ (if l.meta.isEmpty then [] else [("meta", JsonVal.jobj (sortByKey l.meta))])
    ++ [("data", JsonVal.jarr (l.data.map encodeIdent))])

/-- `Resource.MarshalJSON`: the alias struct merges both relationship maps
into one `relationships` object. -/
def resourceToJson (r : Resource) : JsonVal :=
  let rels := r.toOneRelationships.map (fun p => (p.1, encodeToOneLinkage p.2))
    ++ r.toManyRelationships.map (fun p => (p.1, encodeToManyLinkage p.2))
  .jobj (identJsonFields r.ident
    ++ (if r.attributes.isEmpty then [] else [("attributes", JsonVal.jobj (sortByKey r.attributes))])
    ++ (if rels.isEmpty then [] else [("relationships", JsonVal.jobj (sortByKey rels))])
    ++ (if r.links.isEmpty then [] else [("links", JsonVal.jobj (sortByKey r.links))]))

/-- A computation that can also panic (the model of a Go run-time panic,
e.g. an out-of-range index): `none` is the panic. -/
abbrev PResult (α : Type) := Option (Except GoErr α)

/-- Decode a JSON object into a raw-fragment map; non-objects fail like
`json.Unmarshal` into a Go map. -/
def decodeObj : JsonVal → Except GoErr (List (String × JsonVal))
  | .jobj fs => .ok fs
  | .jnull => .ok []
  | _ => .error (.msg "cannot unmarshal into map")

/-- Decode an optional string member. -/
def decodeStrField (o : List (String × JsonVal)) (k : String) : Except GoErr String :=
  match alistGet o k with
  | none => .ok ""
  | some (.jstr s) => .ok s
  | some .jnull => .ok ""
  | some _ => .error (.msg "cannot unmarshal into string")

/-- Decode a `ResourceIdentifier` from a JSON object (mirrors
`json.Unmarshal` into the struct: `type` a string, `id` kept raw, `meta` a
raw-fragment map). -/
def decodeIdent (j : JsonVal) : Except GoErr ResourceIdentifier := do
  let o ← decodeObj j
  let t ← decodeStrField o "type"
  let meta ← match alistGet o "meta" with
    | none => pure []
    | some m => decodeObj m
  .ok { rtype := t, id := alistGet o "id", meta := meta }

def decodeIdentList : List JsonVal → Except GoErr (List ResourceIdentifier)
  | [] => .ok []
  | j :: js => do
    let ri ← decodeIdent j
    let rest ← decodeIdentList js
    .ok (ri :: rest)

/-- The `relAlias` of `Resource.UnmarshalJSON`: `meta`, raw `data`
(`none` models the zero-length raw message left by an absent member), and
`links`. -/
structure relAlias where
  meta : List (String × JsonVal) := []
  data : Option JsonVal := none
  links : List (String × JsonVal) := []
deriving Repr, BEq

def decodeRelAlias (j : JsonVal) : Except GoErr relAlias := do
  let o ← decodeObj j
  let meta ← match alistGet o "meta" with
    | none => pure []
    | some m => decodeObj m
  let links ← match alistGet o "links" with
    | none => pure []
    | some m => decodeObj m
  .ok { meta := meta, data := alistGet o "data", links := links }

def decodeRelAliasEntries : List (String × JsonVal) → Except GoErr (List (String × relAlias))
  | [] => .ok []
  | (k, j) :: rest => do
    let ra ← decodeRelAlias j
    let ras ← decodeRelAliasEntries rest
    .ok ((k, ra) :: ras)

/-- The relationship-classification loop of `Resource.UnmarshalJSON`:
dispatches on the first byte of each entry's raw `data` — `[` to-many, `{`
to-one, anything else an error.  `rel.Data[0]` on a zero-length raw message
is an out-of-range index: the panic (`none`). -/
def classifyRels (r : Resource) : List (String × relAlias) → PResult Resource
  | [] => some (.ok r)
  | (name, rel) :: rest =>
    match rel.data with
    | none => none
    | some (.jarr xs) =>
      match decodeIdentList xs with
      | .error e => some (.error e)
      | .ok ids =>
        let linkage : ToManyResourceLinkage :=
          { meta := rel.meta, data := ids, links := rel.links }
        classifyRels
          { r with toManyRelationships := alistSet r.toManyRelationships name linkage } rest
    | some (.jobj o) =>
      match decodeIdent (.jobj o) with
      | .error e => some (.error e)
      | .ok ident =>
        let linkage : ToOneResourceLinkage :=
          { meta := rel.meta, data := ident, links := rel.links }
        classifyRels
          { r with toOneRelationships := alistSet r.toOneRelationships name linkage } rest
    | some _ => some (.error (.msg "cannot unmarshal into relationship data"))

/-- `Resource.UnmarshalJSON` at the fragment level. -/
def jsonToResource (j : JsonVal) : PResult Resource :=
  match (do
      let o ← decodeObj j
      let t ← decodeStrField o "type"
      let meta ← match alistGet o "meta" with
        | none => pure []
        | some m => decodeObj m
      let attrs ← match alistGet o "attributes" with
        | none => pure []
        | some m => decodeObj m
      let links ← match alistGet o "links" with
        | none => pure []
        | some m => decodeObj m
      let relsRaw ← match alistGet o "relationships" with
        | none => pure []
        | some m => decodeObj m
      let rels ← decodeRelAliasEntries relsRaw
      let r0 : Resource :=
        { ident := { rtype := t, id := alistGet o "id", meta := meta },
          attributes := attrs, links := links }
      .ok (r0, rels)
    : Except GoErr (Resource × List (String × relAlias))) with
  | .error e => some (.error e)
  | .ok (r, rels) => classifyRels r rels

/-! ## The document mapper, unmarshal direction -/

mutual
/-- The generic codec's decode into an untyped (`interface{}`) destination:
numbers become floats, arrays become `[]interface{}`, objects become
`map[string]interface{}` (external collaborator, spec §4.5). -/
def decodeAny : JsonVal → GoVal
  | .jnull => .viface none
  | .jbool b => .vbool b
  | .jnum n => .vfloat n
  | .jstr s => .vstring s
  | .jarr xs => .vslice .interface_ (decodeAnyList xs)
  | .jobj fs => .vmap .string .interface_ (decodeAnyEntries fs)

def decodeAnyList : List JsonVal → List GoVal
  | [] => []
  | x :: xs => decodeAnyElem x :: decodeAnyList xs

def decodeAnyEntries : List (String × JsonVal) → List (String × GoVal)
  | [] => []
  | (k, x) :: xs => (k, decodeAnyElem x) :: decodeAnyEntries xs

/-- One `interface{}` element of a decoded collection. -/
def decodeAnyElem : JsonVal → GoVal
  | .jnull => .viface none
  | j => .viface (some (decodeAny j))
end

mutual
/-- The generic codec's decode into a freshly allocated value of type `t`
(`reflect.New(t)` + `json.Unmarshal`), for the types of this development;
`null` leaves the fresh value zero.  Nested structs are a model boundary,
as in `encodeGo`. -/
def decodeType (t : GoType) (data : JsonVal) : Except GoErr GoVal :=
  match data with
  | .jnull => .ok t.zeroVal
  | _ =>
    match t with
    | .bool => match data with
      | .jbool b => .ok (.vbool b)
      | _ => .error (.msg "cannot unmarshal into bool")
    | .int => match data with
      | .jnum n => .ok (.vint n)
      | _ => .error (.msg "cannot unmarshal into int")
    | .uint8 => match data with
      | .jnum n => if n < 0 then .error (.msg "cannot unmarshal into uint8")
                   else .ok (.vuint8 n.toNat)
      | _ => .error (.msg "cannot unmarshal into uint8")
    | .uint => match data with
      | .jnum n => if n < 0 then .error (.msg "cannot unmarshal into uint")
                   else .ok (.vuint n.toNat)
      | _ => .error (.msg "cannot unmarshal into uint")
    | .float => match data with
      | .jnum n => .ok (.vfloat n)
      | _ => .error (.msg "cannot unmarshal into float")
    | .string => match data with
      | .jstr s => .ok (.vstring s)
      | _ => .error (.msg "cannot unmarshal into string")
    | .slice e => match data with
      | .jarr xs => do
        let vs ← decodeTypeList e xs
        .ok (.vslice e vs)
      | _ => .error (.msg "cannot unmarshal into slice")
    | .array n e => match data with
      | .jarr xs => do
        let vs ← decodeTypeList e xs
        .ok (.varray e (vs.take n ++ List.replicate (n - vs.length) e.zeroVal))
      | _ => .error (.msg "cannot unmarshal into array")
    | .gomap k e => match data with
      | .jobj fs => do
        let es ← decodeTypeEntries e fs
        .ok (.vmap k e es)
      | _ => .error (.msg "cannot unmarshal into map")
    | .pointer e => do
      let w ← decodeType e data
      .ok (.vptr e (some w))
    | .interface_ => .ok (.viface (some (decodeAny data)))
    | .struct_ _ _ => .error (.msg "model boundary: nested struct decoding")
    | .func => .error (.msg "cannot unmarshal into func")
    | .chan => .error (.msg "cannot unmarshal into chan")
    | .complex => .error (.msg "cannot unmarshal into complex")

def decodeTypeList (e : GoType) : List JsonVal → Except GoErr (List GoVal)
  | [] => .ok []
  | x :: xs => do
    let v ← decodeType e x
    let vs ← decodeTypeList e xs
    .ok (v :: vs)

def decodeTypeEntries (e : GoType) : List (String × JsonVal) → Except GoErr (List (String × GoVal))
  | [] => .ok []
  | (k, x) :: xs => do
    let v ← decodeType e x
    let vs ← decodeTypeEntries e xs
    .ok ((k, v) :: vs)
end

/-- The kind dispatch of `unmarshalJson` after the pointer loop: decodes
`data` and produces the value stored at the destination (the source sets it
through the addressable `reflect.Value`; the functional embedding returns
it).  `jnull` sets the scalar's zero value — the source decodes into a
fresh local, which `null` leaves zero, and stores it unconditionally. -/
def unmarshalJsonCore (data : JsonVal) : GoVal → Except GoErr GoVal
  | .vptr t (some w) =>
    (unmarshalJsonCore data w).map (fun w' => GoVal.vptr t (some w'))
  | .vptr _ none => .error (.msg "unaddressable value")
  | .vinvalid => .error (.msg "unaddressable value")
  | .vbool _ => match data with
    | .jbool b => .ok (.vbool b)
    | .jnull => .ok (.vbool false)
    | _ => .error (.msg "cannot unmarshal into bool")
  | .vint _ => match data with
    | .jnum n => .ok (.vint n)
    | .jnull => .ok (.vint 0)
    | _ => .error (.msg "cannot unmarshal into int")
  | .vuint8 _ => match data with
    | .jnum n => if n < 0 then .error (.msg "cannot unmarshal into uint")
                 else .ok (.vuint8 n.toNat)
    | .jnull => .ok (.vuint8 0)
    | _ => .error (.msg "cannot unmarshal into uint")
  | .vuint _ => match data with
    | .jnum n => if n < 0 then .error (.msg "cannot unmarshal into uint")
                 else .ok (.vuint n.toNat)
    | .jnull => .ok (.vuint 0)
    | _ => .error (.msg "cannot unmarshal into uint")
  | .vfloat _ => match data with
    | .jnum n => .ok (.vfloat n)
    | .jnull => .ok (.vfloat 0)
    | _ => .error (.msg "cannot unmarshal into float")
  | .vstring _ => match data with
    | .jstr s => .ok (.vstring s)
    | .jnull => .ok (.vstring "")
    | _ => .error (.msg "cannot unmarshal into string")
  | .vstruct t _ => decodeType t data
  | .varray e xs => decodeType (.array xs.length e) data
  | .vslice e _ => decodeType (.slice e) data
  | .vmap k e _ => decodeType (.gomap k e) data
  | .viface (some e) => (decodeType e.typeOf data).map (fun w => GoVal.viface (some w))
  | .viface none => match data with
    | .jnull => .ok (.viface none)
    | _ => .ok (.viface (some (decodeAny data)))

/-- The numeric parse of a quote-stripped fragment, by destination kind. -/
def unquoteParse (s : String) : GoVal → Except GoErr GoVal
  | .vint _ => match stringToInt s with
    | some n => .ok (.vint n)
    | none => .error (.msg "invalid number")
  | .vuint8 _ => match stringToNat s with
    | some n => .ok (.vuint8 n)
    | none => .error (.msg "invalid number")
  | .vuint _ => match stringToNat s with
    | some n => .ok (.vuint n)
    | none => .error (.msg "invalid number")
  | .vfloat _ => match stringToInt s with
    | some n => .ok (.vfloat n)
    | none => .error (.msg "invalid number")
  | _ => .error (.msg "invalid quoted value")

/-- `unmarshalJson`: a zero-length fragment (`none`) is a no-op; the quote
strip `data[1:len(data)-1]` applies when the destination's kind (before the
pointer loop) is quotable — on a string fragment that yields exactly its
text, which is then parsed by kind (the engine reaches this only with the
string fragments its own marshaler produced; other fragments are a model
boundary and fail). -/
def unmarshalJson (data : Option JsonVal) (v : GoVal) (quote : Bool) :
    Except GoErr GoVal :=
  match data with
  | none => .ok v
  | some d =>
    if quote && quotable v.kind then
      match d with
      | .jstr s => unquoteParse s v
      | _ => .error (.msg "model boundary: quote strip of a non-string fragment")
    else unmarshalJsonCore d v

/-- `initPtrChain`: the fully allocated chain `initValue` builds through a
nil pointer of element type `t`. -/
def initPtrChain : GoType → GoVal
  | .pointer e => .vptr e (some (initPtrChain e))
  | e => e.zeroVal

/-- `initValue`: initializes a nil pointer (and any nil pointers its fresh
target exposes) to zero values; leaves everything else untouched.  The
interface-cycle guard of the source cannot fire on the acyclic values of
this embedding; the heap embedding below models it. -/
def initValue : GoVal → GoVal
  | .vptr e none => .vptr e (some (initPtrChain e))
  | v => v

/-- Applies `k` to the dereferenced core of `v`, rebuilding the
pointer/interface wrappers around the result: the functional rendering of
mutating through `derefValue`'s result. -/
def mapDeref (k : GoVal → Except GoErr GoVal) : GoVal → Except GoErr GoVal
  | .vptr t (some w) => (mapDeref k w).map (fun w' => GoVal.vptr t (some w'))
  | .viface (some w) => (mapDeref k w).map (fun w' => GoVal.viface (some w'))
  | .vptr t none => (k .vinvalid).map (fun _ => GoVal.vptr t none)
  | .viface none => (k .vinvalid).map (fun _ => GoVal.viface none)
  | v => k v

/-- `initFieldByIndex` fused with the write that follows it: walks the
index path (dereferencing between hops and initializing nil references, as
the source does), applies `upd` to the final field value, and rebuilds the
enclosing structs — the functional rendering of initialize-then-set. -/
def initFieldUpdate : GoVal → List Nat → (GoVal → Except GoErr GoVal) → Except GoErr GoVal
  | v, [], upd => upd v
  | v, i :: rest, upd =>
    mapDeref
      (fun core =>
        match core with
        | .vstruct t fs =>
          if i < fs.length then
            let fld := initValue (fs.getD i .vinvalid)
            (initFieldUpdate fld rest upd).map (fun fld' => GoVal.vstruct t (fs.set i fld'))
          else .error (.msg "model: field index out of range")
        | _ => .error (.msg "model: field access on non-struct"))
      v

/-- `unmarshalId`: absent id (zero-length raw message) leaves the field
untouched. -/
def unmarshalId (v : GoVal) (r : Resource) (f : field) : Except GoErr GoVal :=
  match r.ident.id with
  | none => .ok v
  | some data =>
    initFieldUpdate v f.idxs (fun fv =>
      match unmarshalJson (some data) fv f.tag.quote with
      | .error e => .error (.unmarshalErr f.tag.name e)
      | .ok fv' => .ok fv')

/-- `unmarshalAttr`. -/
def unmarshalAttr (v : GoVal) (r : Resource) (f : field) : Except GoErr GoVal :=
  match alistGet r.attributes f.tag.name with
  | none => .ok v
  | some data =>
    initFieldUpdate v f.idxs (fun fv =>
      match unmarshalJson (some data) fv f.tag.quote with
      | .error e => .error (.unmarshalErr f.tag.name e)
      | .ok fv' => .ok fv')

/-- `unmarshalMeta`. -/
def unmarshalMeta (v : GoVal) (r : Resource) (f : field) : Except GoErr GoVal :=
  match alistGet r.ident.meta f.tag.name with
  | none => .ok v
  | some data =>
    initFieldUpdate v f.idxs (fun fv =>
      match unmarshalJson (some data) fv f.tag.quote with
      | .error e => .error (.unmarshalErr f.tag.name e)
      | .ok fv' => .ok fv')

/-- `unmarshalToOneRel`. -/
def unmarshalToOneRel (v : GoVal) (r : Resource) (f : field) : Except GoErr GoVal :=
  match alistGet r.toOneRelationships f.tag.name with
  | none => .ok v
  | some rel =>
    match rel.data.id with
    | none => .ok v
    | some data =>
      initFieldUpdate v f.idxs (fun fv =>
        match unmarshalJson (some data) fv f.tag.quote with
        | .error e => .error (.unmarshalErr f.tag.name e)
        | .ok fv' => .ok fv')

/-- The element loop of `unmarshalToManyRel`: after `Grow`/`SetLen`, element
`i` starts as the pre-existing element when `i` is within the old length and
as a fresh zero otherwise; each is initialized and decoded in order. -/
def unmarshalToManyElems (f : field) (e : GoType) (quote : Bool) :
    List GoVal → List ResourceIdentifier → Except GoErr (List GoVal)
  | _, [] => .ok []
  | old, ri :: rest => do
    let elem0 := initValue (old.headD e.zeroVal)
    let elem' ←
      match unmarshalJson ri.id elem0 quote with
      | .error err => .error (.unmarshalErr f.tag.name err)
      | .ok x => .ok x
    let restv ← unmarshalToManyElems f e quote (old.drop 1) rest
    .ok (elem' :: restv)

/-- `unmarshalToManyRel`.  `reflect.Value.Grow` panics when the initialized
field is not a slice (e.g. a relationship array); that is a model-boundary
error here, on a path no claim exercises. -/
def unmarshalToManyRel (v : GoVal) (r : Resource) (f : field) : Except GoErr GoVal :=
  match alistGet r.toManyRelationships f.tag.name with
  | none => .ok v
  | some rels =>
    if rels.data.isEmpty then .ok v
    else
      initFieldUpdate v f.idxs (fun fv =>
        match fv with
        | .vslice e xs => do
          let vs ← unmarshalToManyElems f e f.tag.quote xs rels.data
          .ok (.vslice e vs)
        | _ => .error (.msg "model boundary: Grow on a non-slice (run-time panic)"))

/-- `unmarshalRel`: classifies by the field's static shape, *without*
dereferencing (unlike the marshal direction). -/
def unmarshalRel (v : GoVal) (r : Resource) (f : field) : Except GoErr GoVal :=
  let fv := fieldByIndex v f.idxs
  if isToOne fv then unmarshalToOneRel v r f
  else unmarshalToManyRel v r f

/-- `unmarshalField`: dispatch on the tag type (an unknown type is a no-op
here, unlike `marshalField`). -/
def unmarshalField (v : GoVal) (r : Resource) (f : field) : Except GoErr GoVal :=
  if f.tag.typ = TagValueId then unmarshalId v r f
  else if f.tag.typ = TagValueAttr then unmarshalAttr v r f
  else if f.tag.typ = TagValueRel then unmarshalRel v r f
  else if f.tag.typ = TagValueMeta then unmarshalMeta v r f
  else .ok v

/-- The per-field unmarshal loop shared by `DeformatResource` and
`UnmarshalResource`, with the per-field error wrapping of the source. -/
def unmarshalFields (r : Resource) : GoVal → List field → Except GoErr GoVal
  | v, [] => .ok v
  | v, f :: fs =>
    match unmarshalField v r f with
    | .error e => .error (.wrapped ("jsonapi: unmarshaling field " ++ f.tag.name) e)
    | .ok v' => unmarshalFields r v' fs

/-! ## Entry points and the override hook

A Go method set is modelled as an environment mapping a type to the
implementation of the override capability, when the type has one: the
`impl` argument of `MarshalResource`/`UnmarshalResource` plays the role of
the `ResourceMarshaler`/`ResourceUnmarshaler` interface checks.
`FormatResource` and `DeformatResource` also receive the environment —
every type's method set exists whether or not a function consults it —
but their bodies never do. -/

/-- The environment of `MarshalJsonApiResource` implementations: the
method's result for a receiver value of the implementing type. -/
def MarshalerEnv : Type := GoType → Option (GoVal → Except GoErr JsonVal)

/-- The environment of `UnmarshalJsonApiResource` implementations: the
receiver's new value (Go mutates the receiver) or an error. -/
def UnmarshalerEnv : Type := GoType → Option (JsonVal → GoVal → Except GoErr GoVal)

/-- `derefInput`: the underlying value found by following all pointers and
interfaces, stopping early at a value whose type implements the sought
capability.  (Self-reference detection as in `derefValue`: dead here,
modelled in the heap embedding.) -/
def derefInput (isImpl : GoType → Bool) (v : GoVal) : GoVal :=
  if isImpl v.typeOf || (v.kind ≠ .pointer && v.kind ≠ .interface_) then v
  else
    match v with
    | .vptr _ (some w) => derefInput isImpl w
    | .viface (some w) => derefInput isImpl w
    | _ => .vinvalid

/-- `derefInput` when the caller writes through the result: applies `k` at
the stopping point and rebuilds the wrappers. -/
def mapDerefInput (isImpl : GoType → Bool) (k : GoVal → Except GoErr GoVal)
    (v : GoVal) : Except GoErr GoVal :=
  if isImpl v.typeOf || (v.kind ≠ .pointer && v.kind ≠ .interface_) then k v
  else
    match v with
    | .vptr t (some w) =>
      (mapDerefInput isImpl k w).map (fun w' => GoVal.vptr t (some w'))
    | .viface (some w) =>
      (mapDerefInput isImpl k w).map (fun w' => GoVal.viface (some w'))
    | w => (k .vinvalid).map (fun _ => w)

/-- `FormatResource`: dereference, require a struct, resolve fields, map
them into a fresh resource.  It receives the method-set environment like
every entry point but never consults it. -/
def FormatResource (_impl : MarshalerEnv) (a : GoVal) : Except GoErr Resource :=
  let v := derefValue a
  if v.kind ≠ .struct_ then .error (.wrapped "jsonapi" .notStruct)
  else
    match parseTags v with
    | .error e => .error (.wrapped "jsonapi: parsing tags" e)
    | .ok fields => marshalFields v newResource fields

/-- `MarshalResource`: override check first; otherwise the default
pipeline (resolve, map, encode the document). -/
def MarshalResource (impl : MarshalerEnv) (a : GoVal) : Except GoErr JsonVal :=
  let v := derefInput (fun t => (impl t).isSome) a
  match impl v.typeOf with
  | some m => m v
  | none =>
    if v.kind ≠ .struct_ then .error (.wrapped "jsonapi" .notStruct)
    else
      match parseTags v with
      | .error e => .error (.wrapped "jsonapi: parsing tags" e)
      | .ok fields =>
        match marshalFields v newResource fields with
        | .error e => .error e
        | .ok r => .ok (resourceToJson r)

/-- `DeformatResource`: requires a pointer to a struct, then runs the
default unmarshal pipeline on the supplied document.  Never consults the
unmarshaler-override environment. -/
def DeformatResource (_impl : UnmarshalerEnv) (r : Resource) (a : GoVal) :
    Except GoErr GoVal :=
  if a.kind ≠ .pointer then .error .notStructPtr
  else
    mapDeref
      (fun v =>
        if v.kind ≠ .struct_ then .error .notStructPtr
        else
          match parseTags v with
          | .error e => .error (.wrapped "jsonapi: parsing tags" e)
          | .ok fields => unmarshalFields r v fields)
      a

/-- `UnmarshalResource`: override check first; otherwise parse the
document (a parse that can panic — see `classifyRels`) and run the default
pipeline. -/
def UnmarshalResource (impl : UnmarshalerEnv) (data : JsonVal) (a : GoVal) :
    PResult GoVal :=
  if a.kind ≠ .pointer then some (.error .notStructPtr)
  else
    let isImpl := fun t => (impl t).isSome
    let v := derefInput isImpl a
    match impl v.typeOf with
    | some m => some (mapDerefInput isImpl (fun w => m data w) a)
    | none =>
      if v.kind ≠ .struct_ then some (.error .notStructPtr)
      else
        match jsonToResource data with
        | none => none
        | some (.error e) => some (.error (.wrapped "jsonapi: unmarshaling resource" e))
        | some (.ok r) =>
          match parseTags v with
          | .error e => some (.error (.wrapped "jsonapi: parsing tags" e))
          | .ok fields =>
            some (mapDerefInput isImpl (fun w => unmarshalFields r w fields) a)

/-! ## The heap embedding (`HeapModel`)

Self-referential references cannot exist among inductive values, so the
value accessor's cycle handling is embedded separately over an explicit
heap: a cell store addressed by `Nat`, where a `reflect.Value` is an
address (`none` being the invalid value) and the source's `u == v`
comparison of `reflect.Value`s is address equality.  Loops that the source
runs without a bound take fuel; `none` as an outer result means the fuel
ran out (the source would still be looping). -/

namespace HeapModel

/-- The static type of a heap cell, as far as allocation needs it. -/
inductive HElemKind where
  | kint
  | kfloat
  | kstring
  | kptr (elem : HElemKind)
  | kiface
deriving Repr, DecidableEq

/-- One heap cell. -/
inductive HCell where
  | hint (n : Int)
  | hfloat (n : Int)
  | hstring (s : String)
  /-- a pointer cell: its element type and target (none = nil). -/
  | hptr (elem : HElemKind) (target : Option Nat)
  /-- an interface cell: the address of the held value (none = nil). -/
  | hiface (held : Option Nat)
  /-- a struct cell: the addresses of its fields. -/
  | hstruct (fields : List Nat)
deriving Repr, DecidableEq

/-- The heap: cell `a` lives at index `a`. -/
abbrev Heap : Type := List HCell

/-- The zero cell of a type. -/
def hzeroCell : HElemKind → HCell
  | .kint => .hint 0
  | .kfloat => .hfloat 0
  | .kstring => .hstring ""
  | .kptr e => .hptr e none
  | .kiface => .hiface none

/-- The static type of the value in a cell (`reflect.Value.Type`); structs
are outside `HElemKind` and unneeded here. -/
def hcellTypeKind : HCell → Option HElemKind
  | .hint _ => some .kint
  | .hfloat _ => some .kfloat
  | .hstring _ => some .kstring
  | .hptr e _ => some (.kptr e)
  | .hiface _ => some .kiface
  | .hstruct _ => none

/-- `derefValue` over the heap: follows pointer/interface cells,
comparing each dereferenced address with the starting one (`u == v`) and
failing with `ErrSelfRefPtr` on equality, exactly as the source does.
The current value is `Option Nat` (`none` = the invalid value a nil
dereference yields).  Fuel: `none` means the loop was still running. -/
def hderefValueGo (h : Heap) (u : Nat) :
    Nat → Option Nat → Option (Except GoErr (Option Nat))
  | 0, _ => none
  | fuel + 1, v =>
    match v with
    | none => some (.ok none)
    | some a =>
      match h.get? a with
      | some (.hptr _ t) =>
        if t = some u then some (.error .selfRefPtr)
        else hderefValueGo h u fuel t
      | some (.hiface t) =>
        if t = some u then some (.error .selfRefPtr)
        else hderefValueGo h u fuel t
      | _ => some (.ok (some a))

def hderefValue (h : Heap) (fuel : Nat) (a : Nat) : Option (Except GoErr (Option Nat)) :=
  hderefValueGo h a fuel (some a)

/-- `fieldByIndex` over the heap. -/
def hfieldByIndex (h : Heap) (fuel : Nat) :
    Option Nat → List Nat → Option (Except GoErr (Option Nat))
  | v, [] => some (.ok v)
  | v, i :: rest =>
    match v with
    | none => some (.error (.msg "model: field on the invalid value"))
    | some a =>
      match hderefValue h fuel a with
      | none => none
      | some (.error e) => some (.error e)
      | some (.ok none) => some (.error (.msg "model: field on the invalid value"))
      | some (.ok (some b)) =>
        match h.get? b with
        | some (.hstruct fields) =>
          match fields.get? i with
          | some fa => hfieldByIndex h fuel (some fa) rest
          | none => some (.error (.msg "model: field index out of range"))
        | _ => some (.error (.msg "model: field on a non-struct"))

/-- `json.Marshal` of a dereferenced heap scalar (enough of the external
codec for these claims). -/
def hencode (h : Heap) (v : Option Nat) : Except GoErr JsonVal :=
  match v with
  | none => .ok NullJson
  | some a =>
    match h.get? a with
    | some (.hint n) => .ok (.jnum n)
    | some (.hfloat n) => .ok (.jnum n)
    | some (.hstring s) => .ok (.jstr s)
    | _ => .error (.msg "model boundary: heap encoding beyond scalars")

/-- `marshalAttr` over the heap (the quote flag plays no role in these
claims and is omitted): reach the field, dereference it, encode. -/
def hmarshalAttr (h : Heap) (fuel : Nat) (root : Nat) (idxs : List Nat) :
    Option (Except GoErr JsonVal) :=
  match hfieldByIndex h fuel (some root) idxs with
  | none => none
  | some (.error e) => some (.error e)
  | some (.ok none) => some (.ok NullJson)
  | some (.ok (some a)) =>
    match hderefValue h fuel a with
    | none => none
    | some (.error e) => some (.error e)
    | some (.ok fv) =>
      match hencode h fv with
      | .error e => some (.error (.marshalErr "" e))
      | .ok j => some (.ok j)

/-- Allocation of a fresh zero chain of type `e`
(`v.Set(reflect.New(...))` steps of `initValue`, and the generic codec's
pointer allocation): returns the extended heap and the address of the new
value. -/
def hallocChain (h : Heap) : HElemKind → Heap × Nat
  | .kptr e =>
    let r := hallocChain h e
    (r.1 ++ [.hptr e (some r.2)], r.1.length)
  | base => (h ++ [hzeroCell base], h.length)

/-- `initValue` over the heap: a nil pointer cell is pointed at a freshly
allocated zero chain; everything else (in particular the interface cell the
cycle claim exercises) is left untouched.  The source's dead interface
guard (see `initValue` above) is not reachable here either. -/
def hinitValue (h : Heap) (a : Nat) : Heap :=
  match h.get? a with
  | some (.hptr e none) =>
    let r := hallocChain h e
    r.1.set a (.hptr e (some r.2))
  | _ => h

/-- `initFieldByIndex` over the heap: dereference, take the field,
initialize it, repeat; returns the final field's address and the updated
heap. -/
def hinitFieldByIndex (h : Heap) (fuel : Nat) :
    Option Nat → List Nat → Option (Except GoErr (Heap × Option Nat))
  | v, [] => some (.ok (h, v))
  | v, i :: rest =>
    match v with
    | none => some (.error (.msg "model: field on the invalid value"))
    | some a =>
      match hderefValue h fuel a with
      | none => none
      | some (.error e) => some (.error e)
      | some (.ok none) => some (.error (.msg "model: field on the invalid value"))
      | some (.ok (some b)) =>
        match h.get? b with
        | some (.hstruct fields) =>
          match fields.get? i with
          | some fa => hinitFieldByIndex (hinitValue h fa) fuel (some fa) rest
          | none => some (.error (.msg "model: field index out of range"))
        | _ => some (.error (.msg "model: field on a non-struct"))

/-- The generic codec's decode of `data` into a freshly allocated value of
type `e` (the `reflect.New` + `json.Unmarshal` of `unmarshalJson`'s
interface case): returns the extended heap and the new value's address. -/
def hdecodeFresh (h : Heap) : HElemKind → JsonVal → Except GoErr (Heap × Nat)
  | .kint, .jnum n => .ok (h ++ [.hint n], h.length)
  | .kint, .jnull => .ok (h ++ [.hint 0], h.length)
  | .kfloat, .jnum n => .ok (h ++ [.hfloat n], h.length)
  | .kfloat, .jnull => .ok (h ++ [.hfloat 0], h.length)
  | .kstring, .jstr s => .ok (h ++ [.hstring s], h.length)
  | .kstring, .jnull => .ok (h ++ [.hstring ""], h.length)
  | .kptr e, .jnull => .ok (h ++ [.hptr e none], h.length)
  | .kptr e, data => do
    let r ← hdecodeFresh h e data
    .ok (r.1 ++ [.hptr e (some r.2)], r.1.length)
  | .kiface, .jnull => .ok (h ++ [.hiface none], h.length)
  | .kiface, .jnum n => .ok (h ++ [.hfloat n, .hiface (some h.length)], h.length + 1)
  | .kiface, .jbool b => .ok (h ++ [.hint (if b then 1 else 0), .hiface (some h.length)], h.length + 1)
  | .kiface, .jstr s => .ok (h ++ [.hstring s, .hiface (some h.length)], h.length + 1)
  | .kiface, _ => .error (.msg "model boundary: composite dynamic decode")
  | _, _ => .error (.msg "cannot unmarshal into this type")

/-- `unmarshalJson` over the heap, for the destinations the cycle claim
reaches: scalars are overwritten in place; an interface holding a value
decodes into a fresh value of that value's type and rebinds the interface
cell to it.  The pointer loop `for v.Kind() == Pointer` takes fuel — the
source would loop forever on a pointer cycle reaching this point. -/
def hunmarshalJson (h : Heap) : Nat → JsonVal → Nat → Option (Except GoErr Heap)
  | 0, _, _ => none
  | fuel + 1, data, a =>
    match h.get? a with
    | some (.hint _) =>
      match data with
      | .jnum n => some (.ok (h.set a (.hint n)))
      | .jnull => some (.ok (h.set a (.hint 0)))
      | _ => some (.error (.msg "cannot unmarshal into int"))
    | some (.hfloat _) =>
      match data with
      | .jnum n => some (.ok (h.set a (.hfloat n)))
      | .jnull => some (.ok (h.set a (.hfloat 0)))
      | _ => some (.error (.msg "cannot unmarshal into float"))
    | some (.hstring _) =>
      match data with
      | .jstr s => some (.ok (h.set a (.hstring s)))
      | .jnull => some (.ok (h.set a (.hstring "")))
      | _ => some (.error (.msg "cannot unmarshal into string"))
    | some (.hiface held) =>
      match held with
      | some e =>
        match hcellTypeKind ((h.get? e).getD (.hiface none)) with
        | none => some (.error (.msg "model boundary: dynamic struct type"))
        | some ek =>
          match hdecodeFresh h ek data with
          | .error er => some (.error er)
          | .ok r => some (.ok (r.1.set a (.hiface (some r.2))))
      | none =>
        match data with
        | .jnull => some (.ok (h.set a (.hiface none)))
        | _ =>
          match hdecodeFresh h .kiface data with
          | .error er => some (.error er)
          | .ok r =>
            match (r.1.get? r.2).getD (.hiface none) with
            | .hiface t => some (.ok (r.1.set a (.hiface t)))
            | _ => some (.ok (r.1.set a (.hiface (some r.2))))
    | some (.hptr _ (some t)) => hunmarshalJson h fuel data t
    | some (.hptr _ none) => some (.error (.msg "unaddressable value"))
    | _ => some (.error (.msg "model boundary: heap decode beyond scalars"))
/-- `unmarshalAttr` over the heap: initialize the field path, then decode
the attribute fragment into the field. -/
def hunmarshalAttr (h : Heap) (fuel : Nat) (data : JsonVal) (root : Nat)
    (idxs : List Nat) : Option (Except GoErr Heap) :=
  match hinitFieldByIndex h fuel (some root) idxs with
  | none => none
  | some (.error e) => some (.error e)
  | some (.ok (_, none)) => some (.error (.msg "model: invalid field"))
  | some (.ok (h', some a)) =>
    match hunmarshalJson h' fuel data a with
    | none => none
    | some (.error e) => some (.error (.unmarshalErr "" e))
    | some (.ok h'') => some (.ok h'')

end HeapModel

/-! ## Shared concrete instances for the claims -/

/-- The empty method-set environment: no type implements the marshaler
override. -/
def emptyMarshalerEnv : MarshalerEnv := fun _ => none

/-- The empty method-set environment: no type implements the unmarshaler
override. -/
def emptyUnmarshalerEnv : UnmarshalerEnv := fun _ => none

/-- The example record type of the spec: four fields annotated
`id,articles,string`, `attr,title`, `rel,author,people,string`,
`rel,comments,comments,string`. -/
def exampleArticleType : GoType := .struct_ "Article"
  [ .mk "Id" (some "id,articles,string") none false true .int
  , .mk "Title" (some "attr,title") none false true .string
  , .mk "Author" (some "rel,author,people,string") none false true .int
  , .mk "Comments" (some "rel,comments,comments,string") none false true (.slice .int)
  ]

/-- The example record value: `1`, `"Hello World"`, `2`, `[3,4]`. -/
def exampleArticle : GoVal := .vstruct exampleArticleType
  [ .vint 1, .vstring "Hello World", .vint 2, .vslice .int [.vint 3, .vint 4] ]

/-- The document the spec expects for `exampleArticle`. -/
def exampleArticleDoc : JsonVal := .jobj
  [ ("type", .jstr "articles")
  , ("id", .jstr "1")
  , ("attributes", .jobj [("title", .jstr "Hello World")])
  , ("relationships", .jobj
      [ ("author", .jobj [("data", .jobj [("type", .jstr "people"), ("id", .jstr "2")])])
      , ("comments", .jobj
          [("data", .jarr
            [ .jobj [("type", .jstr "comments"), ("id", .jstr "3")]
            , .jobj [("type", .jstr "comments"), ("id", .jstr "4")] ])])
      ])
  ]

/-! ## The claims -/

/-- **C5.** Marshaling a record whose fields are annotated
`id,articles,string` (value 1), `attr,title` (value "Hello World"),
`rel,author,people,string` (value 2) and `rel,comments,comments,string`
(value [3,4]) produces a document with type "articles", id "1", attributes
`{"title":"Hello World"}`, a to-one relationship `author` with data
`{"type":"people","id":"2"}` and a to-many relationship `comments` with
data `[{"type":"comments","id":"3"},{"type":"comments","id":"4"}]`, in
that order. -/
theorem claim_C5 :
    MarshalResource emptyMarshalerEnv exampleArticle = .ok exampleArticleDoc := by
  with_unfolding_all rfl

/-- **C2.** For a relationship field, marshaling classifies the
dereferenced value as to-many exactly when it is an array, or a slice whose
element type is not the single-byte type; byte slices and every non-collection
shape classify as to-one (`marshalRel` dispatches on `isToOne` after
`derefValue`). -/
theorem claim_C2 (fv : GoVal) :
    isToOne (derefValue fv) = false ↔
      ((derefValue fv).kind = Kind.array ∨
        ((derefValue fv).kind = Kind.slice ∧ (derefValue fv).elemKind ≠ Kind.uint8)) := by
  generalize derefValue fv = w
  cases w <;>
    simp [isToOne, GoVal.kind, GoVal.elemKind]

/-- **C10.** `FormatResource` and `DeformatResource` never consult the
custom marshaler/unmarshaler capability — their results are independent of
the method-set environment — whereas `MarshalResource` and
`UnmarshalResource` do perform the override check: on the example record,
installing an implementation changes their result. -/
theorem claim_C10 :
    (∀ (i₁ i₂ : MarshalerEnv) (a : GoVal), FormatResource i₁ a = FormatResource i₂ a)
    ∧ (∀ (i₁ i₂ : UnmarshalerEnv) (r : Resource) (a : GoVal),
        DeformatResource i₁ r a = DeformatResource i₂ r a)
    ∧ (MarshalResource
        (fun t => if t == exampleArticleType
                  then some (fun _ => .ok (.jstr "custom")) else none)
        exampleArticle
        ≠ MarshalResource emptyMarshalerEnv exampleArticle)
    ∧ (UnmarshalResource
        (fun t => if t == exampleArticleType
                  then some (fun _ _ => .ok (.vstring "custom")) else none)
        exampleArticleDoc (.vptr exampleArticleType (some exampleArticleType.zeroVal))
        ≠ UnmarshalResource emptyUnmarshalerEnv exampleArticleDoc
            (.vptr exampleArticleType (some exampleArticleType.zeroVal))) := by
  refine ⟨fun _ _ _ => rfl, fun _ _ _ _ => rfl, ?_, ?_⟩
  · intro h
    have h1 : MarshalResource
        (fun t => if t == exampleArticleType
                  then some (fun _ => .ok (.jstr "custom")) else none)
        exampleArticle = .ok (.jstr "custom") := by with_unfolding_all rfl
    rw [claim_C5] at h
    rw [h1] at h
    simp [exampleArticleDoc] at h
  · intro h
    have h1 : UnmarshalResource
        (fun t => if t == exampleArticleType
                  then some (fun _ _ => .ok (.vstring "custom")) else none)
        exampleArticleDoc (.vptr exampleArticleType (some exampleArticleType.zeroVal))
        = some (.ok (.vptr exampleArticleType (some (.vstring "custom")))) := by
      with_unfolding_all rfl
    have h2 : UnmarshalResource emptyUnmarshalerEnv exampleArticleDoc
        (.vptr exampleArticleType (some exampleArticleType.zeroVal))
        = some (.ok (.vptr exampleArticleType (some exampleArticle))) := by
      with_unfolding_all rfl
    rw [h1, h2] at h
    simp [exampleArticle] at h

/-- The heap of the self-reference test: a record `T{ A any }` whose
field `A` holds `&p` where `p = &in.A` — cell 1 (the field) is an interface
holding cell 2 (the `**any` value), a pointer to cell 3 (`p`), a pointer
back to cell 1. -/
def selfRefHeap : HeapModel.Heap :=
  [ .hstruct [1]
  , .hiface (some 2)
  , .hptr (.kptr .kiface) (some 3)
  , .hptr .kiface (some 1)
  ]

/-- The heap after unmarshaling the attribute fragment `1` into the
self-referential record: the interface field is rebound to a freshly
decoded `**any` chain ending in the float `1`; the old cycle cells remain
but are no longer referenced from the field. -/
def selfRefHeapAfter : HeapModel.Heap :=
  [ .hstruct [1]
  , .hiface (some 7)
  , .hptr (.kptr .kiface) (some 3)
  , .hptr .kiface (some 1)
  , .hfloat 1
  , .hiface (some 4)
  , .hptr .kiface (some 5)
  , .hptr (.kptr .kiface) (some 6)
  ]

/-- **C4.** Marshaling a record containing a reference that points directly
back to itself fails with `ErrSelfRefPtr` (for every sufficient loop
budget — the dereference loop stops by itself), while unmarshaling a
document into a record containing a pre-existing self-referential reference
succeeds and terminates: the write-path initialization does not follow the
cycle, and the field is rebound to the freshly decoded value. -/
theorem claim_C4 :
    (∀ fuel, 3 ≤ fuel →
      HeapModel.hmarshalAttr selfRefHeap fuel 0 [0]
        = some (.error .selfRefPtr))
    ∧ (∀ fuel, 1 ≤ fuel →
      HeapModel.hunmarshalAttr selfRefHeap fuel (.jnum 1) 0 [0]
        = some (.ok selfRefHeapAfter)) := by
  constructor
  · intro fuel h
    obtain ⟨f, rfl⟩ : ∃ f, fuel = f + 3 := ⟨fuel - 3, by omega⟩
    with_unfolding_all rfl
  · intro fuel h
    obtain ⟨f, rfl⟩ : ∃ f, fuel = f + 1 := ⟨fuel - 1, by omega⟩
    with_unfolding_all rfl

/-- Witness for the fuel hypotheses of C4 at the concrete budget 3. -/
theorem claim_C4_witness :
    HeapModel.hmarshalAttr selfRefHeap 3 0 [0] = some (.error .selfRefPtr)
    ∧ HeapModel.hunmarshalAttr selfRefHeap 3 (.jnum 1) 0 [0]
        = some (.ok selfRefHeapAfter) :=
  ⟨claim_C4.1 3 (by decide), claim_C4.2 3 (by decide)⟩

/-- **C7.** Annotation parsing fails with a `TagErr` when the kind token is
unrecognized, or when the mandatory resource-type token is missing for the
`id` and `rel` kinds (all assuming the field's kind is mappable), and fails
with an `UnsupportedTypeErr` whenever the field's underlying type, after
following pointer indirection, is a function, channel or complex-number
type — regardless of the annotation. -/
theorem claim_C7 :
    (∀ (f : StructField) (typ opts : String),
        (derefType f.typ).kind ≠ .func → (derefType f.typ).kind ≠ .chan →
        (derefType f.typ).kind ≠ .complex →
        typ ≠ TagValueId → typ ≠ TagValueAttr → typ ≠ TagValueMeta → typ ≠ TagValueRel →
        parseTag f typ opts = .error (.tagErr f.name ("unknown tag type: " ++ typ)))
    ∧ (∀ (f : StructField) (opts : String),
        (derefType f.typ).kind ≠ .func → (derefType f.typ).kind ≠ .chan →
        (derefType f.typ).kind ≠ .complex →
        (splitFirstAndOpts opts).1 = "" →
        parseTag f TagValueId opts = .error (.tagErr f.name "required: type"))
    ∧ (∀ (f : StructField) (opts : String),
        (derefType f.typ).kind ≠ .func → (derefType f.typ).kind ≠ .chan →
        (derefType f.typ).kind ≠ .complex →
        (splitFirstAndOpts (splitNameAndOpts f opts).2.2).1 = "" →
        parseTag f TagValueRel opts = .error (.tagErr f.name "required: type"))
    ∧ (∀ (f : StructField) (typ opts : String),
        ((derefType f.typ).kind = .func ∨ (derefType f.typ).kind = .chan ∨
          (derefType f.typ).kind = .complex) →
        parseTag f typ opts = .error (.unsupportedType f.name (derefType f.typ).kind)) := by
  refine ⟨?_, ?_, ?_, ?_⟩
  · intro f typ opts hf hc hx h1 h2 h3 h4
    unfold parseTag
    generalize (derefType f.typ).kind = k at *
    cases k <;> simp_all [TagValueId, TagValueAttr, TagValueMeta, TagValueRel]
  · intro f opts hf hc hx hempty
    unfold parseTag
    generalize (derefType f.typ).kind = k at *
    have hid : (TagValueId = TagValueId) = True := by simp
    cases k <;>
      simp_all [TagValueId, TagValueAttr, TagValueMeta, TagValueRel, parseIdTag]
  · intro f opts hf hc hx hempty
    unfold parseTag
    generalize (derefType f.typ).kind = k at *
    cases k <;>
      simp_all [TagValueId, TagValueAttr, TagValueMeta, TagValueRel, parseRelTag]
  · intro f typ opts hk
    unfold parseTag
    rcases hk with h | h | h <;> rw [h]

/-- Witness for C7: each error mode exhibited at a concrete field. -/
theorem claim_C7_witness :
    parseTag (.mk "F" none none false true .int) "bogus" ""
      = .error (.tagErr "F" "unknown tag type: bogus")
    ∧ parseTag (.mk "F" none none false true .int) TagValueId ""
      = .error (.tagErr "F" "required: type")
    ∧ parseTag (.mk "F" none none false true .int) TagValueRel "name"
      = .error (.tagErr "F" "required: type")
    ∧ parseTag (.mk "F" none none false true .func) TagValueAttr "x"
      = .error (.unsupportedType "F" .func) :=
  ⟨claim_C7.1 (.mk "F" none none false true .int) "bogus" ""
      (by decide) (by decide) (by decide) (by decide) (by decide) (by decide) (by decide),
   claim_C7.2.1 (.mk "F" none none false true .int) ""
      (by decide) (by decide) (by decide) (by decide),
   claim_C7.2.2.1 (.mk "F" none none false true .int) "name"
      (by decide) (by decide) (by decide) (by decide),
   claim_C7.2.2.2 (.mk "F" none none false true .func) TagValueAttr "x"
      (Or.inl (by decide))⟩

/-- **C6.** A field tagged `omitempty` whose dereferenced value is empty
(invalid, the kind's zero value, or an empty array/slice/map — `isEmpty`)
is left entirely absent by marshaling: `marshalField` succeeds and leaves
every document section's entries exactly as they were (for an `id` field
the resource type is still recorded, but the `id` member itself stays
absent), so a key absent before stays absent — in particular it is not
emitted as `null`. -/
theorem claim_C6 (v : GoVal) (r : Resource) (f : field)
    (htyp : f.tag.typ = TagValueId ∨ f.tag.typ = TagValueAttr ∨
      f.tag.typ = TagValueRel ∨ f.tag.typ = TagValueMeta)
    (homit : f.tag.omitempty = true)
    (hempty : isEmpty (derefValue (fieldByIndex v f.idxs)) = true) :
    ∃ r', marshalField v r f = .ok r'
      ∧ r'.attributes = r.attributes
      ∧ r'.ident.id = r.ident.id
      ∧ r'.ident.meta = r.ident.meta
      ∧ r'.toOneRelationships = r.toOneRelationships
      ∧ r'.toManyRelationships = r.toManyRelationships
      ∧ r'.links = r.links := by
  rcases htyp with h | h | h | h
  · refine ⟨{ r with ident := { r.ident with rtype := f.tag.rscType } },
      ?_, rfl, rfl, rfl, rfl, rfl, rfl⟩
    simp [marshalField, h, marshalId, homit, hempty]
  · refine ⟨r, ?_, rfl, rfl, rfl, rfl, rfl, rfl⟩
    simp [marshalField, h, marshalAttr, homit, hempty, TagValueAttr, TagValueId]
  · refine ⟨r, ?_, rfl, rfl, rfl, rfl, rfl, rfl⟩
    simp [marshalField, h, marshalRel, homit, hempty, TagValueRel, TagValueId, TagValueAttr]
  · refine ⟨r, ?_, rfl, rfl, rfl, rfl, rfl, rfl⟩
    simp [marshalField, h, marshalMeta, homit, hempty, TagValueMeta, TagValueId,
      TagValueAttr, TagValueRel]

/-- Witness for C6: an `omitempty` attribute holding an empty slice on a
resource that does not contain the key — the key stays absent. -/
theorem claim_C6_witness :
    ∃ r', marshalField
        (.vstruct (.struct_ "T" [.mk "A" (some "attr,a,omitempty") none false true (.slice .int)])
          [.vslice .int []])
        newResource
        { tag := { typ := "attr", name := "a", omitempty := true }, idxs := [0] }
      = .ok r'
      ∧ r'.attributes = newResource.attributes
      ∧ r'.ident.id = newResource.ident.id
      ∧ r'.ident.meta = newResource.ident.meta
      ∧ r'.toOneRelationships = newResource.toOneRelationships
      ∧ r'.toManyRelationships = newResource.toManyRelationships
      ∧ r'.links = newResource.links :=
  claim_C6 _ newResource _ (Or.inr (Or.inl rfl)) rfl (by decide)

/-- A document whose relationships object holds a single entry. -/
def relDoc (name : String) (relFields : List (String × JsonVal)) : JsonVal :=
  .jobj [("relationships", .jobj [(name, .jobj relFields)])]

/-- **C9.** Document parsing classifies each relationship entry by the
first byte of its raw `data` member: an array fragment yields a to-many
relationship, an object fragment a to-one relationship, and any other
fragment the relationship-data error; when the `data` member is absent (a
zero-length raw message), the first-byte access `rel.Data[0]` has no
defined branch — the parse panics (modelled as `none`). -/
theorem claim_C9 :
    (∀ (name : String) (xs : List JsonVal) (ids : List ResourceIdentifier),
      decodeIdentList xs = .ok ids →
      jsonToResource (relDoc name [("data", .jarr xs)])
        = some (.ok { toManyRelationships := [(name, { data := ids })] }))
    ∧ (∀ (name : String) (o : List (String × JsonVal)) (ident : ResourceIdentifier),
      decodeIdent (.jobj o) = .ok ident →
      jsonToResource (relDoc name [("data", .jobj o)])
        = some (.ok { toOneRelationships := [(name, { data := ident })] }))
    ∧ (∀ (name : String) (d : JsonVal),
      (∀ xs, d ≠ .jarr xs) → (∀ o, d ≠ .jobj o) →
      jsonToResource (relDoc name [("data", d)])
        = some (.error (.msg "cannot unmarshal into relationship data")))
    ∧ (∀ name : String, jsonToResource (relDoc name []) = none) := by
  refine ⟨?_, ?_, ?_, ?_⟩
  · intro name xs ids h
    simp [jsonToResource, relDoc, decodeObj, decodeStrField, alistGet,
      decodeRelAliasEntries, decodeRelAlias, classifyRels, alistSet, h,
      bind, Except.bind, pure, Except.pure]
  · intro name o ident h
    simp [jsonToResource, relDoc, decodeObj, decodeStrField, alistGet,
      decodeRelAliasEntries, decodeRelAlias, classifyRels, alistSet, h,
      bind, Except.bind, pure, Except.pure]
  · intro name d h1 h2
    cases d <;>
      simp_all [jsonToResource, relDoc, decodeObj, decodeStrField, alistGet,
        decodeRelAliasEntries, decodeRelAlias, classifyRels, alistSet,
        bind, Except.bind, pure, Except.pure]
  · intro name
    simp [jsonToResource, relDoc, decodeObj, decodeStrField, alistGet,
      decodeRelAliasEntries, decodeRelAlias, classifyRels,
      bind, Except.bind, pure, Except.pure]

/-- Witness for C9: the three defined branches and the panic at concrete
fragments. -/
theorem claim_C9_witness :
    jsonToResource (relDoc "r" [("data", .jarr [])])
      = some (.ok { toManyRelationships := [("r", { data := [] })] })
    ∧ jsonToResource (relDoc "r" [("data", .jobj [])])
      = some (.ok { toOneRelationships := [("r", { data := {} })] })
    ∧ jsonToResource (relDoc "r" [("data", .jnum 7)])
      = some (.error (.msg "cannot unmarshal into relationship data"))
    ∧ jsonToResource (relDoc "r" []) = none :=
  ⟨claim_C9.1 "r" [] [] rfl,
   claim_C9.2.1 "r" [] {} rfl,
   claim_C9.2.2.1 "r" (.jnum 7) (by intro xs h; cases h) (by intro o h; cases h),
   claim_C9.2.2.2 "r"⟩

/-- **C8.** When the (pointer-dereferenced) input type implements the
custom resource marshaler capability, `MarshalResource` returns that
implementation's result verbatim — the equation says its output *is* the
override's output, so the tag-resolution/mapping pipeline never runs;
symmetrically, `UnmarshalResource` delegates the raw document to a custom
resource unmarshaler and the default pipeline never runs. -/
theorem claim_C8 :
    (∀ (impl : MarshalerEnv) (a : GoVal) (m : GoVal → Except GoErr JsonVal),
      impl ((derefInput (fun t => (impl t).isSome) a).typeOf) = some m →
      MarshalResource impl a = m (derefInput (fun t => (impl t).isSome) a))
    ∧ (∀ (impl : UnmarshalerEnv) (data : JsonVal) (a : GoVal)
        (m : JsonVal → GoVal → Except GoErr GoVal),
      a.kind = .pointer →
      impl ((derefInput (fun t => (impl t).isSome) a).typeOf) = some m →
      UnmarshalResource impl data a
        = some (mapDerefInput (fun t => (impl t).isSome) (fun w => m data w) a)) := by
  constructor
  · intro impl a m h
    simp [MarshalResource, h]
  · intro impl data a m hk h
    simp [UnmarshalResource, hk, h]

/-- Witness for C8: a type carrying both override capabilities; both entry
points return the override's verbatim result. -/
theorem claim_C8_witness :
    MarshalResource
        (fun t => if t == exampleArticleType
                  then some (fun _ => .ok (.jstr "custom")) else none)
        exampleArticle
      = .ok (.jstr "custom")
    ∧ UnmarshalResource
        (fun t => if t == exampleArticleType
                  then some (fun _ _ => .ok (.vstring "custom")) else none)
        exampleArticleDoc (.vptr exampleArticleType (some exampleArticleType.zeroVal))
      = some (mapDerefInput
          (fun t => ((fun t => if t == exampleArticleType
                     then some (fun (_ : JsonVal) (_ : GoVal) =>
                       (.ok (.vstring "custom") : Except GoErr GoVal)) else none) t).isSome)
          (fun w => (fun (_ : JsonVal) (_ : GoVal) =>
            (.ok (.vstring "custom") : Except GoErr GoVal)) exampleArticleDoc w)
          (.vptr exampleArticleType (some exampleArticleType.zeroVal))) := by
  constructor
  · rw [claim_C8.1
      (fun t => if t == exampleArticleType
                then some (fun _ => .ok (.jstr "custom")) else none)
      exampleArticle (fun _ => .ok (.jstr "custom")) (by with_unfolding_all rfl)]
  · exact claim_C8.2
      (fun t => if t == exampleArticleType
                then some (fun _ _ => .ok (.vstring "custom")) else none)
      exampleArticleDoc (.vptr exampleArticleType (some exampleArticleType.zeroVal))
      (fun _ _ => .ok (.vstring "custom")) rfl (by with_unfolding_all rfl)

/-! ### Supporting lemmas for claim C3 -/

theorem chunkRunsByGo_fuel (eq : field → field → Bool) :
    ∀ (n : Nat) (fs : List field), fs.length = n → ∀ (f₁ f₂ : Nat),
      fs.length ≤ f₁ → fs.length ≤ f₂ →
      chunkRunsByGo eq f₁ fs = chunkRunsByGo eq f₂ fs := by
  intro n
  induction n using Nat.strong_induction_on with
  | _ n ih =>
    intro fs hn f₁ f₂ h₁ h₂
    match fs with
    | [] => cases f₁ <;> cases f₂ <;> simp [chunkRunsByGo]
    | f :: rest =>
      match f₁, f₂, Nat.lt_of_lt_of_le (show 0 < (f :: rest).length by simp) h₁,
        Nat.lt_of_lt_of_le (show 0 < (f :: rest).length by simp) h₂ with
      | a + 1, b + 1, _, _ =>
        simp only [chunkRunsByGo, List.cons.injEq, true_and]
        have hd : (rest.dropWhile (eq f)).length ≤ rest.length :=
          length_dropWhile_le _ _
        have hrest : rest.length < n := by
          rw [← hn]; simp
        exact ih (rest.dropWhile (eq f)).length (by omega)
          _ rfl a b (by simp at h₁; omega) (by simp at h₂; omega)

theorem chunkRunsBy_cons (eq : field → field → Bool) (f : field) (fs : List field) :
    chunkRunsBy eq (f :: fs)
      = (f :: fs.takeWhile (eq f)) :: chunkRunsBy eq (fs.dropWhile (eq f)) := by
  show chunkRunsByGo eq (f :: fs).length (f :: fs) = _
  simp only [List.length_cons, chunkRunsByGo, List.cons.injEq, true_and]
  exact chunkRunsByGo_fuel eq _ _ rfl _ _ (length_dropWhile_le _ _) (le_refl _)

theorem chunkRunsBy_nil (eq : field → field → Bool) : chunkRunsBy eq [] = [] := rfl

theorem head_dropWhile_not (p : field → Bool) :
    ∀ (l : List field) (b : field), (l.dropWhile p).head? = some b → p b = false := by
  intro l
  induction l with
  | nil => intro b h; simp [List.dropWhile] at h
  | cons x xs ih =>
    intro b h
    by_cases hx : p x
    · rw [List.dropWhile_cons_of_pos hx] at h
      exact ih b h
    · rw [List.dropWhile_cons_of_neg hx] at h
      simp only [List.head?_cons, Option.some.injEq] at h
      subst h
      exact Bool.not_eq_true _ ▸ (by simpa using hx)

theorem takeWhile_typrun (t : String) (h : field) (hh : h.tag.typ = t) (d : List field)
    (hd : ∀ b, d.head? = some b → b.tag.typ ≠ t) :
    ∀ xs : List field, (∀ a ∈ xs, a.tag.typ = t) →
      (xs ++ d).takeWhile (sameTypName h) = xs.takeWhile (sameName h) := by
  intro xs
  induction xs with
  | nil =>
    intro _
    match d with
    | [] => rfl
    | b :: bs =>
      have hb : b.tag.typ ≠ t := hd b rfl
      have : sameTypName h b = false := by
        simp [sameTypName, sameTyp, hh]
        intro hcontra
        exact absurd hcontra.symm hb
      simp [List.takeWhile, this]
  | cons a xs ih =>
    intro hall
    have ha : a.tag.typ = t := hall a (by simp)
    have hst : sameTyp h a = true := by simp [sameTyp, hh, ha]
    have hstn : sameTypName h a = sameName h a := by
      simp [sameTypName, hst]
    by_cases hn : sameName h a
    · simp only [List.cons_append, List.takeWhile_cons, hstn, hn, if_true,
        List.cons.injEq, true_and]
      exact ih (fun x hx => hall x (by simp [hx]))
    · simp only [Bool.not_eq_true] at hn
      simp [List.takeWhile_cons, hstn, hn]

theorem dropWhile_typrun (t : String) (h : field) (hh : h.tag.typ = t) (d : List field)
    (hd : ∀ b, d.head? = some b → b.tag.typ ≠ t) :
    ∀ xs : List field, (∀ a ∈ xs, a.tag.typ = t) →
      (xs ++ d).dropWhile (sameTypName h) = xs.dropWhile (sameName h) ++ d := by
  intro xs
  induction xs with
  | nil =>
    intro _
    match d with
    | [] => rfl
    | b :: bs =>
      have hb : b.tag.typ ≠ t := hd b rfl
      have : sameTypName h b = false := by
        simp [sameTypName, sameTyp, hh]
        intro hcontra
        exact absurd hcontra.symm hb
      simp [List.dropWhile, this]
  | cons a xs ih =>
    intro hall
    have ha : a.tag.typ = t := hall a (by simp)
    have hst : sameTyp h a = true := by simp [sameTyp, hh, ha]
    have hstn : sameTypName h a = sameName h a := by
      simp [sameTypName, hst]
    by_cases hn : sameName h a
    · simp only [List.cons_append, List.dropWhile_cons, hstn, hn, if_true]
      exact ih (fun x hx => hall x (by simp [hx]))
    · simp only [Bool.not_eq_true] at hn
      simp [List.dropWhile_cons, hstn, hn]

theorem chunk_typrun_append (t : String) :
    ∀ (n : Nat) (xs : List field), xs.length = n →
      ∀ (d : List field), (∀ a ∈ xs, a.tag.typ = t) →
      (∀ b, d.head? = some b → b.tag.typ ≠ t) →
      chunkRunsBy sameTypName (xs ++ d)
        = chunkRunsBy sameName xs ++ chunkRunsBy sameTypName d := by
  intro n
  induction n using Nat.strong_induction_on with
  | _ n ih =>
    intro xs hn d hx hd
    match xs with
    | [] => simp [chunkRunsBy_nil]
    | h :: rest =>
      have hh : h.tag.typ = t := hx h (by simp)
      have hrest : ∀ a ∈ rest, a.tag.typ = t := fun a ha => hx a (by simp [ha])
      rw [List.cons_append, chunkRunsBy_cons, chunkRunsBy_cons]
      rw [takeWhile_typrun t h hh d hd rest hrest,
        dropWhile_typrun t h hh d hd rest hrest]
      simp only [List.cons_append, List.cons.injEq, true_and]
      have hsub : ∀ a ∈ rest.dropWhile (sameName h), a.tag.typ = t :=
        fun a ha => hrest a ((List.dropWhile_sublist (sameName h)).subset ha)
      have hlen : (rest.dropWhile (sameName h)).length < n := by
        have := length_dropWhile_le (sameName h) rest
        have : rest.length < n := by rw [← hn]; simp
        omega
      exact ih _ hlen _ rfl d hsub hd

theorem chunk_two_level :
    ∀ (n : Nat) (fs : List field), fs.length = n →
      chunkRunsBy sameTypName fs
        = (chunkRunsBy sameTyp fs).flatMap (chunkRunsBy sameName) := by
  intro n
  induction n using Nat.strong_induction_on with
  | _ n ih =>
    intro fs hn
    match fs with
    | [] => simp [chunkRunsBy_nil]
    | f :: rest =>
      have hsplit : f :: rest
          = (f :: rest.takeWhile (sameTyp f)) ++ rest.dropWhile (sameTyp f) := by
        simp [List.takeWhile_append_dropWhile]
      have hx : ∀ a ∈ f :: rest.takeWhile (sameTyp f), a.tag.typ = f.tag.typ := by
        intro a ha
        rcases List.mem_cons.mp ha with h | h
        · rw [h]
        · have := List.mem_takeWhile_imp h
          simp only [sameTyp, beq_iff_eq] at this
          exact this.symm
      have hd : ∀ b, (rest.dropWhile (sameTyp f)).head? = some b →
          b.tag.typ ≠ f.tag.typ := by
        intro b hb
        have := head_dropWhile_not (sameTyp f) rest b hb
        simp only [sameTyp, beq_eq_false_iff_ne, ne_eq] at this
        exact fun hc => this hc.symm
      calc chunkRunsBy sameTypName (f :: rest)
          = chunkRunsBy sameTypName
              ((f :: rest.takeWhile (sameTyp f)) ++ rest.dropWhile (sameTyp f)) := by
            rw [← hsplit]
        _ = chunkRunsBy sameName (f :: rest.takeWhile (sameTyp f))
              ++ chunkRunsBy sameTypName (rest.dropWhile (sameTyp f)) :=
            chunk_typrun_append f.tag.typ _ _ rfl _ hx hd
        _ = chunkRunsBy sameName (f :: rest.takeWhile (sameTyp f))
              ++ (chunkRunsBy sameTyp (rest.dropWhile (sameTyp f))).flatMap
                  (chunkRunsBy sameName) := by
            rw [ih (rest.dropWhile (sameTyp f)).length
              (by have := length_dropWhile_le (sameTyp f) rest
                  have : rest.length < n := by rw [← hn]; simp
                  omega) _ rfl]
        _ = (chunkRunsBy sameTyp (f :: rest)).flatMap (chunkRunsBy sameName) := by
            rw [chunkRunsBy_cons sameTyp]
            simp

theorem chunkRunsBy_sublist (eq : field → field → Bool) :
    ∀ (n : Nat) (fs : List field), fs.length = n →
      ∀ run ∈ chunkRunsBy eq fs, List.Sublist run fs := by
  intro n
  induction n using Nat.strong_induction_on with
  | _ n ih =>
    intro fs hn run hrun
    match fs with
    | [] => simp [chunkRunsBy_nil] at hrun
    | f :: rest =>
      rw [chunkRunsBy_cons] at hrun
      rcases List.mem_cons.mp hrun with h | h
      · rw [h]
        exact List.Sublist.cons₂ f (List.takeWhile_sublist (eq f))
      · have hlen : (rest.dropWhile (eq f)).length < n := by
          have := length_dropWhile_le (eq f) rest
          have : rest.length < n := by rw [← hn]; simp
          omega
        have := ih _ hlen _ rfl run h
        exact this.trans ((List.dropWhile_sublist (eq f)).trans (List.sublist_cons_self f rest))

theorem chunkRunsBy_head2 (eq : field → field → Bool) :
    ∀ (n : Nat) (fs : List field), fs.length = n →
      ∀ run ∈ chunkRunsBy eq fs, ∀ f0 f1 t, run = f0 :: f1 :: t → eq f0 f1 = true := by
  intro n
  induction n using Nat.strong_induction_on with
  | _ n ih =>
    intro fs hn run hrun f0 f1 t heq
    match fs with
    | [] => simp [chunkRunsBy_nil] at hrun
    | f :: rest =>
      rw [chunkRunsBy_cons] at hrun
      rcases List.mem_cons.mp hrun with h | h
      · rw [h] at heq
        injection heq with h1 h2
        have hf1 : f1 ∈ rest.takeWhile (eq f) := by rw [h2]; simp
        rw [← h1]
        exact List.mem_takeWhile_imp hf1
      · have hlen : (rest.dropWhile (eq f)).length < n := by
          have := length_dropWhile_le (eq f) rest
          have : rest.length < n := by rw [← hn]; simp
          omega
        exact ih _ hlen _ rfl run h f0 f1 t heq

/-- The claim's own wording of the survivor of one `(kind, name)` run: the
first field survives exactly when it is strictly shallower than the next,
or equally shallow with strictly higher name precedence; otherwise the run
is dropped.  (The comparison definition for the refinement proof of C3.) -/
def claimDominantRun (run : List field) : List field :=
  match run with
  | [] => []
  | [f] => [f]
  | f0 :: f1 :: _ =>
    if f0.idxs.length < f1.idxs.length
        ∨ (f0.idxs.length = f1.idxs.length ∧ f1.tag.namePrec < f0.tag.namePrec)
    then [f0] else []

theorem getDominant_eq_claim (run : List field)
    (hchain : ∀ f0 f1 t, run = f0 :: f1 :: t →
      fieldLE f0 f1 = true ∧ sameTypName f0 f1 = true) :
    (getDominantField run).toList = claimDominantRun run := by
  match run with
  | [] => rfl
  | [f] => rfl
  | f0 :: f1 :: t =>
    obtain ⟨hle, hstn⟩ := hchain f0 f1 t rfl
    have htyp : f0.tag.typ = f1.tag.typ := by
      simp [sameTypName, sameTyp, sameName] at hstn
      exact hstn.1
    have hname : f0.tag.name = f1.tag.name := by
      simp [sameTypName, sameTyp, sameName] at hstn
      exact hstn.2
    have hcmp : fieldCmp f0 f1
        = (compare f0.idxs.length f1.idxs.length).then
            (compare f1.tag.namePrec f0.tag.namePrec) := by
      unfold fieldCmp
      rw [htyp, hname, compare_eq_iff_eq.mpr rfl, compare_eq_iff_eq.mpr rfl]
      rfl
    rw [fieldLE, hcmp] at hle
    have hfact : f0.idxs.length < f1.idxs.length
        ∨ (f0.idxs.length = f1.idxs.length ∧ f1.tag.namePrec ≤ f0.tag.namePrec) := by
      rcases h1 : compare f0.idxs.length f1.idxs.length with _ | _ | _
      · exact Or.inl (Nat.compare_eq_lt.mp h1)
      · right
        refine ⟨Nat.compare_eq_eq.mp h1, ?_⟩
        rw [h1] at hle
        rcases h2 : compare f1.tag.namePrec f0.tag.namePrec with _ | _ | _
        · exact le_of_lt (Nat.compare_eq_lt.mp h2)
        · exact le_of_eq (Nat.compare_eq_eq.mp h2)
        · rw [h2] at hle; simp [Ordering.then] at hle
      · rw [h1] at hle; simp [Ordering.then] at hle
    show (if f0.idxs.length = f1.idxs.length ∧ f0.tag.namePrec = f1.tag.namePrec
          then (none : Option field) else some f0).toList = _
    unfold claimDominantRun
    by_cases hcond : f0.idxs.length = f1.idxs.length ∧ f0.tag.namePrec = f1.tag.namePrec
    · obtain ⟨he, hp⟩ := hcond
      rw [if_pos ⟨he, hp⟩]
      show (none : Option field).toList = claimDominantRun (f0 :: f1 :: t)
      simp only [claimDominantRun]
      rw [if_neg (by omega)]
      rfl
    · have hpos : f0.idxs.length < f1.idxs.length
          ∨ (f0.idxs.length = f1.idxs.length ∧ f1.tag.namePrec < f0.tag.namePrec) := by
        rcases hfact with h | ⟨h1, h2⟩
        · exact Or.inl h
        · right
          refine ⟨h1, ?_⟩
          rcases Nat.lt_or_ge f1.tag.namePrec f0.tag.namePrec with h3 | h3
          · exact h3
          · exact absurd ⟨h1, (le_antisymm h2 h3).symm⟩ hcond
      rw [if_neg hcond]
      show (some f0).toList = claimDominantRun (f0 :: f1 :: t)
      simp only [claimDominantRun]
      rw [if_pos hpos]
      rfl

theorem flatMap_congr_mem {α β : Type} (l : List α) (f g : α → List β)
    (h : ∀ a ∈ l, f a = g a) : l.flatMap f = l.flatMap g := by
  induction l with
  | nil => rfl
  | cons x xs ih =>
    simp only [List.flatMap_cons]
    rw [h x (by simp), ih (fun a ha => h a (by simp [ha]))]

/-- **C3.** For every resolved field list, after sorting by
`(kind, name, path length ascending, name precedence descending)`, the
collision filter of `parseTags` keeps, from each run of fields sharing kind
and name, exactly the fields the claim describes: the first of the run
survives exactly when it is strictly shallower than the next field of the
run or equally shallow with strictly higher name precedence, otherwise the
run is dropped entirely — and every run contributes at most one surviving
field (elimination is not an error: the filter is total). -/
theorem claim_C3 (fs : List field) (hsorted : List.Pairwise fieldLEProp fs) :
    filterDominantFields fs = (chunkRunsBy sameTypName fs).flatMap claimDominantRun
    ∧ ∀ run ∈ chunkRunsBy sameTypName fs, (claimDominantRun run).length ≤ 1 := by
  constructor
  · have h1 : filterDominantFields fs
        = ((chunkRunsBy sameTyp fs).flatMap (chunkRunsBy sameName)).flatMap
            (fun run => (getDominantField run).toList) := by
      unfold filterDominantFields
      rw [List.flatMap_assoc]
    rw [h1, ← chunk_two_level fs.length fs rfl]
    apply flatMap_congr_mem
    intro run hrun
    apply getDominant_eq_claim
    intro f0 f1 t heq
    constructor
    · have hsub := chunkRunsBy_sublist sameTypName fs.length fs rfl run hrun
      have hpw : List.Pairwise fieldLEProp run := hsorted.sublist hsub
      rw [heq] at hpw
      have := (List.pairwise_cons.mp hpw).1 f1 (by simp)
      exact this
    · exact chunkRunsBy_head2 sameTypName fs.length fs rfl run hrun f0 f1 t heq
  · intro run _
    match run with
    | [] => simp [claimDominantRun]
    | [f] => simp [claimDominantRun]
    | f0 :: f1 :: t =>
      simp only [claimDominantRun]
      split <;> simp

/-- Witness for C3 at a concrete sorted list: two attribute fields sharing
kind and name at equal depth and equal precedence form one run and are both
dropped. -/
theorem claim_C3_witness :
    filterDominantFields
        [ { tag := { typ := "attr", name := "a", namePrec := 3 }, idxs := [0] }
        , { tag := { typ := "attr", name := "a", namePrec := 3 }, idxs := [1] } ]
      = (chunkRunsBy sameTypName
          [ { tag := { typ := "attr", name := "a", namePrec := 3 }, idxs := [0] }
          , { tag := { typ := "attr", name := "a", namePrec := 3 }, idxs := [1] } ]).flatMap
          claimDominantRun
    ∧ ∀ run ∈ chunkRunsBy sameTypName
          [ { tag := { typ := "attr", name := "a", namePrec := 3 }, idxs := [0] }
          , { tag := { typ := "attr", name := "a", namePrec := 3 }, idxs := [1] } ],
        (claimDominantRun run).length ≤ 1 :=
  claim_C3 _ (by decide)

/-! ### Claim C1: the round trip

The round trip fails as literally stated: a nil pointer in an attribute
field marshals to `null`, and unmarshaling `null` first *allocates* the
pointer (`initFieldByIndex`) and then leaves the allocated zero in place,
so the trip turns a nil pointer into a pointer to zero.  The record and
document below exhibit this. -/

/-- A record type with one attribute field of pointer kind. -/
def nilPtrAttrType : GoType :=
  .struct_ "P" [.mk "A" (some "attr,a") none false true (.pointer .int)]

/-- Its value with the pointer nil: every field uses a supported kind and
no field is tagged `omitempty`. -/
def nilPtrAttrVal : GoVal := .vstruct nilPtrAttrType [.vptr .int none]

/-- What the round trip actually returns for `nilPtrAttrVal`: the pointer
comes back allocated and zero. -/
def nilPtrAttrBack : GoVal := .vstruct nilPtrAttrType [.vptr .int (some (.vint 0))]

/-! ### The amended round-trip class

The amended claim restricts the record to a flat struct of annotated
fields whose values are scalars, fully allocated well-typed pointer
chains ending in scalars, or (for relationships) slices of such elements
of non-byte kind, with the `string` option only on plain scalar values,
`omitempty` fields starting zero-valued, and the resolved `(kind, name)`
keys pairwise distinct. -/

/-- The scalar kinds of the amended class, on types. -/
def scalarType : GoType → Bool
  | .bool | .int | .uint8 | .uint | .float | .string => true
  | _ => false

/-- A pointer chain (possibly of length zero) ending in a scalar type. -/
def ptrScalarType : GoType → Bool
  | .pointer e => ptrScalarType e
  | t => scalarType t

/-- The scalar kinds of the amended class, on values. -/
def scalarVal : GoVal → Bool
  | .vbool _ | .vint _ | .vuint8 _ | .vuint _ | .vfloat _ | .vstring _ => true
  | _ => false

/-- A fully allocated, well-typed pointer chain ending in a scalar value. -/
def presentVal : GoVal → Prop
  | .vptr e (some w) => w.typeOf = e ∧ presentVal w
  | w => scalarVal w = true

/-- A slice element type admitted for a to-many relationship: a pointer
chain to a scalar, of non-byte kind (byte slices classify as to-one and
take the unmodelled base64 route). -/
def relElemOK (e : GoType) : Prop := ptrScalarType e = true ∧ e.kind ≠ Kind.uint8

/-- The zero values of supported shapes: what an `omitempty` field of the
amended class must hold. -/
def zeroSupported : GoVal → Prop
  | .vptr e none => ptrScalarType e = true
  | .vslice e [] => relElemOK e
  | w => scalarVal w = true ∧ w.isZero = true

/-- The admitted value of one annotated field, by its parsed tag: an
`omitempty` field is zero of supported shape; a relationship field is a
present chain (to-one) or a slice of well-typed present elements
(to-many); any other field is a present chain; the `string` option is
admitted only on a plain scalar (the quote strip tests the kind of the
*uninitialized* destination, so it never fires behind a pointer). -/
def fieldValOK (t : tag) (v : GoVal) : Prop :=
  if t.omitempty then zeroSupported v
  else if t.typ = TagValueRel then
    match v with
    | .vslice e xs =>
      relElemOK e ∧ ∀ x ∈ xs, x.typeOf = e ∧ presentVal x ∧ (t.quote = true → scalarVal x = true)
    | w => presentVal w ∧ (t.quote = true → scalarVal w = true)
  else presentVal v ∧ (t.quote = true → scalarVal v = true)

/-- One field of a flat record: the Go field name, the `jsonapi` tag
text, and the field's value (the declared field type is the value's). -/
structure SimpleField where
  goName : String
  tagStr : String
  value : GoVal

/-- The declared struct field of a `SimpleField`: tagged, not anonymous,
exported. -/
def SimpleField.sfield (s : SimpleField) : StructField :=
  .mk s.goName (some s.tagStr) none false true s.value.typeOf

/-- The parsed tag of a `SimpleField` (as `parseTagsStep` parses it). -/
def SimpleField.parsedTag (s : SimpleField) : Except GoErr tag :=
  parseTag s.sfield (cutComma s.tagStr).1 (cutComma s.tagStr).2.1

/-- Admission of one field: its tag parses and its value fits the tag. -/
def SimpleFieldOK (s : SimpleField) : Prop :=
  match s.parsedTag with
  | .error _ => False
  | .ok t => fieldValOK t s.value

/-- The resolved `(kind, name)` key of a field. -/
def simpleFieldKey (s : SimpleField) : String × String :=
  match s.parsedTag with
  | .ok t => (t.typ, t.name)
  | .error _ => ("", "")

/-- The flat record type over the given fields. -/
def mkFlatType (n : String) (sfs : List SimpleField) : GoType :=
  .struct_ n (sfs.map SimpleField.sfield)

/-- The flat record value over the given fields. -/
def mkFlatVal (n : String) (sfs : List SimpleField) : GoVal :=
  .vstruct (mkFlatType n sfs) (sfs.map SimpleField.value)

/-- The `(kind, name)` key of a resolved `field`. -/
def fkey (f : field) : String × String := (f.tag.typ, f.tag.name)

/-- The field list the traversal collects on a flat record, in
declaration order starting at index `i`. -/
def flatRawFields : List SimpleField → Nat → List field
  | [], _ => []
  | s :: rest, i =>
    (match s.parsedTag with
     | .ok t => [{ tag := t, idxs := [i] }]
     | .error _ => []) ++ flatRawFields rest (i + 1)

/-! ### What the marshal loop writes

The final resource of `marshalFields` is characterized by explicit
lists of written entries, one extraction function per section. -/

/-- Whether `marshalField` writes the field (rather than omitting it). -/
def writtenF (v : GoVal) (f : field) : Bool :=
  !(f.tag.omitempty && isEmpty (derefValue (fieldByIndex v f.idxs)))

/-- The fragment `marshalField` writes for the field (junk `null` on the
error paths, which the hypotheses exclude). -/
def encOfField (v : GoVal) (f : field) : JsonVal :=
  match marshalJson (derefValue (fieldByIndex v f.idxs)) f.tag.quote with
  | .ok j => j
  | .error _ => .jnull

/-- The fragment `marshalToManyRel` writes for one element. -/
def encElemJ (f : field) (x : GoVal) : JsonVal :=
  match marshalJson (derefValue x) f.tag.quote with
  | .ok j => j
  | .error _ => .jnull

/-- The identifier list `marshalToManyRel` builds from the elements. -/
def idsOf (f : field) (xs : List GoVal) : List ResourceIdentifier :=
  xs.map (fun x => { rtype := f.tag.rscType, id := some (encElemJ f x) })

/-- The element list of an array/slice value. -/
def sliceElems : GoVal → List GoVal
  | .varray _ xs => xs
  | .vslice _ xs => xs
  | _ => []

/-- The attribute entries `marshalFields` writes, in processing order. -/
def attrWrites (v : GoVal) : List field → List (String × JsonVal)
  | [] => []
  | f :: fs =>
    if f.tag.typ = TagValueAttr ∧ writtenF v f = true
    then (f.tag.name, encOfField v f) :: attrWrites v fs
    else attrWrites v fs

/-- The meta entries `marshalFields` writes. -/
def metaWrites (v : GoVal) : List field → List (String × JsonVal)
  | [] => []
  | f :: fs =>
    if f.tag.typ = TagValueMeta ∧ writtenF v f = true
    then (f.tag.name, encOfField v f) :: metaWrites v fs
    else metaWrites v fs

/-- The to-one relationship entries `marshalFields` writes. -/
def toOneWrites (v : GoVal) : List field → List (String × ToOneResourceLinkage)
  | [] => []
  | f :: fs =>
    if f.tag.typ = TagValueRel ∧ writtenF v f = true
        ∧ isToOne (derefValue (fieldByIndex v f.idxs)) = true
    then (f.tag.name, { data := { rtype := f.tag.rscType, id := some (encOfField v f) } })
      :: toOneWrites v fs
    else toOneWrites v fs

/-- The to-many relationship entries `marshalFields` writes. -/
def toManyWrites (v : GoVal) : List field → List (String × ToManyResourceLinkage)
  | [] => []
  | f :: fs =>
    if f.tag.typ = TagValueRel ∧ writtenF v f = true
        ∧ isToOne (derefValue (fieldByIndex v f.idxs)) = false
    then (f.tag.name, { data := idsOf f (sliceElems (derefValue (fieldByIndex v f.idxs))) })
      :: toManyWrites v fs
    else toManyWrites v fs

/-- The (unique, under distinct keys) id field of a resolved list. -/
def idField (fs : List field) : Option field :=
  fs.find? (fun f => f.tag.typ == TagValueId)

/-- **C1, counterexample.**  The round trip does not reproduce every
record whose annotated fields use only supported kinds: on a record with
a nil pointer-to-int attribute (a supported kind, no `omitempty`),
marshaling yields `{"attributes":{"a":null}}`, and unmarshaling that
document into a fresh zero record yields the record with the pointer
*allocated* to zero — not the original nil. -/
theorem claim_C1_counterexample :
    MarshalResource emptyMarshalerEnv nilPtrAttrVal
        = .ok (.jobj [("attributes", .jobj [("a", .jnull)])])
    ∧ UnmarshalResource emptyUnmarshalerEnv (.jobj [("attributes", .jobj [("a", .jnull)])])
        (.vptr nilPtrAttrType (some nilPtrAttrType.zeroVal))
        = some (.ok (.vptr nilPtrAttrType (some nilPtrAttrBack)))
    ∧ nilPtrAttrBack ≠ nilPtrAttrVal := by
  refine ⟨by with_unfolding_all rfl, by with_unfolding_all rfl, ?_⟩
  simp [nilPtrAttrBack, nilPtrAttrVal]

/-! ### Association-list lemmas -/

theorem alistGet_append {α : Type} (m₁ m₂ : List (String × α)) (k : String) :
    alistGet (m₁ ++ m₂) k = (alistGet m₁ k).or (alistGet m₂ k) := by
  induction m₁ with
  | nil => simp [alistGet]
  | cons p rest ih =>
    by_cases h : p.1 = k
    · simp [alistGet, h]
    · simp [alistGet, h, ih]

theorem alistGet_set {α : Type} (m : List (String × α)) (k : String) (v : α) (k' : String) :
    alistGet (alistSet m k v) k' = if k = k' then some v else alistGet m k' := by
  induction m with
  | nil => simp [alistSet, alistGet]
  | cons p rest ih =>
    simp only [alistSet]
    by_cases h : p.1 = k
    · rw [if_pos h]
      by_cases h' : k = k'
      · simp [alistGet, h']
      · have hp' : ¬ p.1 = k' := by rw [h]; exact h'
        simp [alistGet, h', hp']
    · rw [if_neg h]
      by_cases h' : p.1 = k'
      · have hk : ¬ k = k' := fun hc => h (h'.trans hc.symm)
        simp [alistGet, h', hk]
      · simp [alistGet, h', ih]

theorem alistSet_fresh {α : Type} (m : List (String × α)) (k : String) (v : α)
    (h : alistGet m k = none) : alistSet m k v = m ++ [(k, v)] := by
  induction m with
  | nil => rfl
  | cons p rest ih =>
    by_cases hp : p.1 = k
    · rw [alistGet, if_pos hp] at h
      exact absurd h (by simp)
    · rw [alistGet, if_neg hp] at h
      simp [alistSet, hp, ih h]

theorem alistGet_none_iff {α : Type} (m : List (String × α)) (k : String) :
    alistGet m k = none ↔ k ∉ m.map Prod.fst := by
  induction m with
  | nil => simp [alistGet]
  | cons p rest ih =>
    by_cases hp : p.1 = k
    · simp [alistGet, hp]
    · rw [alistGet, if_neg hp, ih]
      simp only [List.map_cons, List.mem_cons]
      constructor
      · intro h hc
        rcases hc with hc | hc
        · exact hp hc.symm
        · exact h hc
      · intro h hc
        exact h (Or.inr hc)

theorem alistGet_some_iff {α : Type} (m : List (String × α)) (k : String) (v : α)
    (hnd : (m.map Prod.fst).Nodup) :
    alistGet m k = some v ↔ (k, v) ∈ m := by
  induction m with
  | nil => simp [alistGet]
  | cons p rest ih =>
    obtain ⟨a, b⟩ := p
    simp only [List.map_cons, List.nodup_cons] at hnd
    by_cases hp : a = k
    · subst hp
      rw [alistGet, if_pos rfl]
      simp only [Option.some.injEq, List.mem_cons, Prod.mk.injEq]
      constructor
      · intro hv
        exact Or.inl ⟨trivial, hv.symm⟩
      · intro hv
        rcases hv with ⟨_, hv⟩ | hv
        · exact hv.symm
        · exact absurd (List.mem_map_of_mem Prod.fst hv) hnd.1
    · rw [alistGet, if_neg hp, ih hnd.2]
      simp only [List.mem_cons, Prod.mk.injEq]
      constructor
      · exact fun h => Or.inr h
      · intro hv
        rcases hv with ⟨hv, _⟩ | hv
        · exact absurd hv.symm hp
        · exact hv

theorem alistGet_perm {α : Type} (m m' : List (String × α))
    (hnd : (m.map Prod.fst).Nodup) (hp : m.Perm m') (k : String) :
    alistGet m k = alistGet m' k := by
  have hnd' : (m'.map Prod.fst).Nodup := ((hp.map Prod.fst).nodup_iff).mp hnd
  match h : alistGet m k with
  | some v =>
    exact ((alistGet_some_iff m' k v hnd').mpr
      (hp.mem_iff.mp ((alistGet_some_iff m k v hnd).mp h))).symm
  | none =>
    have := (alistGet_none_iff m k).mp h
    exact ((alistGet_none_iff m' k).mpr
      (fun hc => this ((hp.map Prod.fst).mem_iff.mpr hc))).symm

theorem alistGet_sortByKey {α : Type} (m : List (String × α))
    (hnd : (m.map Prod.fst).Nodup) (k : String) :
    alistGet (sortByKey m) k = alistGet m k :=
  (alistGet_perm m (sortByKey m) hnd (List.mergeSort_perm m _).symm k).symm

/-! ### List-update lemmas -/

theorem lgetD_set_self {α : Type} (l : List α) (k : Nat) (a d : α) (h : k < l.length) :
    (l.set k a).getD k d = a := by
  induction l generalizing k with
  | nil => simp at h
  | cons x xs ih =>
    cases k with
    | zero => rfl
    | succ k => exact ih k (by simpa using h)

theorem lgetD_set_other {α : Type} (l : List α) (j k : Nat) (a d : α) (h : j ≠ k) :
    (l.set k a).getD j d = l.getD j d := by
  induction l generalizing j k with
  | nil => simp
  | cons x xs ih =>
    cases k with
    | zero =>
      cases j with
      | zero => exact absurd rfl h
      | succ j => rfl
    | succ k =>
      cases j with
      | zero => rfl
      | succ j => exact ih j k (fun hc => h (by rw [hc]))

theorem lset_getD_self {α : Type} (l : List α) (k : Nat) (d : α) :
    l.set k (l.getD k d) = l := by
  induction l generalizing k with
  | nil => rfl
  | cons x xs ih =>
    cases k with
    | zero => rfl
    | succ k => simp only [List.getD_cons_succ, List.set_cons_succ, ih k]

/-! ### Facts about the admitted value classes -/

theorem intToString_ofNat (n : Nat) : intToString (Int.ofNat n) = natToString n := by
  rw [Int.ofNat_eq_coe, intToString, if_neg (show ¬ (n : Int) < 0 by omega),
    Int.natAbs_ofNat]

/-- `initValue` on a zero value builds exactly the chain `initPtrChain`
describes. -/
theorem initPtrChain_eq : ∀ t : GoType, initValue t.zeroVal = initPtrChain t := by
  intro t
  cases t <;> rfl

theorem scalar_deref (u : GoVal) (h : scalarVal u = true) : derefValue u = u := by
  cases u <;> first | rfl | simp [scalarVal] at h

theorem scalar_isToOne (u : GoVal) (h : scalarVal u = true) : isToOne u = true := by
  cases u <;> first | rfl | simp [scalarVal] at h

/-- A present chain dereferences to a scalar. -/
theorem present_deref_go : ∀ (n : Nat) (w : GoVal), w.vsize ≤ n → presentVal w →
    scalarVal (derefValue w) = true := by
  intro n
  induction n using Nat.strong_induction_on with
  | _ n ih =>
    intro w hsz hp
    match w with
    | .vbool _ | .vint _ | .vuint8 _ | .vuint _ | .vfloat _ | .vstring _ => rfl
    | .vptr e (some w') =>
      obtain ⟨hty, hp'⟩ := hp
      have hv : GoVal.vsize (.vptr e (some w')) = w'.vsize + 1 := rfl
      exact ih (n - 1) (by omega) w' (by omega) hp'
    | .vinvalid | .vptr _ none | .viface none | .viface (some _)
    | .varray _ _ | .vslice _ _ | .vmap _ _ _ | .vstruct _ _ =>
      simp [presentVal, scalarVal] at hp

theorem present_deref (w : GoVal) (hp : presentVal w) : scalarVal (derefValue w) = true :=
  present_deref_go w.vsize w (le_refl _) hp

theorem scalar_encode (u : GoVal) (q : Bool) (h : scalarVal u = true) :
    ∃ j, marshalJson u q = .ok j := by
  cases u <;> first | (cases q <;> exact ⟨_, rfl⟩) | simp [scalarVal] at h

theorem present_encode (w : GoVal) (q : Bool) (hp : presentVal w) :
    ∃ j, marshalJson (derefValue w) q = .ok j :=
  scalar_encode _ q (present_deref w hp)

/-- The to-one/to-many classification of a present chain, marshal side. -/
theorem present_isToOne (w : GoVal) (hp : presentVal w) :
    isToOne (derefValue w) = true :=
  scalar_isToOne _ (present_deref w hp)

/-- The to-one/to-many classification of the zero of a present chain's
type: what the unmarshal side classifies. -/
theorem present_zero_isToOne (w : GoVal) (hp : presentVal w) :
    isToOne (GoType.zeroVal w.typeOf) = true := by
  match w with
  | .vbool _ | .vint _ | .vuint8 _ | .vuint _ | .vfloat _ | .vstring _ => rfl
  | .vptr e (some w') => rfl
  | .vinvalid | .vptr _ none | .viface none | .viface (some _)
  | .varray _ _ | .vslice _ _ | .vmap _ _ _ | .vstruct _ _ =>
    simp [presentVal, scalarVal] at hp

/-- A supported zero value is the zero of its type. -/
theorem zeroSupported_eq_zero (v : GoVal) (h : zeroSupported v) :
    v = GoType.zeroVal v.typeOf := by
  match v with
  | .vptr e none => rfl
  | .vslice e [] => rfl
  | .vbool b =>
    obtain ⟨-, hz⟩ := h
    simp only [GoVal.isZero, beq_iff_eq] at hz
    rw [hz]; rfl
  | .vint m =>
    obtain ⟨-, hz⟩ := h
    simp only [GoVal.isZero, beq_iff_eq] at hz
    rw [hz]; rfl
  | .vuint8 m =>
    obtain ⟨-, hz⟩ := h
    simp only [GoVal.isZero, beq_iff_eq] at hz
    rw [hz]; rfl
  | .vuint m =>
    obtain ⟨-, hz⟩ := h
    simp only [GoVal.isZero, beq_iff_eq] at hz
    rw [hz]; rfl
  | .vfloat m =>
    obtain ⟨-, hz⟩ := h
    simp only [GoVal.isZero, beq_iff_eq] at hz
    rw [hz]; rfl
  | .vstring s =>
    obtain ⟨-, hz⟩ := h
    simp only [GoVal.isZero, beq_iff_eq] at hz
    rw [hz]; rfl
  | .vinvalid | .vptr _ (some _) | .viface _ | .varray _ _
  | .vslice _ (_ :: _) | .vmap _ _ _ | .vstruct _ _ =>
    exact absurd h.1 (by simp [scalarVal])

/-- A supported zero value is omitted by `omitempty`. -/
theorem zeroSupported_isEmpty (v : GoVal) (h : zeroSupported v) :
    isEmpty (derefValue v) = true := by
  match v with
  | .vptr e none => rfl
  | .vslice e [] => rfl
  | .vbool b =>
    obtain ⟨-, hz⟩ := h
    simp [derefValue, isEmpty, GoVal.isValid, hz]
  | .vint m =>
    obtain ⟨-, hz⟩ := h
    simp [derefValue, isEmpty, GoVal.isValid, hz]
  | .vuint8 m =>
    obtain ⟨-, hz⟩ := h
    simp [derefValue, isEmpty, GoVal.isValid, hz]
  | .vuint m =>
    obtain ⟨-, hz⟩ := h
    simp [derefValue, isEmpty, GoVal.isValid, hz]
  | .vfloat m =>
    obtain ⟨-, hz⟩ := h
    simp [derefValue, isEmpty, GoVal.isValid, hz]
  | .vstring s =>
    obtain ⟨-, hz⟩ := h
    simp [derefValue, isEmpty, GoVal.isValid, hz]
  | .vinvalid | .vptr _ (some _) | .viface _ | .varray _ _
  | .vslice _ (_ :: _) | .vmap _ _ _ | .vstruct _ _ =>
    exact absurd h.1 (by simp [scalarVal])

/-! ### The scalar transcoder round trip -/

/-- The fragment `marshalJson` produced for a present chain decodes, at
the freshly initialized zero of the chain's type, back to the chain. -/
theorem scalar_round_go : ∀ (n : Nat) (w : GoVal), w.vsize ≤ n →
    presentVal w → ∀ (q : Bool) (j : JsonVal),
    (q = true → scalarVal w = true) →
    marshalJson (derefValue w) q = .ok j →
    unmarshalJson (some j) (initValue (GoType.zeroVal w.typeOf)) q = .ok w := by
  intro n
  induction n using Nat.strong_induction_on with
  | _ n ih =>
    intro w hsz hp q j hq henc
    match w with
    | .vbool b =>
      have hj : j = .jbool b := by
        cases q <;> simpa [derefValue, marshalJson, encodeGo, GoVal.isValid, GoVal.kind,
          quotable, bind, Except.bind] using henc.symm
      subst hj
      cases q <;> with_unfolding_all rfl
    | .vstring s =>
      have hj : j = .jstr s := by
        cases q <;> simpa [derefValue, marshalJson, encodeGo, GoVal.isValid, GoVal.kind,
          quotable, bind, Except.bind] using henc.symm
      subst hj
      cases q <;> with_unfolding_all rfl
    | .vint m =>
      cases q with
      | false =>
        have hj : j = .jnum m := by
          simpa [derefValue, marshalJson, encodeGo, GoVal.isValid, GoVal.kind,
            quotable, bind, Except.bind] using henc.symm
        subst hj
        with_unfolding_all rfl
      | true =>
        have hj : j = .jstr (intToString m) := by
          simpa [derefValue, marshalJson, encodeGo, GoVal.isValid, GoVal.kind,
            quotable, quoteWrap, bind, Except.bind] using henc.symm
        subst hj
        show unmarshalJson (some (.jstr (intToString m))) (.vint 0) true = .ok (.vint m)
        simp only [unmarshalJson, GoVal.kind, quotable, Bool.and_self, if_true,
          unquoteParse, stringToInt_intToString]
    | .vfloat m =>
      cases q with
      | false =>
        have hj : j = .jnum m := by
          simpa [derefValue, marshalJson, encodeGo, GoVal.isValid, GoVal.kind,
            quotable, bind, Except.bind] using henc.symm
        subst hj
        with_unfolding_all rfl
      | true =>
        have hj : j = .jstr (intToString m) := by
          simpa [derefValue, marshalJson, encodeGo, GoVal.isValid, GoVal.kind,
            quotable, quoteWrap, bind, Except.bind] using henc.symm
        subst hj
        show unmarshalJson (some (.jstr (intToString m))) (.vfloat 0) true = .ok (.vfloat m)
        simp only [unmarshalJson, GoVal.kind, quotable, Bool.and_self, if_true,
          unquoteParse, stringToInt_intToString]
    | .vuint8 m =>
      cases q with
      | false =>
        have hj : j = .jnum (Int.ofNat m) := by
          simpa [derefValue, marshalJson, encodeGo, GoVal.isValid, GoVal.kind,
            quotable, bind, Except.bind] using henc.symm
        subst hj
        show unmarshalJson (some (.jnum (Int.ofNat m))) (.vuint8 0) false = .ok (.vuint8 m)
        simp only [unmarshalJson, Bool.false_and, Bool.false_eq_true, if_false,
          unmarshalJsonCore]
        rw [if_neg (show ¬ Int.ofNat m < 0 by rw [Int.ofNat_eq_coe]; omega)]
        simp
      | true =>
        have hj : j = .jstr (intToString (Int.ofNat m)) := by
          simpa [derefValue, marshalJson, encodeGo, GoVal.isValid, GoVal.kind,
            quotable, quoteWrap, bind, Except.bind] using henc.symm
        subst hj
        show unmarshalJson (some (.jstr (intToString (Int.ofNat m)))) (.vuint8 0) true
          = .ok (.vuint8 m)
        simp only [unmarshalJson, GoVal.kind, quotable, Bool.and_self, if_true,
          unquoteParse, intToString_ofNat, stringToNat_natToString]
    | .vuint m =>
      cases q with
      | false =>
        have hj : j = .jnum (Int.ofNat m) := by
          simpa [derefValue, marshalJson, encodeGo, GoVal.isValid, GoVal.kind,
            quotable, bind, Except.bind] using henc.symm
        subst hj
        show unmarshalJson (some (.jnum (Int.ofNat m))) (.vuint 0) false = .ok (.vuint m)
        simp only [unmarshalJson, Bool.false_and, Bool.false_eq_true, if_false,
          unmarshalJsonCore]
        rw [if_neg (show ¬ Int.ofNat m < 0 by rw [Int.ofNat_eq_coe]; omega)]
        simp
      | true =>
        have hj : j = .jstr (intToString (Int.ofNat m)) := by
          simpa [derefValue, marshalJson, encodeGo, GoVal.isValid, GoVal.kind,
            quotable, quoteWrap, bind, Except.bind] using henc.symm
        subst hj
        show unmarshalJson (some (.jstr (intToString (Int.ofNat m)))) (.vuint 0) true
          = .ok (.vuint m)
        simp only [unmarshalJson, GoVal.kind, quotable, Bool.and_self, if_true,
          unquoteParse, intToString_ofNat, stringToNat_natToString]
    | .vptr e (some w') =>
      obtain ⟨hty, hp'⟩ := hp
      have hq0 : q = false := by
        cases q with
        | false => rfl
        | true => exact absurd (hq rfl) (by simp [scalarVal])
      subst hq0
      have hv : GoVal.vsize (.vptr e (some w')) = w'.vsize + 1 := rfl
      have henc' : marshalJson (derefValue w') false = .ok j := henc
      have ihw := ih (n - 1) (by omega) w' (by omega) hp' false j (fun hc => by cases hc) henc'
      show unmarshalJson (some j) (.vptr e (some (initPtrChain e))) false
        = .ok (.vptr e (some w'))
      have hchain : initPtrChain e = initValue (GoType.zeroVal w'.typeOf) := by
        rw [hty, initPtrChain_eq]
      have hcore : unmarshalJsonCore j (initPtrChain e) = .ok w' := by
        rw [hchain]
        simpa [unmarshalJson] using ihw
      simp [unmarshalJson, unmarshalJsonCore, hcore, Except.map]
    | .vinvalid | .vptr _ none | .viface none | .viface (some _)
    | .varray _ _ | .vslice _ _ | .vmap _ _ _ | .vstruct _ _ =>
      simp [presentVal, scalarVal] at hp

/-- The scalar transcoder round trip on present chains. -/
theorem scalar_round (w : GoVal) (q : Bool) (j : JsonVal)
    (hp : presentVal w) (hq : q = true → scalarVal w = true)
    (henc : marshalJson (derefValue w) q = .ok j) :
    unmarshalJson (some j) (initValue (GoType.zeroVal w.typeOf)) q = .ok w :=
  scalar_round_go w.vsize w (le_refl _) hp q j hq henc

/-! ### Field resolution on a flat record -/

theorem parseTag_dispatch (f : StructField) (typ opts : String) :
    parseTag f typ opts = .error (.unsupportedType f.name (derefType f.typ).kind)
    ∨ parseTag f typ opts =
      (if typ = TagValueId then parseIdTag f opts
       else if typ = TagValueAttr then parseAttrTag f opts
       else if typ = TagValueMeta then parseMetaTag f opts
       else if typ = TagValueRel then parseRelTag f opts
       else .error (.tagErr f.name ("unknown tag type: " ++ typ))) := by
  unfold parseTag
  cases hk : (derefType f.typ).kind <;> first | exact Or.inl rfl | exact Or.inr rfl

theorem parseIdTag_ok (f : StructField) (opts : String) (t : tag)
    (h : parseIdTag f opts = .ok t) : t.typ = TagValueId ∧ t.name = "" := by
  simp only [parseIdTag] at h
  split at h
  · simp at h
  · injection h with h
    subst h
    exact ⟨rfl, rfl⟩

theorem parseAttrTag_ok (f : StructField) (opts : String) (t : tag)
    (h : parseAttrTag f opts = .ok t) : t.typ = TagValueAttr := by
  simp only [parseAttrTag] at h
  injection h with h
  subst h
  rfl

theorem parseMetaTag_ok (f : StructField) (opts : String) (t : tag)
    (h : parseMetaTag f opts = .ok t) : t.typ = TagValueMeta := by
  simp only [parseMetaTag] at h
  injection h with h
  subst h
  rfl

theorem parseRelTag_ok (f : StructField) (opts : String) (t : tag)
    (h : parseRelTag f opts = .ok t) : t.typ = TagValueRel := by
  simp only [parseRelTag] at h
  split at h
  · simp at h
  · injection h with h
    subst h
    rfl

/-- A parsed tag records the dispatched kind token, which is one of the
four mappable kinds (id carrying the empty document name). -/
theorem parseTag_ok_typ (f : StructField) (typ opts : String) (t : tag)
    (h : parseTag f typ opts = .ok t) :
    t.typ = typ ∧
      ((typ = TagValueId ∧ t.name = "") ∨ typ = TagValueAttr
        ∨ typ = TagValueMeta ∨ typ = TagValueRel) := by
  rcases parseTag_dispatch f typ opts with hd | hd
  · rw [hd] at h
    simp at h
  · rw [hd] at h
    by_cases h1 : typ = TagValueId
    · rw [if_pos h1] at h
      obtain ⟨ht, hn⟩ := parseIdTag_ok f opts t h
      subst h1
      exact ⟨ht, Or.inl ⟨rfl, hn⟩⟩
    · rw [if_neg h1] at h
      by_cases h2 : typ = TagValueAttr
      · rw [if_pos h2] at h
        subst h2
        exact ⟨parseAttrTag_ok f opts t h, Or.inr (Or.inl rfl)⟩
      · rw [if_neg h2] at h
        by_cases h3 : typ = TagValueMeta
        · rw [if_pos h3] at h
          subst h3
          exact ⟨parseMetaTag_ok f opts t h, Or.inr (Or.inr (Or.inl rfl))⟩
        · rw [if_neg h3] at h
          by_cases h4 : typ = TagValueRel
          · rw [if_pos h4] at h
            subst h4
            exact ⟨parseRelTag_ok f opts t h, Or.inr (Or.inr (Or.inr rfl))⟩
          · rw [if_neg h4] at h
            simp at h

/-- `parseTagsStep` on a tagged, exported, non-anonymous field: parse the
tag and collect the field. -/
theorem parseTagsStep_simple (c : structElem) (s : SimpleField) (i : Nat) (t : tag)
    (hparse : s.parsedTag = .ok t) :
    parseTagsStep c s.sfield i = .ok ([{ tag := t, idxs := c.idxs ++ [i] }], []) := by
  obtain ⟨-, hd⟩ := parseTag_ok_typ s.sfield (cutComma s.tagStr).1 (cutComma s.tagStr).2.1 t
    (by rw [← SimpleField.parsedTag]; exact hparse)
  have hne : ¬ (cutComma s.tagStr).1 = TagValueIgnore := by
    rcases hd with ⟨h1, -⟩ | h1 | h1 | h1 <;> (rw [h1]; decide)
  have hparse' : parseTag (.mk s.goName (some s.tagStr) none false true s.value.typeOf)
      (cutComma s.tagStr).1 (cutComma s.tagStr).2.1 = .ok t := hparse
  show parseTagsStep c (.mk s.goName (some s.tagStr) none false true s.value.typeOf) i = _
  simp only [parseTagsStep, splitTypeAndOpts, StructField.tagJsonApi, StructField.anonymous,
    StructField.exported, Bool.not_true, Bool.false_and, Bool.and_false, Bool.not_false,
    Bool.true_and, Bool.and_true, if_false, if_true, Bool.false_eq_true, ite_false, ite_true]
  rw [if_neg hne, hparse']
  rfl

/-- The field loop of `parseTags` over a flat record's fields. -/
theorem parseTagsFieldsGo_flat (c : structElem) (hc : c.idxs = []) :
    ∀ (sfs : List SimpleField) (i : Nat),
      (∀ s ∈ sfs, ∃ t, s.parsedTag = .ok t) →
      parseTagsFieldsGo c (sfs.map SimpleField.sfield) i = .ok (flatRawFields sfs i, []) := by
  intro sfs
  induction sfs with
  | nil => intro i _; rfl
  | cons s rest ih =>
    intro i hok
    obtain ⟨t, ht⟩ := hok s (by simp)
    rw [List.map_cons]
    show parseTagsFieldsGo c (s.sfield :: rest.map SimpleField.sfield) i = _
    rw [parseTagsFieldsGo, parseTagsStep_simple c s i t ht, hc,
      ih (i + 1) (fun x hx => hok x (by simp [hx]))]
    simp only [bind, Except.bind, List.nil_append]
    rw [flatRawFields, ht]

theorem parseTagsBFS_nil (fuel : Nat) (types : List GoType) :
    parseTagsBFS fuel types [] = .ok [] := by
  cases fuel <;> rfl

/-- `parseTags` on a flat record (any struct value of the flat type):
collect one field per declared field, sort, filter. -/
theorem parseTags_flat (n : String) (sfs : List SimpleField) (ws : List GoVal)
    (hok : ∀ s ∈ sfs, ∃ t, s.parsedTag = .ok t) :
    parseTags (.vstruct (mkFlatType n sfs) ws)
      = .ok (filterDominantFields (sortFields (flatRawFields sfs 0))) := by
  have hlevel : ∀ v : GoVal,
      parseTagsLevelGo [] [⟨.struct_ n (sfs.map SimpleField.sfield), v, true, []⟩]
          [⟨.struct_ n (sfs.map SimpleField.sfield), v, true, []⟩]
        = .ok (flatRawFields sfs 0, [], [.struct_ n (sfs.map SimpleField.sfield)]) := by
    intro v
    rw [parseTagsLevelGo]
    rw [if_neg (by simp)]
    simp only [parseTagsFieldsGo_flat ⟨.struct_ n (sfs.map SimpleField.sfield), v, true, []⟩
        rfl sfs 0 hok,
      parseTagsLevelGo, bind, Except.bind, List.append_nil, List.nil_append]
  have hbfs : ∀ (fuel : Nat) (v : GoVal),
      parseTagsBFS (fuel + 1) [] [⟨.struct_ n (sfs.map SimpleField.sfield), v, true, []⟩]
        = .ok (flatRawFields sfs 0) := by
    intro fuel v
    rw [parseTagsBFS]
    rw [if_neg (by simp)]
    rw [hlevel v]
    simp [bind, Except.bind, parseTagsBFS_nil]
  simp only [parseTags]
  rw [show (GoVal.vstruct (mkFlatType n sfs) ws).typeOf
    = GoType.struct_ n (sfs.map SimpleField.sfield) from rfl]
  rw [hbfs]

/-! ### The raw field list of a flat record -/

theorem flatRawFields_keys (sfs : List SimpleField) :
    ∀ i, (∀ s ∈ sfs, ∃ t, s.parsedTag = .ok t) →
      (flatRawFields sfs i).map fkey = sfs.map simpleFieldKey := by
  induction sfs with
  | nil => intro i _; rfl
  | cons s rest ih =>
    intro i hok
    obtain ⟨t, ht⟩ := hok s (by simp)
    rw [flatRawFields, ht]
    simp only [List.singleton_append, List.map_cons]
    rw [ih (i + 1) (fun x hx => hok x (by simp [hx]))]
    simp [fkey, simpleFieldKey, ht]

theorem flatRawFields_mem (sfs : List SimpleField) :
    ∀ i f, f ∈ flatRawFields sfs i →
      ∃ k s, sfs[k]? = some s ∧ s.parsedTag = .ok f.tag ∧ f.idxs = [i + k] := by
  induction sfs with
  | nil => intro i f hf; simp [flatRawFields] at hf
  | cons s rest ih =>
    intro i f hf
    rw [flatRawFields] at hf
    rcases List.mem_append.mp hf with h | h
    · match hps : s.parsedTag with
      | .ok t =>
        rw [hps] at h
        simp only [List.mem_singleton] at h
        subst h
        exact ⟨0, s, by simp, hps, by simp⟩
      | .error e =>
        rw [hps] at h
        simp at h
    · obtain ⟨k, s', hk, hp, hi⟩ := ih (i + 1) f h
      exact ⟨k + 1, s', by simpa using hk, hp, by rw [hi]; congr 1; omega⟩

theorem flatRawFields_covers (sfs : List SimpleField) :
    ∀ i k s, sfs[k]? = some s → ∀ t, s.parsedTag = .ok t →
      ({ tag := t, idxs := [i + k] } : field) ∈ flatRawFields sfs i := by
  induction sfs with
  | nil => intro i k s hk; simp at hk
  | cons s0 rest ih =>
    intro i k s hk t ht
    cases k with
    | zero =>
      simp only [List.getElem?_cons_zero, Option.some.injEq] at hk
      subst hk
      rw [flatRawFields, ht]
      simp
    | succ k =>
      simp only [List.getElem?_cons_succ] at hk
      have := ih (i + 1) k s hk t ht
      rw [flatRawFields]
      apply List.mem_append_right
      have harith : i + 1 + k = i + (k + 1) := by omega
      rwa [harith] at this

theorem flatRawFields_idxs (sfs : List SimpleField) :
    ∀ i, (∀ s ∈ sfs, ∃ t, s.parsedTag = .ok t) →
      (flatRawFields sfs i).map (fun f => f.idxs)
        = (List.range' i sfs.length).map (fun k => [k]) := by
  induction sfs with
  | nil => intro i _; rfl
  | cons s rest ih =>
    intro i hok
    obtain ⟨t, ht⟩ := hok s (by simp)
    rw [flatRawFields, ht]
    simp only [List.singleton_append, List.length_cons, List.range', List.map_cons]
    rw [ih (i + 1) (fun x hx => hok x (by simp [hx]))]

/-! ### The collision filter is the identity on distinct keys -/

/-- Every element of a run's tail relates to the run's first element. -/
theorem chunkRunsBy_run_first (eq : field → field → Bool) :
    ∀ (n : Nat) (fs : List field), fs.length = n →
      ∀ run ∈ chunkRunsBy eq fs, ∀ f0 rest, run = f0 :: rest →
        ∀ a ∈ rest, eq f0 a = true := by
  intro n
  induction n using Nat.strong_induction_on with
  | _ n ih =>
    intro fs hn run hrun f0 rest heq a ha
    match fs with
    | [] => simp [chunkRunsBy_nil] at hrun
    | f :: rest' =>
      rw [chunkRunsBy_cons] at hrun
      rcases List.mem_cons.mp hrun with h | h
      · rw [h] at heq
        injection heq with h1 h2
        subst h1
        rw [← h2] at ha
        exact List.mem_takeWhile_imp ha
      · have hd := length_dropWhile_le (eq f) rest'
        have hr : rest'.length < n := by rw [← hn]; simp
        exact ih _ (by omega) _ rfl run h f0 rest heq a ha

/-- The runs concatenate back to the grouped list. -/
theorem chunkRunsBy_flatten (eq : field → field → Bool) :
    ∀ (n : Nat) (fs : List field), fs.length = n →
      (chunkRunsBy eq fs).flatMap (fun r => r) = fs := by
  intro n
  induction n using Nat.strong_induction_on with
  | _ n ih =>
    intro fs hn
    match fs with
    | [] => rfl
    | f :: rest =>
      rw [chunkRunsBy_cons]
      simp only [List.flatMap_cons]
      have hd := length_dropWhile_le (eq f) rest
      have hr : rest.length < n := by rw [← hn]; simp
      rw [ih (rest.dropWhile (eq f)).length (by omega) _ rfl]
      simp [List.takeWhile_append_dropWhile]

/-- Within one type group with pairwise-distinct keys, every name run is
a singleton. -/
theorem chunk_singles_of_nodup (l : List field) :
    ∀ t0 : String, (∀ a ∈ l, a.tag.typ = t0) → (l.map fkey).Nodup →
      chunkRunsBy sameName l = l.map (fun a => [a]) := by
  induction l with
  | nil => intro t0 _ _; rfl
  | cons h rest ih =>
    intro t0 hall hnd
    cases rest with
    | nil => rw [chunkRunsBy_cons]; rfl
    | cons b bs =>
      have hb : sameName h b = false := by
        by_contra hc
        rw [Bool.not_eq_false] at hc
        have hn : h.tag.name = b.tag.name := by simpa [sameName] using hc
        have hkey : fkey h = fkey b := by
          simp [fkey, hn, hall h (by simp), hall b (by simp)]
        simp only [List.map_cons, List.nodup_cons] at hnd
        exact hnd.1 (by rw [hkey]; exact List.mem_cons_self _ _)
      rw [chunkRunsBy_cons, List.takeWhile_cons_of_neg (by simp [hb]),
        List.dropWhile_cons_of_neg (by simp [hb])]
      rw [ih t0 (fun a ha => hall a (by simp [ha]))
        (by simp only [List.map_cons, List.nodup_cons] at hnd ⊢
            exact ⟨hnd.2.1, hnd.2.2⟩)]
      rfl

theorem flatMap_getDominant_singles (l : List field) :
    (l.map (fun a => [a])).flatMap (fun run => (getDominantField run).toList) = l := by
  induction l with
  | nil => rfl
  | cons a rest ih =>
    simp only [List.map_cons, List.flatMap_cons]
    rw [ih]
    rfl

/-- On a list with pairwise-distinct `(kind, name)` keys, the collision
filter keeps every field. -/
theorem filterDominantFields_nodup_id (gs : List field)
    (hnd : (gs.map fkey).Nodup) : filterDominantFields gs = gs := by
  unfold filterDominantFields
  have hruns : ∀ tr ∈ chunkRunsBy sameTyp gs,
      (chunkRunsBy sameName tr).flatMap (fun run => (getDominantField run).toList)
        = tr := by
    intro tr htr
    cases tr with
    | nil => rfl
    | cons f0 rest =>
      have hall : ∀ a ∈ f0 :: rest, a.tag.typ = f0.tag.typ := by
        intro a ha
        rcases List.mem_cons.mp ha with h | h
        · rw [h]
        · have h1 := chunkRunsBy_run_first sameTyp gs.length gs rfl _ htr f0 rest rfl a h
          have h2 : f0.tag.typ = a.tag.typ := by simpa [sameTyp] using h1
          exact h2.symm
      have hsub : List.Sublist (f0 :: rest) gs :=
        chunkRunsBy_sublist sameTyp gs.length gs rfl _ htr
      have hnd' : ((f0 :: rest).map fkey).Nodup :=
        hnd.sublist (hsub.map fkey)
      rw [chunk_singles_of_nodup (f0 :: rest) f0.tag.typ hall hnd',
        flatMap_getDominant_singles]
  rw [flatMap_congr_mem _ _ (fun tr => tr) hruns]
  exact chunkRunsBy_flatten sameTyp gs.length gs rfl

/-! ### The resolved field list of a flat record -/

/-- What `parseTags` resolves on a flat record with distinct keys. -/
def resolvedFlat (sfs : List SimpleField) : List field :=
  sortFields (flatRawFields sfs 0)

theorem resolvedFlat_perm (sfs : List SimpleField) :
    (resolvedFlat sfs).Perm (flatRawFields sfs 0) :=
  List.perm_insertionSort _ _

theorem resolvedFlat_keys_nodup (sfs : List SimpleField)
    (hok : ∀ s ∈ sfs, ∃ t, s.parsedTag = .ok t)
    (hdk : (sfs.map simpleFieldKey).Nodup) :
    ((resolvedFlat sfs).map fkey).Nodup := by
  have hraw : ((flatRawFields sfs 0).map fkey).Nodup := by
    rw [flatRawFields_keys sfs 0 hok]; exact hdk
  exact (((resolvedFlat_perm sfs).map fkey).nodup_iff).mpr hraw

/-- On a flat record with distinct keys `parseTags` resolves exactly the
sorted raw field list. -/
theorem parseTags_flat_resolved (n : String) (sfs : List SimpleField) (ws : List GoVal)
    (hok : ∀ s ∈ sfs, ∃ t, s.parsedTag = .ok t)
    (hdk : (sfs.map simpleFieldKey).Nodup) :
    parseTags (.vstruct (mkFlatType n sfs) ws) = .ok (resolvedFlat sfs) := by
  rw [parseTags_flat n sfs ws hok]
  congr 1
  exact filterDominantFields_nodup_id _ (resolvedFlat_keys_nodup sfs hok hdk)

theorem resolvedFlat_mem (sfs : List SimpleField) (f : field)
    (hf : f ∈ resolvedFlat sfs) :
    ∃ k s, sfs[k]? = some s ∧ s.parsedTag = .ok f.tag ∧ f.idxs = [k] := by
  obtain ⟨k, s, hk, hp, hi⟩ :=
    flatRawFields_mem sfs 0 f ((resolvedFlat_perm sfs).mem_iff.mp hf)
  exact ⟨k, s, hk, hp, by simpa using hi⟩

theorem resolvedFlat_covers (sfs : List SimpleField) (k : Nat) (s : SimpleField)
    (hk : sfs[k]? = some s) (t : tag) (ht : s.parsedTag = .ok t) :
    ({ tag := t, idxs := [k] } : field) ∈ resolvedFlat sfs := by
  have := flatRawFields_covers sfs 0 k s hk t ht
  exact (resolvedFlat_perm sfs).mem_iff.mpr (by simpa using this)

theorem resolvedFlat_idxs_nodup (sfs : List SimpleField)
    (hok : ∀ s ∈ sfs, ∃ t, s.parsedTag = .ok t) :
    ((resolvedFlat sfs).map (fun f => f.idxs)).Nodup := by
  have hraw : ((flatRawFields sfs 0).map (fun f => f.idxs)).Nodup := by
    rw [flatRawFields_idxs sfs 0 hok]
    exact (List.nodup_range' _ _).map
      (fun a b hab => by injection hab)
  exact (((resolvedFlat_perm sfs).map (fun f => f.idxs)).nodup_iff).mpr hraw

/-! ### Reading a flat record's fields -/

theorem lget_some_lt {α : Type} (l : List α) (k : Nat) (a : α) (hk : l[k]? = some a) :
    k < l.length := by
  induction l generalizing k with
  | nil => simp at hk
  | cons x xs ih =>
    cases k with
    | zero => simp
    | succ k =>
      simp only [List.getElem?_cons_succ] at hk
      exact Nat.succ_lt_succ (ih k hk)

theorem lgetD_map_get {α β : Type} (g : α → β) (l : List α) (k : Nat) (a : α) (d : β)
    (hk : l[k]? = some a) : (l.map g).getD k d = g a := by
  induction l generalizing k with
  | nil => simp at hk
  | cons x xs ih =>
    cases k with
    | zero =>
      simp only [List.getElem?_cons_zero, Option.some.injEq] at hk
      subst hk
      rfl
    | succ k =>
      simp only [List.getElem?_cons_succ] at hk
      exact ih k hk

theorem fieldByIndex_flat (n : String) (sfs : List SimpleField) (k : Nat) (s : SimpleField)
    (hk : sfs[k]? = some s) :
    fieldByIndex (mkFlatVal n sfs) [k] = s.value := by
  show (sfs.map SimpleField.value).getD k .vinvalid = s.value
  exact lgetD_map_get SimpleField.value sfs k s .vinvalid hk

/-! ### Unpacking field admission -/

theorem simpleFieldOK_val (s : SimpleField) (t : tag) (ht : s.parsedTag = .ok t)
    (h : SimpleFieldOK s) : fieldValOK t s.value := by
  unfold SimpleFieldOK at h
  rw [ht] at h
  exact h

theorem fieldValOK_omit (t : tag) (v : GoVal) (h : fieldValOK t v)
    (homit : t.omitempty = true) : zeroSupported v := by
  unfold fieldValOK at h
  rw [homit] at h
  exact h

theorem fieldValOK_plain (t : tag) (v : GoVal) (h : fieldValOK t v)
    (homit : t.omitempty = false) (htyp : ¬ t.typ = TagValueRel) :
    presentVal v ∧ (t.quote = true → scalarVal v = true) := by
  unfold fieldValOK at h
  rw [homit] at h
  simp only [Bool.false_eq_true, if_false] at h
  rw [if_neg htyp] at h
  exact h

theorem fieldValOK_rel_cases (t : tag) (v : GoVal) (h : fieldValOK t v)
    (homit : t.omitempty = false) (htyp : t.typ = TagValueRel) :
    (∃ e xs, v = .vslice e xs ∧ relElemOK e ∧
       ∀ x ∈ xs, x.typeOf = e ∧ presentVal x ∧ (t.quote = true → scalarVal x = true))
    ∨ (presentVal v ∧ (t.quote = true → scalarVal v = true)) := by
  unfold fieldValOK at h
  rw [homit] at h
  simp only [Bool.false_eq_true, if_false] at h
  rw [if_pos htyp] at h
  match v with
  | .vslice e xs => exact Or.inl ⟨e, xs, rfl, h⟩
  | .vbool _ | .vint _ | .vuint8 _ | .vuint _ | .vfloat _ | .vstring _
  | .vinvalid | .vptr _ _ | .viface _ | .varray _ _ | .vmap _ _ _ | .vstruct _ _ =>
    exact Or.inr h

/-- A field of a flat admitted record, as the write characterization
needs it. -/
def FieldSpec (sfs : List SimpleField) (f : field) : Prop :=
  ∃ k s, sfs[k]? = some s ∧ s.parsedTag = .ok f.tag ∧ f.idxs = [k] ∧ SimpleFieldOK s

/-- `omitempty` fields of the admitted class are omitted, others are
written. -/
theorem writtenF_flat (n : String) (sfs : List SimpleField) (f : field)
    (hs : FieldSpec sfs f) :
    writtenF (mkFlatVal n sfs) f = !f.tag.omitempty := by
  obtain ⟨k, s, hk, ht, hi, hok⟩ := hs
  have hval := simpleFieldOK_val s f.tag ht hok
  rw [writtenF, hi, fieldByIndex_flat n sfs k s hk]
  cases homit : f.tag.omitempty with
  | false => simp
  | true =>
    have hz := fieldValOK_omit f.tag s.value hval homit
    simp [zeroSupported_isEmpty s.value hz]

/-! ### Per-field marshal steps -/

theorem marshalJson_encOf (v : GoVal) (f : field)
    (h : ∃ j, marshalJson (derefValue (fieldByIndex v f.idxs)) f.tag.quote = .ok j) :
    marshalJson (derefValue (fieldByIndex v f.idxs)) f.tag.quote = .ok (encOfField v f) := by
  obtain ⟨j, hj⟩ := h
  simp only [encOfField]
  rw [hj]

theorem marshalToManyElems_ids (f : field) (xs : List GoVal)
    (h : ∀ x ∈ xs, ∃ j, marshalJson (derefValue x) f.tag.quote = .ok j) :
    marshalToManyElems f xs = .ok (idsOf f xs) := by
  induction xs with
  | nil => rfl
  | cons x rest ih =>
    obtain ⟨j, hj⟩ := h x (by simp)
    rw [marshalToManyElems, hj, ih (fun y hy => h y (by simp [hy]))]
    simp [bind, Except.bind, idsOf, encElemJ, hj]

theorem marshalField_omitted (v : GoVal) (r : Resource) (f : field)
    (hkind : f.tag.typ = TagValueAttr ∨ f.tag.typ = TagValueMeta ∨ f.tag.typ = TagValueRel)
    (hcond : (f.tag.omitempty && isEmpty (derefValue (fieldByIndex v f.idxs))) = true) :
    marshalField v r f = .ok r := by
  rcases hkind with htyp | htyp | htyp
  · rw [marshalField, if_neg (by rw [htyp]; decide), if_pos htyp, marshalAttr, if_pos hcond]
  · rw [marshalField, if_neg (by rw [htyp]; decide), if_neg (by rw [htyp]; decide),
      if_neg (by rw [htyp]; decide), if_pos htyp, marshalMeta, if_pos hcond]
  · rw [marshalField, if_neg (by rw [htyp]; decide), if_neg (by rw [htyp]; decide),
      if_pos htyp, marshalRel, if_pos hcond]

theorem marshalField_attr_written (v : GoVal) (r : Resource) (f : field)
    (htyp : f.tag.typ = TagValueAttr) (homit : f.tag.omitempty = false)
    (henc : ∃ j, marshalJson (derefValue (fieldByIndex v f.idxs)) f.tag.quote = .ok j) :
    marshalField v r f
      = .ok { r with attributes := alistSet r.attributes f.tag.name (encOfField v f) } := by
  rw [marshalField, if_neg (by rw [htyp]; decide), if_pos htyp, marshalAttr,
    if_neg (by rw [homit]; simp), marshalJson_encOf v f henc]

theorem marshalField_meta_written (v : GoVal) (r : Resource) (f : field)
    (htyp : f.tag.typ = TagValueMeta) (homit : f.tag.omitempty = false)
    (henc : ∃ j, marshalJson (derefValue (fieldByIndex v f.idxs)) f.tag.quote = .ok j) :
    marshalField v r f
      = .ok { r with ident :=
          { r.ident with meta := alistSet r.ident.meta f.tag.name (encOfField v f) } } := by
  rw [marshalField, if_neg (by rw [htyp]; decide), if_neg (by rw [htyp]; decide),
    if_neg (by rw [htyp]; decide), if_pos htyp, marshalMeta,
    if_neg (by rw [homit]; simp), marshalJson_encOf v f henc]

theorem marshalField_id_omitted (v : GoVal) (r : Resource) (f : field)
    (htyp : f.tag.typ = TagValueId)
    (hcond : (f.tag.omitempty && isEmpty (derefValue (fieldByIndex v f.idxs))) = true) :
    marshalField v r f
      = .ok { r with ident := { r.ident with rtype := f.tag.rscType } } := by
  rw [marshalField, if_pos htyp, marshalId, if_pos hcond]

theorem marshalField_id_written (v : GoVal) (r : Resource) (f : field)
    (htyp : f.tag.typ = TagValueId) (homit : f.tag.omitempty = false)
    (henc : ∃ j, marshalJson (derefValue (fieldByIndex v f.idxs)) f.tag.quote = .ok j) :
    marshalField v r f
      = .ok { r with ident :=
          { r.ident with rtype := f.tag.rscType, id := some (encOfField v f) } } := by
  rw [marshalField, if_pos htyp, marshalId, if_neg (by rw [homit]; simp),
    marshalJson_encOf v f henc]

theorem marshalField_rel_toOne (v : GoVal) (r : Resource) (f : field)
    (htyp : f.tag.typ = TagValueRel) (homit : f.tag.omitempty = false)
    (hone : isToOne (derefValue (fieldByIndex v f.idxs)) = true)
    (henc : ∃ j, marshalJson (derefValue (fieldByIndex v f.idxs)) f.tag.quote = .ok j) :
    marshalField v r f
      = .ok { r with toOneRelationships := (alistSet r.toOneRelationships f.tag.name
          { data := { rtype := f.tag.rscType, id := some (encOfField v f) } }) } := by
  rw [marshalField, if_neg (by rw [htyp]; decide), if_neg (by rw [htyp]; decide),
    if_pos htyp, marshalRel, if_neg (by rw [homit]; simp), if_pos hone,
    marshalToOneRel, marshalJson_encOf v f henc]

theorem marshalField_rel_toMany (v : GoVal) (r : Resource) (f : field) (e : GoType)
    (xs : List GoVal)
    (hfv : derefValue (fieldByIndex v f.idxs) = .vslice e xs)
    (htyp : f.tag.typ = TagValueRel) (homit : f.tag.omitempty = false)
    (hek : e.kind ≠ Kind.uint8)
    (helems : ∀ x ∈ xs, ∃ j, marshalJson (derefValue x) f.tag.quote = .ok j) :
    marshalField v r f
      = .ok { r with toManyRelationships := (alistSet r.toManyRelationships f.tag.name
          { data := idsOf f xs }) } := by
  have hone : isToOne (.vslice e xs) = false := by
    simp [isToOne, GoVal.kind, GoVal.elemKind, hek]
  rw [marshalField, if_neg (by rw [htyp]; decide), if_neg (by rw [htyp]; decide),
    if_pos htyp, marshalRel, hfv, if_neg (by rw [homit]; simp),
    if_neg (by rw [hone]; simp), marshalToManyRel]
  simp only [marshalToManyElems_ids f xs helems]

/-! ### The marshal loop on a flat record -/

/-- One marshal step whose field succeeded. -/
theorem marshalFields_cons_ok (v : GoVal) (r r₁ : Resource) (f : field) (fs : List field)
    (h : marshalField v r f = .ok r₁) :
    marshalFields v r (f :: fs) = marshalFields v r₁ fs := by
  rw [marshalFields, h]

/-- The marshal loop has not yet written any of the remaining fields'
keys. -/
def FreshFor (r : Resource) (g : field) : Prop :=
  (g.tag.typ = TagValueAttr → alistGet r.attributes g.tag.name = none) ∧
  (g.tag.typ = TagValueMeta → alistGet r.ident.meta g.tag.name = none) ∧
  (g.tag.typ = TagValueRel →
    alistGet r.toOneRelationships g.tag.name = none ∧
    alistGet r.toManyRelationships g.tag.name = none)

theorem typ_cond_false {f : field} {t1 t2 : String} (htyp : f.tag.typ = t1) (hne : t1 ≠ t2)
    {P : Prop} : ¬ (f.tag.typ = t2 ∧ P) :=
  fun hc => hne (htyp.symm.trans hc.1)

theorem wf_cond_false2 {v : GoVal} {f : field} (hwf : writtenF v f = false) {A : Prop} :
    ¬ (A ∧ writtenF v f = true) := by
  intro hc
  rw [hwf] at hc
  exact absurd hc.2 (by decide)

theorem wf_cond_false3 {v : GoVal} {f : field} (hwf : writtenF v f = false) {A B : Prop} :
    ¬ (A ∧ writtenF v f = true ∧ B) := by
  intro hc
  rw [hwf] at hc
  exact absurd hc.2.1 (by decide)

theorem one_cond_false_many {v : GoVal} {f : field}
    (hone : isToOne (derefValue (fieldByIndex v f.idxs)) = true) {A B : Prop} :
    ¬ (A ∧ B ∧ isToOne (derefValue (fieldByIndex v f.idxs)) = false) := by
  intro hc
  rw [hone] at hc
  exact absurd hc.2.2 (by decide)

theorem one_cond_false_one {v : GoVal} {f : field}
    (hone : isToOne (derefValue (fieldByIndex v f.idxs)) = false) {A B : Prop} :
    ¬ (A ∧ B ∧ isToOne (derefValue (fieldByIndex v f.idxs)) = true) := by
  intro hc
  rw [hone] at hc
  exact absurd hc.2.2 (by decide)

theorem idField_cons_neg (f : field) (fs : List field) (h : ¬ f.tag.typ = TagValueId) :
    idField (f :: fs) = idField fs := by
  unfold idField
  rw [List.find?_cons_of_neg]
  intro hc
  exact h (beq_iff_eq.mp hc)

theorem idField_cons_pos (f : field) (fs : List field) (h : f.tag.typ = TagValueId) :
    idField (f :: fs) = some f := by
  unfold idField
  rw [List.find?_cons_of_pos]
  exact beq_iff_eq.mpr h

theorem freshFor_set_attr (r : Resource) (f g : field) (j : JsonVal)
    (htyp : f.tag.typ = TagValueAttr) (hne : fkey g ≠ fkey f)
    (h : FreshFor r g) :
    FreshFor { r with attributes := alistSet r.attributes f.tag.name j } g := by
  obtain ⟨ha, hm, hr⟩ := h
  refine ⟨?_, hm, hr⟩
  intro hga
  show alistGet (alistSet r.attributes f.tag.name j) g.tag.name = none
  rw [alistGet_set, if_neg]
  · exact ha hga
  · intro hc
    exact hne (by simp [fkey, hga, htyp, hc])

theorem freshFor_set_meta (r : Resource) (f g : field) (j : JsonVal)
    (htyp : f.tag.typ = TagValueMeta) (hne : fkey g ≠ fkey f)
    (h : FreshFor r g) :
    FreshFor { r with ident := { r.ident with meta := alistSet r.ident.meta f.tag.name j } } g := by
  obtain ⟨ha, hm, hr⟩ := h
  refine ⟨ha, ?_, hr⟩
  intro hgm
  show alistGet (alistSet r.ident.meta f.tag.name j) g.tag.name = none
  rw [alistGet_set, if_neg]
  · exact hm hgm
  · intro hc
    exact hne (by simp [fkey, hgm, htyp, hc])

theorem freshFor_set_toOne (r : Resource) (f g : field) (l : ToOneResourceLinkage)
    (htyp : f.tag.typ = TagValueRel) (hne : fkey g ≠ fkey f)
    (h : FreshFor r g) :
    FreshFor { r with toOneRelationships := alistSet r.toOneRelationships f.tag.name l } g := by
  obtain ⟨ha, hm, hr⟩ := h
  refine ⟨ha, hm, ?_⟩
  intro hgr
  refine ⟨?_, (hr hgr).2⟩
  show alistGet (alistSet r.toOneRelationships f.tag.name l) g.tag.name = none
  rw [alistGet_set, if_neg]
  · exact (hr hgr).1
  · intro hc
    exact hne (by simp [fkey, hgr, htyp, hc])

theorem freshFor_set_toMany (r : Resource) (f g : field) (l : ToManyResourceLinkage)
    (htyp : f.tag.typ = TagValueRel) (hne : fkey g ≠ fkey f)
    (h : FreshFor r g) :
    FreshFor { r with toManyRelationships := alistSet r.toManyRelationships f.tag.name l } g := by
  obtain ⟨ha, hm, hr⟩ := h
  refine ⟨ha, hm, ?_⟩
  intro hgr
  refine ⟨(hr hgr).1, ?_⟩
  show alistGet (alistSet r.toManyRelationships f.tag.name l) g.tag.name = none
  rw [alistGet_set, if_neg]
  · exact (hr hgr).2
  · intro hc
    exact hne (by simp [fkey, hgr, htyp, hc])

theorem freshFor_id (r : Resource) (g : field) (rt : String) (oid : Option JsonVal)
    (h : FreshFor r g) :
    FreshFor { r with ident := { r.ident with rtype := rt, id := oid } } g := h

/-- With distinct keys, no id field remains after one id field's key. -/
theorem idField_none_of_nodup (sfs : List SimpleField) (fs' : List field) (f : field)
    (hspec : ∀ g ∈ fs', FieldSpec sfs g)
    (hfid : f.tag.typ = TagValueId) (hfname : f.tag.name = "")
    (hknot : fkey f ∉ fs'.map fkey) :
    idField fs' = none := by
  match hfind : idField fs' with
  | none => rfl
  | some g =>
    have hfind' : List.find? (fun x => x.tag.typ == TagValueId) fs' = some g := hfind
    have hg := List.find?_some hfind'
    have hgt : g.tag.typ = TagValueId := beq_iff_eq.mp hg
    have hgm : g ∈ fs' := List.mem_of_find?_eq_some hfind'
    obtain ⟨k2, s2, hk2, ht2, -, -⟩ := hspec g hgm
    obtain ⟨htt2, hd2⟩ := parseTag_ok_typ s2.sfield _ _ g.tag
      (by rw [← SimpleField.parsedTag]; exact ht2)
    have hgname : g.tag.name = "" := by
      rcases hd2 with ⟨h1, h2⟩ | h1 | h1 | h1
      · exact h2
      · rw [h1] at htt2
        rw [htt2] at hgt
        exact absurd hgt (by decide)
      · rw [h1] at htt2
        rw [htt2] at hgt
        exact absurd hgt (by decide)
      · rw [h1] at htt2
        rw [htt2] at hgt
        exact absurd hgt (by decide)
    exact absurd (show fkey f ∈ fs'.map fkey by
      rw [show fkey f = fkey g by simp [fkey, hfid, hfname, hgt, hgname]]
      exact List.mem_map_of_mem fkey hgm) hknot

/-- What the marshal loop writes on a flat admitted record: the final
resource, section by section. -/
theorem marshalFields_writes (n : String) (sfs : List SimpleField) :
    ∀ (fs : List field) (r : Resource),
      (∀ f ∈ fs, FieldSpec sfs f) →
      (fs.map fkey).Nodup →
      (∀ f ∈ fs, FreshFor r f) →
      marshalFields (mkFlatVal n sfs) r fs = .ok
        { ident :=
            { rtype := (match idField fs with
                | some f0 => f0.tag.rscType
                | none => r.ident.rtype),
              id := (match idField fs with
                | some f0 =>
                  if writtenF (mkFlatVal n sfs) f0
                  then some (encOfField (mkFlatVal n sfs) f0)
                  else r.ident.id
                | none => r.ident.id),
              meta := r.ident.meta ++ metaWrites (mkFlatVal n sfs) fs },
          attributes := r.attributes ++ attrWrites (mkFlatVal n sfs) fs,
          toOneRelationships := r.toOneRelationships ++ toOneWrites (mkFlatVal n sfs) fs,
          toManyRelationships := r.toManyRelationships ++ toManyWrites (mkFlatVal n sfs) fs,
          links := r.links } := by
  intro fs
  induction fs with
  | nil =>
    intro r _ _ _
    simp [marshalFields, idField, metaWrites, attrWrites, toOneWrites, toManyWrites]
  | cons f fs' ih =>
    intro r hspec hdk hfresh
    obtain ⟨k, s, hk, ht, hi, hsok⟩ := hspec f (List.mem_cons_self _ _)
    have hw := writtenF_flat n sfs f ⟨k, s, hk, ht, hi, hsok⟩
    have hval := simpleFieldOK_val s f.tag ht hsok
    simp only [List.map_cons, List.nodup_cons] at hdk
    obtain ⟨hknot, hdk'⟩ := hdk
    have hspec' : ∀ g ∈ fs', FieldSpec sfs g := fun g hg => hspec g (by simp [hg])
    have hkeyne : ∀ g ∈ fs', fkey g ≠ fkey f := by
      intro g hg hc
      exact hknot (by rw [← hc]; exact List.mem_map_of_mem fkey hg)
    obtain ⟨htt, hd⟩ := parseTag_ok_typ s.sfield _ _ f.tag
      (by rw [← SimpleField.parsedTag]; exact ht)
    rw [← htt] at hd
    rcases hd with ⟨htyp, hname⟩ | htyp | htyp | htyp
    · -- id field
      have hnoid := idField_none_of_nodup sfs fs' f hspec' htyp hname hknot
      cases homit : f.tag.omitempty with
      | true =>
        have hwf : writtenF (mkFlatVal n sfs) f = false := by rw [hw, homit]; rfl
        have hcond : (f.tag.omitempty
            && isEmpty (derefValue (fieldByIndex (mkFlatVal n sfs) f.idxs))) = true := by
          have h2 := hwf
          rw [writtenF] at h2
          simpa using h2
        rw [marshalFields_cons_ok _ r _ f fs'
          (marshalField_id_omitted (mkFlatVal n sfs) r f htyp hcond)]
        rw [attrWrites, if_neg (typ_cond_false htyp (by decide)),
          metaWrites, if_neg (typ_cond_false htyp (by decide)),
          toOneWrites, if_neg (typ_cond_false htyp (by decide)),
          toManyWrites, if_neg (typ_cond_false htyp (by decide)),
          idField_cons_pos f fs' htyp]
        rw [ih _ hspec' hdk' (fun g hg => freshFor_id r g f.tag.rscType r.ident.id
          (hfresh g (by simp [hg])))]
        rw [hnoid]
        simp [hwf]
      | false =>
        have hwt : writtenF (mkFlatVal n sfs) f = true := by rw [hw, homit]; rfl
        have hpresent := fieldValOK_plain f.tag s.value hval homit (by rw [htyp]; decide)
        have henc : ∃ j, marshalJson (derefValue (fieldByIndex (mkFlatVal n sfs) f.idxs))
            f.tag.quote = .ok j := by
          rw [hi, fieldByIndex_flat n sfs k s hk]
          exact present_encode s.value f.tag.quote hpresent.1
        rw [marshalFields_cons_ok _ r _ f fs'
          (marshalField_id_written (mkFlatVal n sfs) r f htyp homit henc)]
        rw [attrWrites, if_neg (typ_cond_false htyp (by decide)),
          metaWrites, if_neg (typ_cond_false htyp (by decide)),
          toOneWrites, if_neg (typ_cond_false htyp (by decide)),
          toManyWrites, if_neg (typ_cond_false htyp (by decide)),
          idField_cons_pos f fs' htyp]
        rw [ih _ hspec' hdk' (fun g hg => freshFor_id r g f.tag.rscType
          (some (encOfField (mkFlatVal n sfs) f)) (hfresh g (by simp [hg])))]
        rw [hnoid]
        simp [hwt]
    · -- attribute field
      cases homit : f.tag.omitempty with
      | true =>
        have hwf : writtenF (mkFlatVal n sfs) f = false := by rw [hw, homit]; rfl
        have hcond : (f.tag.omitempty
            && isEmpty (derefValue (fieldByIndex (mkFlatVal n sfs) f.idxs))) = true := by
          have h2 := hwf
          rw [writtenF] at h2
          simpa using h2
        rw [marshalFields_cons_ok _ r _ f fs'
          (marshalField_omitted (mkFlatVal n sfs) r f (Or.inl htyp) hcond)]
        rw [attrWrites, if_neg (wf_cond_false2 hwf),
          metaWrites, if_neg (typ_cond_false htyp (by decide)),
          toOneWrites, if_neg (typ_cond_false htyp (by decide)),
          toManyWrites, if_neg (typ_cond_false htyp (by decide)),
          idField_cons_neg f fs' (by rw [htyp]; decide)]
        exact ih _ hspec' hdk' (fun g hg => hfresh g (by simp [hg]))
      | false =>
        have hwt : writtenF (mkFlatVal n sfs) f = true := by rw [hw, homit]; rfl
        have hpresent := fieldValOK_plain f.tag s.value hval homit (by rw [htyp]; decide)
        have henc : ∃ j, marshalJson (derefValue (fieldByIndex (mkFlatVal n sfs) f.idxs))
            f.tag.quote = .ok j := by
          rw [hi, fieldByIndex_flat n sfs k s hk]
          exact present_encode s.value f.tag.quote hpresent.1
        have hfa : alistGet r.attributes f.tag.name = none :=
          (hfresh f (List.mem_cons_self _ _)).1 htyp
        rw [marshalFields_cons_ok _ r _ f fs'
          (marshalField_attr_written (mkFlatVal n sfs) r f htyp homit henc)]
        rw [attrWrites, if_pos ⟨htyp, hwt⟩,
          metaWrites, if_neg (typ_cond_false htyp (by decide)),
          toOneWrites, if_neg (typ_cond_false htyp (by decide)),
          toManyWrites, if_neg (typ_cond_false htyp (by decide)),
          idField_cons_neg f fs' (by rw [htyp]; decide)]
        rw [ih _ hspec' hdk' (fun g hg => freshFor_set_attr r f g _ htyp
          (hkeyne g hg) (hfresh g (by simp [hg])))]
        rw [alistSet_fresh r.attributes f.tag.name _ hfa]
        simp [List.append_assoc]
    · -- meta field
      cases homit : f.tag.omitempty with
      | true =>
        have hwf : writtenF (mkFlatVal n sfs) f = false := by rw [hw, homit]; rfl
        have hcond : (f.tag.omitempty
            && isEmpty (derefValue (fieldByIndex (mkFlatVal n sfs) f.idxs))) = true := by
          have h2 := hwf
          rw [writtenF] at h2
          simpa using h2
        rw [marshalFields_cons_ok _ r _ f fs'
          (marshalField_omitted (mkFlatVal n sfs) r f (Or.inr (Or.inl htyp)) hcond)]
        rw [attrWrites, if_neg (typ_cond_false htyp (by decide)),
          metaWrites, if_neg (wf_cond_false2 hwf),
          toOneWrites, if_neg (typ_cond_false htyp (by decide)),
          toManyWrites, if_neg (typ_cond_false htyp (by decide)),
          idField_cons_neg f fs' (by rw [htyp]; decide)]
        exact ih _ hspec' hdk' (fun g hg => hfresh g (by simp [hg]))
      | false =>
        have hwt : writtenF (mkFlatVal n sfs) f = true := by rw [hw, homit]; rfl
        have hpresent := fieldValOK_plain f.tag s.value hval homit (by rw [htyp]; decide)
        have henc : ∃ j, marshalJson (derefValue (fieldByIndex (mkFlatVal n sfs) f.idxs))
            f.tag.quote = .ok j := by
          rw [hi, fieldByIndex_flat n sfs k s hk]
          exact present_encode s.value f.tag.quote hpresent.1
        have hfm : alistGet r.ident.meta f.tag.name = none :=
          (hfresh f (List.mem_cons_self _ _)).2.1 htyp
        rw [marshalFields_cons_ok _ r _ f fs'
          (marshalField_meta_written (mkFlatVal n sfs) r f htyp homit henc)]
        rw [attrWrites, if_neg (typ_cond_false htyp (by decide)),
          metaWrites, if_pos ⟨htyp, hwt⟩,
          toOneWrites, if_neg (typ_cond_false htyp (by decide)),
          toManyWrites, if_neg (typ_cond_false htyp (by decide)),
          idField_cons_neg f fs' (by rw [htyp]; decide)]
        rw [ih _ hspec' hdk' (fun g hg => freshFor_set_meta r f g _ htyp
          (hkeyne g hg) (hfresh g (by simp [hg])))]
        rw [alistSet_fresh r.ident.meta f.tag.name _ hfm]
        simp [List.append_assoc]
    · -- relationship field
      cases homit : f.tag.omitempty with
      | true =>
        have hwf : writtenF (mkFlatVal n sfs) f = false := by rw [hw, homit]; rfl
        have hcond : (f.tag.omitempty
            && isEmpty (derefValue (fieldByIndex (mkFlatVal n sfs) f.idxs))) = true := by
          have h2 := hwf
          rw [writtenF] at h2
          simpa using h2
        rw [marshalFields_cons_ok _ r _ f fs'
          (marshalField_omitted (mkFlatVal n sfs) r f (Or.inr (Or.inr htyp)) hcond)]
        rw [attrWrites, if_neg (typ_cond_false htyp (by decide)),
          metaWrites, if_neg (typ_cond_false htyp (by decide)),
          toOneWrites, if_neg (wf_cond_false3 hwf),
          toManyWrites, if_neg (wf_cond_false3 hwf),
          idField_cons_neg f fs' (by rw [htyp]; decide)]
        exact ih _ hspec' hdk' (fun g hg => hfresh g (by simp [hg]))
      | false =>
        have hwt : writtenF (mkFlatVal n sfs) f = true := by rw [hw, homit]; rfl
        rcases fieldValOK_rel_cases f.tag s.value hval homit htyp with
          ⟨e, xs, hsv, hek, hxs⟩ | hplain
        · -- to-many: a slice value
          have hfv : derefValue (fieldByIndex (mkFlatVal n sfs) f.idxs) = .vslice e xs := by
            rw [hi, fieldByIndex_flat n sfs k s hk, hsv]
            rfl
          have helems : ∀ x ∈ xs, ∃ j, marshalJson (derefValue x) f.tag.quote = .ok j :=
            fun x hx => present_encode x f.tag.quote (hxs x hx).2.1
          have hone : isToOne (derefValue (fieldByIndex (mkFlatVal n sfs) f.idxs)) = false := by
            rw [hfv]
            simp [isToOne, GoVal.kind, GoVal.elemKind, hek.2]
          have hfr := (hfresh f (List.mem_cons_self _ _)).2.2 htyp
          rw [marshalFields_cons_ok _ r _ f fs'
            (marshalField_rel_toMany (mkFlatVal n sfs) r f e xs hfv htyp homit hek.2 helems)]
          rw [attrWrites, if_neg (typ_cond_false htyp (by decide)),
            metaWrites, if_neg (typ_cond_false htyp (by decide)),
            toOneWrites, if_neg (one_cond_false_one hone),
            toManyWrites, if_pos ⟨htyp, hwt, hone⟩,
            idField_cons_neg f fs' (by rw [htyp]; decide)]
          rw [ih _ hspec' hdk' (fun g hg => freshFor_set_toMany r f g _ htyp
            (hkeyne g hg) (hfresh g (by simp [hg])))]
          rw [alistSet_fresh r.toManyRelationships f.tag.name _ hfr.2]
          rw [show sliceElems (derefValue (fieldByIndex (mkFlatVal n sfs) f.idxs))
            = xs by rw [hfv]; rfl]
          simp [List.append_assoc]
        · -- to-one: a present chain
          have hone : isToOne (derefValue (fieldByIndex (mkFlatVal n sfs) f.idxs)) = true := by
            rw [hi, fieldByIndex_flat n sfs k s hk]
            exact present_isToOne s.value hplain.1
          have henc : ∃ j, marshalJson (derefValue (fieldByIndex (mkFlatVal n sfs) f.idxs))
              f.tag.quote = .ok j := by
            rw [hi, fieldByIndex_flat n sfs k s hk]
            exact present_encode s.value f.tag.quote hplain.1
          have hfr := (hfresh f (List.mem_cons_self _ _)).2.2 htyp
          rw [marshalFields_cons_ok _ r _ f fs'
            (marshalField_rel_toOne (mkFlatVal n sfs) r f htyp homit hone henc)]
          rw [attrWrites, if_neg (typ_cond_false htyp (by decide)),
            metaWrites, if_neg (typ_cond_false htyp (by decide)),
            toOneWrites, if_pos ⟨htyp, hwt, hone⟩,
            toManyWrites, if_neg (one_cond_false_many hone),
            idField_cons_neg f fs' (by rw [htyp]; decide)]
          rw [ih _ hspec' hdk' (fun g hg => freshFor_set_toOne r f g _ htyp
            (hkeyne g hg) (hfresh g (by simp [hg])))]
          rw [alistSet_fresh r.toOneRelationships f.tag.name _ hfr.1]
          simp [List.append_assoc]

/-! ### Reading the written entries back -/

theorem attrWrites_mem (v : GoVal) :
    ∀ (fs : List field) (p : String × JsonVal), p ∈ attrWrites v fs →
      ∃ g ∈ fs, g.tag.typ = TagValueAttr ∧ writtenF v g = true
        ∧ p = (g.tag.name, encOfField v g) := by
  intro fs
  induction fs with
  | nil => intro p hp; simp [attrWrites] at hp
  | cons g fs' ih =>
    intro p hp
    rw [attrWrites] at hp
    by_cases hg : g.tag.typ = TagValueAttr ∧ writtenF v g = true
    · rw [if_pos hg] at hp
      rcases List.mem_cons.mp hp with h | h
      · exact ⟨g, List.mem_cons_self _ _, hg.1, hg.2, h⟩
      · obtain ⟨g', hg', h1, h2, h3⟩ := ih p h
        exact ⟨g', by simp [hg'], h1, h2, h3⟩
    · rw [if_neg hg] at hp
      obtain ⟨g', hg', h1, h2, h3⟩ := ih p hp
      exact ⟨g', by simp [hg'], h1, h2, h3⟩

theorem metaWrites_mem (v : GoVal) :
    ∀ (fs : List field) (p : String × JsonVal), p ∈ metaWrites v fs →
      ∃ g ∈ fs, g.tag.typ = TagValueMeta ∧ writtenF v g = true
        ∧ p = (g.tag.name, encOfField v g) := by
  intro fs
  induction fs with
  | nil => intro p hp; simp [metaWrites] at hp
  | cons g fs' ih =>
    intro p hp
    rw [metaWrites] at hp
    by_cases hg : g.tag.typ = TagValueMeta ∧ writtenF v g = true
    · rw [if_pos hg] at hp
      rcases List.mem_cons.mp hp with h | h
      · exact ⟨g, List.mem_cons_self _ _, hg.1, hg.2, h⟩
      · obtain ⟨g', hg', h1, h2, h3⟩ := ih p h
        exact ⟨g', by simp [hg'], h1, h2, h3⟩
    · rw [if_neg hg] at hp
      obtain ⟨g', hg', h1, h2, h3⟩ := ih p hp
      exact ⟨g', by simp [hg'], h1, h2, h3⟩

theorem toOneWrites_mem (v : GoVal) :
    ∀ (fs : List field) (p : String × ToOneResourceLinkage), p ∈ toOneWrites v fs →
      ∃ g ∈ fs, g.tag.typ = TagValueRel ∧ writtenF v g = true
        ∧ isToOne (derefValue (fieldByIndex v g.idxs)) = true
        ∧ p = (g.tag.name,
            { data := { rtype := g.tag.rscType, id := some (encOfField v g) } }) := by
  intro fs
  induction fs with
  | nil => intro p hp; simp [toOneWrites] at hp
  | cons g fs' ih =>
    intro p hp
    rw [toOneWrites] at hp
    by_cases hg : g.tag.typ = TagValueRel ∧ writtenF v g = true
        ∧ isToOne (derefValue (fieldByIndex v g.idxs)) = true
    · rw [if_pos hg] at hp
      rcases List.mem_cons.mp hp with h | h
      · exact ⟨g, List.mem_cons_self _ _, hg.1, hg.2.1, hg.2.2, h⟩
      · obtain ⟨g', hg', h1, h2, h3, h4⟩ := ih p h
        exact ⟨g', by simp [hg'], h1, h2, h3, h4⟩
    · rw [if_neg hg] at hp
      obtain ⟨g', hg', h1, h2, h3, h4⟩ := ih p hp
      exact ⟨g', by simp [hg'], h1, h2, h3, h4⟩

theorem toManyWrites_mem (v : GoVal) :
    ∀ (fs : List field) (p : String × ToManyResourceLinkage), p ∈ toManyWrites v fs →
      ∃ g ∈ fs, g.tag.typ = TagValueRel ∧ writtenF v g = true
        ∧ isToOne (derefValue (fieldByIndex v g.idxs)) = false
        ∧ p = (g.tag.name,
            { data := idsOf g (sliceElems (derefValue (fieldByIndex v g.idxs))) }) := by
  intro fs
  induction fs with
  | nil => intro p hp; simp [toManyWrites] at hp
  | cons g fs' ih =>
    intro p hp
    rw [toManyWrites] at hp
    by_cases hg : g.tag.typ = TagValueRel ∧ writtenF v g = true
        ∧ isToOne (derefValue (fieldByIndex v g.idxs)) = false
    · rw [if_pos hg] at hp
      rcases List.mem_cons.mp hp with h | h
      · exact ⟨g, List.mem_cons_self _ _, hg.1, hg.2.1, hg.2.2, h⟩
      · obtain ⟨g', hg', h1, h2, h3, h4⟩ := ih p h
        exact ⟨g', by simp [hg'], h1, h2, h3, h4⟩
    · rw [if_neg hg] at hp
      obtain ⟨g', hg', h1, h2, h3, h4⟩ := ih p hp
      exact ⟨g', by simp [hg'], h1, h2, h3, h4⟩

theorem eq_of_fkey_nodup {fs : List field} (hnd : (fs.map fkey).Nodup) {g1 g2 : field}
    (h1 : g1 ∈ fs) (h2 : g2 ∈ fs) (hk : fkey g1 = fkey g2) : g1 = g2 :=
  List.inj_on_of_nodup_map hnd h1 h2 hk

theorem attrWrites_lookup (v : GoVal) :
    ∀ (fs : List field), (fs.map fkey).Nodup →
      ∀ f ∈ fs, f.tag.typ = TagValueAttr → writtenF v f = true →
      alistGet (attrWrites v fs) f.tag.name = some (encOfField v f) := by
  intro fs
  induction fs with
  | nil => intro _ f hf; simp at hf
  | cons g fs' ih =>
    intro hnd f hf htyp hwt
    simp only [List.map_cons, List.nodup_cons] at hnd
    rcases List.mem_cons.mp hf with rfl | hf'
    · rw [attrWrites, if_pos ⟨htyp, hwt⟩, alistGet, if_pos rfl]
    · have hne : fkey g ≠ fkey f := fun hc =>
        hnd.1 (by rw [hc]; exact List.mem_map_of_mem fkey hf')
      rw [attrWrites]
      by_cases hg : g.tag.typ = TagValueAttr ∧ writtenF v g = true
      · rw [if_pos hg, alistGet, if_neg (fun hc =>
          hne (by simp [fkey, hg.1, htyp, hc]))]
        exact ih hnd.2 f hf' htyp hwt
      · rw [if_neg hg]
        exact ih hnd.2 f hf' htyp hwt

theorem metaWrites_lookup (v : GoVal) :
    ∀ (fs : List field), (fs.map fkey).Nodup →
      ∀ f ∈ fs, f.tag.typ = TagValueMeta → writtenF v f = true →
      alistGet (metaWrites v fs) f.tag.name = some (encOfField v f) := by
  intro fs
  induction fs with
  | nil => intro _ f hf; simp at hf
  | cons g fs' ih =>
    intro hnd f hf htyp hwt
    simp only [List.map_cons, List.nodup_cons] at hnd
    rcases List.mem_cons.mp hf with rfl | hf'
    · rw [metaWrites, if_pos ⟨htyp, hwt⟩, alistGet, if_pos rfl]
    · have hne : fkey g ≠ fkey f := fun hc =>
        hnd.1 (by rw [hc]; exact List.mem_map_of_mem fkey hf')
      rw [metaWrites]
      by_cases hg : g.tag.typ = TagValueMeta ∧ writtenF v g = true
      · rw [if_pos hg, alistGet, if_neg (fun hc =>
          hne (by simp [fkey, hg.1, htyp, hc]))]
        exact ih hnd.2 f hf' htyp hwt
      · rw [if_neg hg]
        exact ih hnd.2 f hf' htyp hwt

theorem toOneWrites_lookup (v : GoVal) :
    ∀ (fs : List field), (fs.map fkey).Nodup →
      ∀ f ∈ fs, f.tag.typ = TagValueRel → writtenF v f = true →
      isToOne (derefValue (fieldByIndex v f.idxs)) = true →
      alistGet (toOneWrites v fs) f.tag.name
        = some { data := { rtype := f.tag.rscType, id := some (encOfField v f) } } := by
  intro fs
  induction fs with
  | nil => intro _ f hf; simp at hf
  | cons g fs' ih =>
    intro hnd f hf htyp hwt hone
    simp only [List.map_cons, List.nodup_cons] at hnd
    rcases List.mem_cons.mp hf with rfl | hf'
    · rw [toOneWrites, if_pos ⟨htyp, hwt, hone⟩, alistGet, if_pos rfl]
    · have hne : fkey g ≠ fkey f := fun hc =>
        hnd.1 (by rw [hc]; exact List.mem_map_of_mem fkey hf')
      rw [toOneWrites]
      by_cases hg : g.tag.typ = TagValueRel ∧ writtenF v g = true
          ∧ isToOne (derefValue (fieldByIndex v g.idxs)) = true
      · rw [if_pos hg, alistGet, if_neg (fun hc =>
          hne (by simp [fkey, hg.1, htyp, hc]))]
        exact ih hnd.2 f hf' htyp hwt hone
      · rw [if_neg hg]
        exact ih hnd.2 f hf' htyp hwt hone

theorem toManyWrites_lookup (v : GoVal) :
    ∀ (fs : List field), (fs.map fkey).Nodup →
      ∀ f ∈ fs, f.tag.typ = TagValueRel → writtenF v f = true →
      isToOne (derefValue (fieldByIndex v f.idxs)) = false →
      alistGet (toManyWrites v fs) f.tag.name
        = some { data := idsOf f (sliceElems (derefValue (fieldByIndex v f.idxs))) } := by
  intro fs
  induction fs with
  | nil => intro _ f hf; simp at hf
  | cons g fs' ih =>
    intro hnd f hf htyp hwt hone
    simp only [List.map_cons, List.nodup_cons] at hnd
    rcases List.mem_cons.mp hf with rfl | hf'
    · rw [toManyWrites, if_pos ⟨htyp, hwt, hone⟩, alistGet, if_pos rfl]
    · have hne : fkey g ≠ fkey f := fun hc =>
        hnd.1 (by rw [hc]; exact List.mem_map_of_mem fkey hf')
      rw [toManyWrites]
      by_cases hg : g.tag.typ = TagValueRel ∧ writtenF v g = true
          ∧ isToOne (derefValue (fieldByIndex v g.idxs)) = false
      · rw [if_pos hg, alistGet, if_neg (fun hc =>
          hne (by simp [fkey, hg.1, htyp, hc]))]
        exact ih hnd.2 f hf' htyp hwt hone
      · rw [if_neg hg]
        exact ih hnd.2 f hf' htyp hwt hone

/-! ### The written keys are distinct -/

theorem attrWrites_keys_nodup (v : GoVal) :
    ∀ (fs : List field), (fs.map fkey).Nodup →
      ((attrWrites v fs).map Prod.fst).Nodup := by
  intro fs
  induction fs with
  | nil => intro _; simp [attrWrites]
  | cons g fs' ih =>
    intro hnd
    simp only [List.map_cons, List.nodup_cons] at hnd
    rw [attrWrites]
    by_cases hg : g.tag.typ = TagValueAttr ∧ writtenF v g = true
    · rw [if_pos hg]
      rw [List.map_cons, List.nodup_cons]
      refine ⟨?_, ih hnd.2⟩
      intro hc
      obtain ⟨p, hp, hpk⟩ := List.mem_map.mp hc
      obtain ⟨g', hg', h1, -, h3⟩ := attrWrites_mem v fs' p hp
      apply hnd.1
      have : fkey g = fkey g' := by
        have hname : g'.tag.name = g.tag.name := by rw [h3] at hpk; exact hpk
        simp [fkey, hg.1, h1, hname]
      rw [this]
      exact List.mem_map_of_mem fkey hg'
    · rw [if_neg hg]
      exact ih hnd.2

theorem metaWrites_keys_nodup (v : GoVal) :
    ∀ (fs : List field), (fs.map fkey).Nodup →
      ((metaWrites v fs).map Prod.fst).Nodup := by
  intro fs
  induction fs with
  | nil => intro _; simp [metaWrites]
  | cons g fs' ih =>
    intro hnd
    simp only [List.map_cons, List.nodup_cons] at hnd
    rw [metaWrites]
    by_cases hg : g.tag.typ = TagValueMeta ∧ writtenF v g = true
    · rw [if_pos hg]
      rw [List.map_cons, List.nodup_cons]
      refine ⟨?_, ih hnd.2⟩
      intro hc
      obtain ⟨p, hp, hpk⟩ := List.mem_map.mp hc
      obtain ⟨g', hg', h1, -, h3⟩ := metaWrites_mem v fs' p hp
      apply hnd.1
      have : fkey g = fkey g' := by
        have hname : g'.tag.name = g.tag.name := by rw [h3] at hpk; exact hpk
        simp [fkey, hg.1, h1, hname]
      rw [this]
      exact List.mem_map_of_mem fkey hg'
    · rw [if_neg hg]
      exact ih hnd.2

theorem toOneWrites_key_mem (v : GoVal) (fs : List field) (nm : String)
    (h : nm ∈ (toOneWrites v fs).map Prod.fst) :
    ∃ g ∈ fs, g.tag.typ = TagValueRel ∧ writtenF v g = true
      ∧ isToOne (derefValue (fieldByIndex v g.idxs)) = true ∧ g.tag.name = nm := by
  obtain ⟨p, hp, hpk⟩ := List.mem_map.mp h
  obtain ⟨g, hg, h1, h2, h3, h4⟩ := toOneWrites_mem v fs p hp
  exact ⟨g, hg, h1, h2, h3, by rw [h4] at hpk; exact hpk⟩

theorem toManyWrites_key_mem (v : GoVal) (fs : List field) (nm : String)
    (h : nm ∈ (toManyWrites v fs).map Prod.fst) :
    ∃ g ∈ fs, g.tag.typ = TagValueRel ∧ writtenF v g = true
      ∧ isToOne (derefValue (fieldByIndex v g.idxs)) = false ∧ g.tag.name = nm := by
  obtain ⟨p, hp, hpk⟩ := List.mem_map.mp h
  obtain ⟨g, hg, h1, h2, h3, h4⟩ := toManyWrites_mem v fs p hp
  exact ⟨g, hg, h1, h2, h3, by rw [h4] at hpk; exact hpk⟩

theorem toOneWrites_keys_nodup (v : GoVal) :
    ∀ (fs : List field), (fs.map fkey).Nodup →
      ((toOneWrites v fs).map Prod.fst).Nodup := by
  intro fs
  induction fs with
  | nil => intro _; simp [toOneWrites]
  | cons g fs' ih =>
    intro hnd
    simp only [List.map_cons, List.nodup_cons] at hnd
    rw [toOneWrites]
    by_cases hg : g.tag.typ = TagValueRel ∧ writtenF v g = true
        ∧ isToOne (derefValue (fieldByIndex v g.idxs)) = true
    · rw [if_pos hg]
      rw [List.map_cons, List.nodup_cons]
      refine ⟨?_, ih hnd.2⟩
      intro hc
      obtain ⟨g', hg', h1, -, -, h4⟩ := toOneWrites_key_mem v fs' g.tag.name hc
      apply hnd.1
      have : fkey g = fkey g' := by simp [fkey, hg.1, h1, h4]
      rw [this]
      exact List.mem_map_of_mem fkey hg'
    · rw [if_neg hg]
      exact ih hnd.2

theorem toManyWrites_keys_nodup (v : GoVal) :
    ∀ (fs : List field), (fs.map fkey).Nodup →
      ((toManyWrites v fs).map Prod.fst).Nodup := by
  intro fs
  induction fs with
  | nil => intro _; simp [toManyWrites]
  | cons g fs' ih =>
    intro hnd
    simp only [List.map_cons, List.nodup_cons] at hnd
    rw [toManyWrites]
    by_cases hg : g.tag.typ = TagValueRel ∧ writtenF v g = true
        ∧ isToOne (derefValue (fieldByIndex v g.idxs)) = false
    · rw [if_pos hg]
      rw [List.map_cons, List.nodup_cons]
      refine ⟨?_, ih hnd.2⟩
      intro hc
      obtain ⟨g', hg', h1, -, -, h4⟩ := toManyWrites_key_mem v fs' g.tag.name hc
      apply hnd.1
      have : fkey g = fkey g' := by simp [fkey, hg.1, h1, h4]
      rw [this]
      exact List.mem_map_of_mem fkey hg'
    · rw [if_neg hg]
      exact ih hnd.2

/-- The two relationship maps never share a key: a field is classified
one way only, and distinct fields have distinct names within the
relationship kind. -/
theorem relWrites_keys_nodup (v : GoVal) (fs : List field)
    (hnd : (fs.map fkey).Nodup) :
    (((toOneWrites v fs).map Prod.fst) ++ ((toManyWrites v fs).map Prod.fst)).Nodup := by
  refine List.Nodup.append (toOneWrites_keys_nodup v fs hnd)
    (toManyWrites_keys_nodup v fs hnd) ?_
  intro nm h1 h2
  obtain ⟨g1, hg1, ht1, -, ho1, hn1⟩ := toOneWrites_key_mem v fs nm h1
  obtain ⟨g2, hg2, ht2, -, ho2, hn2⟩ := toManyWrites_key_mem v fs nm h2
  have : g1 = g2 := eq_of_fkey_nodup hnd hg1 hg2 (by simp [fkey, ht1, ht2, hn1, hn2])
  rw [this, ho2] at ho1
  exact absurd ho1 (by decide)

/-! ### Decoding the document's relationship entries -/

/-- The to-one linkage a decoded relationship entry yields, when its raw
`data` is an object. -/
def relAliasToOne (ra : relAlias) : Option ToOneResourceLinkage :=
  match ra.data with
  | some (.jobj o) =>
    match decodeIdent (.jobj o) with
    | .ok i => some { meta := ra.meta, data := i, links := ra.links }
    | .error _ => none
  | _ => none

/-- The to-many linkage a decoded relationship entry yields, when its
raw `data` is an array. -/
def relAliasToMany (ra : relAlias) : Option ToManyResourceLinkage :=
  match ra.data with
  | some (.jarr xs) =>
    match decodeIdentList xs with
    | .ok ids => some { meta := ra.meta, data := ids, links := ra.links }
    | .error _ => none
  | _ => none

def toOneEntries (xs : List (String × relAlias)) : List (String × ToOneResourceLinkage) :=
  xs.filterMap (fun p => (relAliasToOne p.2).map (fun l => (p.1, l)))

def toManyEntries (xs : List (String × relAlias)) : List (String × ToManyResourceLinkage) :=
  xs.filterMap (fun p => (relAliasToMany p.2).map (fun l => (p.1, l)))

/-- An entry the classification loop can process without error. -/
def decodesClean (ra : relAlias) : Prop :=
  (relAliasToOne ra).isSome = true ∨ (relAliasToMany ra).isSome = true

theorem relAliasToOne_some (ra : relAlias) (l : ToOneResourceLinkage)
    (h : relAliasToOne ra = some l) :
    ∃ o, ra.data = some (.jobj o) ∧ decodeIdent (.jobj o) = .ok l.data
      ∧ l.meta = ra.meta ∧ l.links = ra.links := by
  unfold relAliasToOne at h
  split at h
  · rename_i o heq
    split at h
    · rename_i i hdec
      injection h with h
      subst h
      exact ⟨o, heq, hdec, rfl, rfl⟩
    · exact absurd h (by simp)
  · exact absurd h (by simp)

theorem relAliasToMany_some (ra : relAlias) (l : ToManyResourceLinkage)
    (h : relAliasToMany ra = some l) :
    ∃ xs, ra.data = some (.jarr xs) ∧ decodeIdentList xs = .ok l.data
      ∧ l.meta = ra.meta ∧ l.links = ra.links := by
  unfold relAliasToMany at h
  split at h
  · rename_i xs heq
    split at h
    · rename_i ids hdec
      injection h with h
      subst h
      exact ⟨xs, heq, hdec, rfl, rfl⟩
    · exact absurd h (by simp)
  · exact absurd h (by simp)

theorem relAliasToMany_none_of_obj (ra : relAlias) (o : List (String × JsonVal))
    (hd : ra.data = some (.jobj o)) : relAliasToMany ra = none := by
  unfold relAliasToMany
  rw [hd]

theorem relAliasToOne_none_of_arr (ra : relAlias) (xs : List JsonVal)
    (hd : ra.data = some (.jarr xs)) : relAliasToOne ra = none := by
  unfold relAliasToOne
  rw [hd]

theorem toOneEntries_cons_one (nm : String) (ra : relAlias) (rest : List (String × relAlias))
    (l : ToOneResourceLinkage) (h : relAliasToOne ra = some l) :
    toOneEntries ((nm, ra) :: rest) = (nm, l) :: toOneEntries rest := by
  simp only [toOneEntries, List.filterMap_cons, h, Option.map_some']

theorem toOneEntries_cons_none (nm : String) (ra : relAlias) (rest : List (String × relAlias))
    (h : relAliasToOne ra = none) :
    toOneEntries ((nm, ra) :: rest) = toOneEntries rest := by
  simp only [toOneEntries, List.filterMap_cons, h, Option.map_none']

theorem toManyEntries_cons_many (nm : String) (ra : relAlias) (rest : List (String × relAlias))
    (l : ToManyResourceLinkage) (h : relAliasToMany ra = some l) :
    toManyEntries ((nm, ra) :: rest) = (nm, l) :: toManyEntries rest := by
  simp only [toManyEntries, List.filterMap_cons, h, Option.map_some']

theorem toManyEntries_cons_none (nm : String) (ra : relAlias) (rest : List (String × relAlias))
    (h : relAliasToMany ra = none) :
    toManyEntries ((nm, ra) :: rest) = toManyEntries rest := by
  simp only [toManyEntries, List.filterMap_cons, h, Option.map_none']

/-- The relationship classification loop, on clean entries with fresh
distinct keys: it splits the entries into the two maps, appending in
order. -/
theorem classifyRels_clean : ∀ (xs : List (String × relAlias)) (r : Resource),
    (∀ p ∈ xs, decodesClean p.2) →
    (xs.map Prod.fst).Nodup →
    (∀ p ∈ xs, alistGet r.toOneRelationships p.1 = none
      ∧ alistGet r.toManyRelationships p.1 = none) →
    classifyRels r xs = some (.ok
      { r with toOneRelationships := r.toOneRelationships ++ toOneEntries xs,
               toManyRelationships := r.toManyRelationships ++ toManyEntries xs }) := by
  intro xs
  induction xs with
  | nil =>
    intro r _ _ _
    simp [classifyRels, toOneEntries, toManyEntries]
  | cons p rest ih =>
    intro r hclean hnd hfresh
    obtain ⟨nm, ra⟩ := p
    simp only [List.map_cons, List.nodup_cons] at hnd
    have hfr := hfresh (nm, ra) (List.mem_cons_self _ _)
    rcases hclean (nm, ra) (List.mem_cons_self _ _) with hone | hmany
    · match hro : relAliasToOne ra with
      | none => rw [hro] at hone; simp at hone
      | some l =>
        obtain ⟨o, hd, hdec, hm, hl⟩ := relAliasToOne_some ra l hro
        have hlrec : ({ meta := ra.meta, data := l.data, links := ra.links }
            : ToOneResourceLinkage) = l := by
          rw [← hm, ← hl]
        simp only [classifyRels, hd, hdec, hlrec]
        rw [alistSet_fresh _ _ _ hfr.1]
        rw [ih _ (fun q hq => hclean q (by simp [hq])) hnd.2 ?_]
        · rw [toOneEntries_cons_one nm ra rest l hro,
            toManyEntries_cons_none nm ra rest (relAliasToMany_none_of_obj ra o hd)]
          simp [List.append_assoc]
        · intro q hq
          have hq2 := hfresh q (by simp [hq])
          have hqne : ¬ nm = q.1 := fun hc => hnd.1 (by rw [hc]; exact List.mem_map_of_mem _ hq)
          constructor
          · rw [alistGet_append, hq2.1]
            simp [alistGet, hqne]
          · exact hq2.2
    · match hro : relAliasToMany ra with
      | none => rw [hro] at hmany; simp at hmany
      | some l =>
        obtain ⟨axs, hd, hdec, hm, hl⟩ := relAliasToMany_some ra l hro
        have hlrec : ({ meta := ra.meta, data := l.data, links := ra.links }
            : ToManyResourceLinkage) = l := by
          rw [← hm, ← hl]
        simp only [classifyRels, hd, hdec, hlrec]
        rw [alistSet_fresh _ _ _ hfr.2]
        rw [ih _ (fun q hq => hclean q (by simp [hq])) hnd.2 ?_]
        · rw [toOneEntries_cons_none nm ra rest (relAliasToOne_none_of_arr ra axs hd),
            toManyEntries_cons_many nm ra rest l hro]
          simp [List.append_assoc]
        · intro q hq
          have hq2 := hfresh q (by simp [hq])
          have hqne : ¬ nm = q.1 := fun hc => hnd.1 (by rw [hc]; exact List.mem_map_of_mem _ hq)
          constructor
          · exact hq2.1
          · rw [alistGet_append, hq2.2]
            simp [alistGet, hqne]

/-! ### Decoding the encoded identifiers and linkages -/

/-- `decodeIdent` inverts `encodeIdent` on identifiers without meta. -/
theorem decodeIdent_encodeIdent (ri : ResourceIdentifier) (hm : ri.meta = []) :
    decodeIdent (encodeIdent ri) = .ok ri := by
  obtain ⟨rt, oid, meta⟩ := ri
  simp only at hm
  subst hm
  by_cases hrt : rt = ""
  · subst hrt
    cases oid with
    | none => rfl
    | some j =>
      simp [encodeIdent, identJsonFields, decodeIdent, decodeObj, decodeStrField,
        alistGet, bind, Except.bind, pure, Except.pure]
  · cases oid with
    | none =>
      simp [encodeIdent, identJsonFields, hrt, decodeIdent, decodeObj, decodeStrField,
        alistGet, bind, Except.bind, pure, Except.pure]
    | some j =>
      simp [encodeIdent, identJsonFields, hrt, decodeIdent, decodeObj, decodeStrField,
        alistGet, bind, Except.bind, pure, Except.pure]

theorem decodeIdentList_map (ids : List ResourceIdentifier)
    (h : ∀ i ∈ ids, i.meta = []) :
    decodeIdentList (ids.map encodeIdent) = .ok ids := by
  induction ids with
  | nil => rfl
  | cons i rest ih =>
    rw [List.map_cons, decodeIdentList, decodeIdent_encodeIdent i (h i (by simp)),
      ih (fun x hx => h x (by simp [hx]))]
    simp [bind, Except.bind]

/-- One decoded relationship entry, to-one shape. -/
theorem decodeRelAlias_toOne (l : ToOneResourceLinkage) (hm : l.meta = [])
    (hl : l.links = []) :
    decodeRelAlias (encodeToOneLinkage l)
      = .ok { data := some (encodeIdent l.data) } := by
  unfold encodeToOneLinkage
  rw [hm, hl]
  simp [decodeRelAlias, decodeObj, alistGet, bind, Except.bind, pure, Except.pure]

/-- One decoded relationship entry, to-many shape. -/
theorem decodeRelAlias_toMany (l : ToManyResourceLinkage) (hm : l.meta = [])
    (hl : l.links = []) :
    decodeRelAlias (encodeToManyLinkage l)
      = .ok { data := some (.jarr (l.data.map encodeIdent)) } := by
  unfold encodeToManyLinkage
  rw [hm, hl]
  simp [decodeRelAlias, decodeObj, alistGet, bind, Except.bind, pure, Except.pure]

/-- The total version of `decodeRelAlias` used to state the decoded
entry list (junk on the error path, which the pipeline excludes). -/
def decodedAlias (j : JsonVal) : relAlias :=
  match decodeRelAlias j with
  | .ok ra => ra
  | .error _ => {}

theorem decodedAlias_of_ok (j : JsonVal) (ra : relAlias) (h : decodeRelAlias j = .ok ra) :
    decodedAlias j = ra := by
  unfold decodedAlias
  rw [h]

theorem decodeRelAliasEntries_map : ∀ (xs : List (String × JsonVal)),
    (∀ p ∈ xs, ∃ ra, decodeRelAlias p.2 = .ok ra) →
    decodeRelAliasEntries xs = .ok (xs.map (fun p => (p.1, decodedAlias p.2))) := by
  intro xs
  induction xs with
  | nil => intro _; rfl
  | cons p rest ih =>
    intro h
    obtain ⟨ra, hra⟩ := h p (by simp)
    obtain ⟨nm, j⟩ := p
    rw [decodeRelAliasEntries, hra, ih (fun q hq => h q (by simp [hq]))]
    simp [bind, Except.bind, decodedAlias_of_ok j ra hra]

/-! ### The encoded relationship lists decode to themselves -/

theorem toOneEntries_decode_ones : ∀ (ones : List (String × ToOneResourceLinkage)),
    (∀ p ∈ ones, p.2.meta = [] ∧ p.2.links = [] ∧ p.2.data.meta = []) →
    toOneEntries (ones.map (fun p => (p.1, decodedAlias (encodeToOneLinkage p.2)))) = ones := by
  intro ones
  induction ones with
  | nil => intro _; rfl
  | cons p rest ih =>
    intro h
    obtain ⟨hm, hl, hdm⟩ := h p (by simp)
    obtain ⟨nm, l⟩ := p
    obtain ⟨ll, lm, ld⟩ := l
    have hl' : ll = [] := hl
    have hm' : lm = [] := hm
    have hdm' : ld.meta = [] := hdm
    subst hl'
    subst hm'
    rw [List.map_cons]
    rw [decodedAlias_of_ok _ _ (decodeRelAlias_toOne ⟨[], [], ld⟩ rfl rfl)]
    have hdec : decodeIdent (.jobj (identJsonFields ld)) = .ok ld :=
      decodeIdent_encodeIdent ld hdm'
    have hone : relAliasToOne ({ data := some (encodeIdent ld) } : relAlias)
        = some ⟨[], [], ld⟩ := by
      unfold relAliasToOne
      simp only [encodeIdent, hdec]
    rw [toOneEntries_cons_one nm _ _ _ hone, ih (fun q hq => h q (by simp [hq]))]

theorem toManyEntries_decode_ones : ∀ (ones : List (String × ToOneResourceLinkage)),
    (∀ p ∈ ones, p.2.meta = [] ∧ p.2.links = []) →
    toManyEntries (ones.map (fun p => (p.1, decodedAlias (encodeToOneLinkage p.2)))) = [] := by
  intro ones
  induction ones with
  | nil => intro _; rfl
  | cons p rest ih =>
    intro h
    obtain ⟨hm, hl⟩ := h p (by simp)
    obtain ⟨nm, l⟩ := p
    rw [List.map_cons]
    rw [decodedAlias_of_ok _ _ (decodeRelAlias_toOne l hm hl)]
    rw [toManyEntries_cons_none nm _ _ (relAliasToMany_none_of_obj _ _ rfl)]
    exact ih (fun q hq => h q (by simp [hq]))

theorem toManyEntries_decode_manys : ∀ (manys : List (String × ToManyResourceLinkage)),
    (∀ p ∈ manys, p.2.meta = [] ∧ p.2.links = [] ∧ ∀ i ∈ p.2.data, i.meta = []) →
    toManyEntries (manys.map (fun p => (p.1, decodedAlias (encodeToManyLinkage p.2)))) = manys := by
  intro manys
  induction manys with
  | nil => intro _; rfl
  | cons p rest ih =>
    intro h
    obtain ⟨hm, hl, hdm⟩ := h p (by simp)
    obtain ⟨nm, l⟩ := p
    obtain ⟨ll, lm, ld⟩ := l
    have hl' : ll = [] := hl
    have hm' : lm = [] := hm
    have hdm' : ∀ i ∈ ld, i.meta = [] := hdm
    subst hl'
    subst hm'
    rw [List.map_cons]
    rw [decodedAlias_of_ok _ _ (decodeRelAlias_toMany ⟨[], [], ld⟩ rfl rfl)]
    have hdec : decodeIdentList (ld.map encodeIdent) = .ok ld :=
      decodeIdentList_map ld hdm'
    have hmany : relAliasToMany ({ data := some (.jarr (ld.map encodeIdent)) } : relAlias)
        = some ⟨[], [], ld⟩ := by
      unfold relAliasToMany
      simp only [hdec]
    rw [toManyEntries_cons_many nm _ _ _ hmany, ih (fun q hq => h q (by simp [hq]))]

theorem toOneEntries_decode_manys : ∀ (manys : List (String × ToManyResourceLinkage)),
    (∀ p ∈ manys, p.2.meta = [] ∧ p.2.links = []) →
    toOneEntries (manys.map (fun p => (p.1, decodedAlias (encodeToManyLinkage p.2)))) = [] := by
  intro manys
  induction manys with
  | nil => intro _; rfl
  | cons p rest ih =>
    intro h
    obtain ⟨hm, hl⟩ := h p (by simp)
    obtain ⟨nm, l⟩ := p
    rw [List.map_cons]
    rw [decodedAlias_of_ok _ _ (decodeRelAlias_toMany l hm hl)]
    rw [toOneEntries_cons_none nm _ _ (relAliasToOne_none_of_arr _ _ rfl)]
    exact ih (fun q hq => h q (by simp [hq]))

/-! ### The document object and its member lookups -/

/-- The merged relationship entries of `Resource.MarshalJSON`. -/
def relsList (r : Resource) : List (String × JsonVal) :=
  r.toOneRelationships.map (fun p => (p.1, encodeToOneLinkage p.2))
    ++ r.toManyRelationships.map (fun p => (p.1, encodeToManyLinkage p.2))

/-- The member list of the document object `Resource.MarshalJSON`
produces. -/
def docObj (r : Resource) : List (String × JsonVal) :=
  identJsonFields r.ident
    ++ (if r.attributes.isEmpty then []
        else [("attributes", JsonVal.jobj (sortByKey r.attributes))])
    ++ (if (relsList r).isEmpty then []
        else [("relationships", JsonVal.jobj (sortByKey (relsList r)))])
    ++ (if r.links.isEmpty then []
        else [("links", JsonVal.jobj (sortByKey r.links))])

theorem resourceToJson_docObj (r : Resource) : resourceToJson r = .jobj (docObj r) := rfl

theorem identGet_type (ri : ResourceIdentifier) :
    alistGet (identJsonFields ri) "type"
      = if ri.rtype = "" then none else some (.jstr ri.rtype) := by
  unfold identJsonFields
  by_cases h : ri.rtype = "" <;> cases hid : ri.id <;> by_cases hm2 : ri.meta.isEmpty <;>
    simp [h, hid, hm2, alistGet_append, alistGet]

theorem identGet_id (ri : ResourceIdentifier) :
    alistGet (identJsonFields ri) "id" = ri.id := by
  unfold identJsonFields
  by_cases h : ri.rtype = "" <;> cases hid : ri.id <;> by_cases hm2 : ri.meta.isEmpty <;>
    simp [h, hid, hm2, alistGet_append, alistGet]

theorem identGet_meta (ri : ResourceIdentifier) :
    alistGet (identJsonFields ri) "meta"
      = if ri.meta.isEmpty then none else some (.jobj (sortByKey ri.meta)) := by
  unfold identJsonFields
  by_cases h : ri.rtype = "" <;> cases hid : ri.id <;> by_cases hm2 : ri.meta.isEmpty <;>
    simp [h, hid, hm2, alistGet_append, alistGet]

theorem identGet_other (ri : ResourceIdentifier) (nm : String)
    (h1 : ¬ "type" = nm) (h2 : ¬ "id" = nm) (h3 : ¬ "meta" = nm) :
    alistGet (identJsonFields ri) nm = none := by
  unfold identJsonFields
  by_cases h : ri.rtype = "" <;> cases hid : ri.id <;> by_cases hm2 : ri.meta.isEmpty <;>
    simp [h, hid, hm2, alistGet_append, alistGet, h1, h2, h3]

theorem docObj_get_type (r : Resource) :
    alistGet (docObj r) "type"
      = if r.ident.rtype = "" then none else some (.jstr r.ident.rtype) := by
  unfold docObj
  rw [alistGet_append, alistGet_append, alistGet_append, identGet_type]
  by_cases h : r.ident.rtype = "" <;>
    by_cases ha : r.attributes.isEmpty <;>
      by_cases hr : (relsList r).isEmpty <;>
        by_cases hl : r.links.isEmpty <;>
          simp [h, ha, hr, hl, alistGet]

theorem docObj_get_id (r : Resource) :
    alistGet (docObj r) "id" = r.ident.id := by
  unfold docObj
  rw [alistGet_append, alistGet_append, alistGet_append, identGet_id]
  cases hid : r.ident.id <;>
    by_cases ha : r.attributes.isEmpty <;>
      by_cases hr : (relsList r).isEmpty <;>
        by_cases hl : r.links.isEmpty <;>
          simp [hid, ha, hr, hl, alistGet]

theorem docObj_get_meta (r : Resource) :
    alistGet (docObj r) "meta"
      = if r.ident.meta.isEmpty then none else some (.jobj (sortByKey r.ident.meta)) := by
  unfold docObj
  rw [alistGet_append, alistGet_append, alistGet_append, identGet_meta]
  by_cases hm2 : r.ident.meta.isEmpty <;>
    by_cases ha : r.attributes.isEmpty <;>
      by_cases hr : (relsList r).isEmpty <;>
        by_cases hl : r.links.isEmpty <;>
          simp [hm2, ha, hr, hl, alistGet]

theorem docObj_get_attributes (r : Resource) :
    alistGet (docObj r) "attributes"
      = if r.attributes.isEmpty then none
        else some (.jobj (sortByKey r.attributes)) := by
  unfold docObj
  rw [alistGet_append, alistGet_append, alistGet_append,
    identGet_other r.ident "attributes" (by decide) (by decide) (by decide)]
  by_cases ha : r.attributes.isEmpty <;>
    by_cases hr : (relsList r).isEmpty <;>
      by_cases hl : r.links.isEmpty <;>
        simp [ha, hr, hl, alistGet]

theorem docObj_get_relationships (r : Resource) :
    alistGet (docObj r) "relationships"
      = if (relsList r).isEmpty then none
        else some (.jobj (sortByKey (relsList r))) := by
  unfold docObj
  rw [alistGet_append, alistGet_append, alistGet_append,
    identGet_other r.ident "relationships" (by decide) (by decide) (by decide)]
  by_cases ha : r.attributes.isEmpty <;>
    by_cases hr : (relsList r).isEmpty <;>
      by_cases hl : r.links.isEmpty <;>
        simp [ha, hr, hl, alistGet]

theorem docObj_get_links (r : Resource) (hlinks : r.links = []) :
    alistGet (docObj r) "links" = none := by
  unfold docObj
  rw [alistGet_append, alistGet_append, alistGet_append,
    identGet_other r.ident "links" (by decide) (by decide) (by decide)]
  by_cases ha : r.attributes.isEmpty <;>
    by_cases hr : (relsList r).isEmpty <;>
      simp [ha, hr, hlinks, alistGet]

/-- The decode half of `Resource.UnmarshalJSON` before classification,
reduced against known member lookups. -/
theorem jsonToResource_steps (o : List (String × JsonVal)) (t0 : String)
    (mv av : List (String × JsonVal)) (rv : List (String × JsonVal))
    (E : List (String × relAlias))
    (htype : decodeStrField o "type" = .ok t0)
    (hmeta : (alistGet o "meta" = none ∧ mv = []) ∨ alistGet o "meta" = some (.jobj mv))
    (hattrs : (alistGet o "attributes" = none ∧ av = [])
      ∨ alistGet o "attributes" = some (.jobj av))
    (hlinksl : alistGet o "links" = none)
    (hrels : (alistGet o "relationships" = none ∧ rv = [])
      ∨ alistGet o "relationships" = some (.jobj rv))
    (hE : decodeRelAliasEntries rv = .ok E) :
    jsonToResource (.jobj o)
      = classifyRels
          { ident := { rtype := t0, id := alistGet o "id", meta := mv },
            attributes := av, links := [] } E := by
  rcases hmeta with ⟨hm1, rfl⟩ | hm1 <;>
    rcases hattrs with ⟨ha1, rfl⟩ | ha1 <;>
      rcases hrels with ⟨hr1, rfl⟩ | hr1 <;>
        (simp only [jsonToResource, decodeObj, htype, hm1, ha1, hr1, hlinksl, hE,
            bind, Except.bind, pure, Except.pure, decodeRelAliasEntries] <;>
          (try (injection hE with hE2; rw [← hE2])))

theorem clean_of_one (l : ToOneResourceLinkage) (hm : l.meta = []) (hl : l.links = [])
    (hdm : l.data.meta = []) :
    decodesClean (decodedAlias (encodeToOneLinkage l)) := by
  obtain ⟨ll, lm, ld⟩ := l
  have hl' : ll = [] := hl
  have hm' : lm = [] := hm
  have hdm' : ld.meta = [] := hdm
  subst hl'
  subst hm'
  rw [decodedAlias_of_ok _ _ (decodeRelAlias_toOne ⟨[], [], ld⟩ rfl rfl)]
  left
  have hdec : decodeIdent (.jobj (identJsonFields ld)) = .ok ld :=
    decodeIdent_encodeIdent ld hdm'
  rw [show relAliasToOne ({ data := some (encodeIdent ld) } : relAlias) = some ⟨[], [], ld⟩
    from by unfold relAliasToOne; simp only [encodeIdent, hdec]]
  rfl

theorem clean_of_many (l : ToManyResourceLinkage) (hm : l.meta = []) (hl : l.links = [])
    (hdm : ∀ i ∈ l.data, i.meta = []) :
    decodesClean (decodedAlias (encodeToManyLinkage l)) := by
  obtain ⟨ll, lm, ld⟩ := l
  have hl' : ll = [] := hl
  have hm' : lm = [] := hm
  have hdm' : ∀ i ∈ ld, i.meta = [] := hdm
  subst hl'
  subst hm'
  rw [decodedAlias_of_ok _ _ (decodeRelAlias_toMany ⟨[], [], ld⟩ rfl rfl)]
  right
  have hdec : decodeIdentList (ld.map encodeIdent) = .ok ld :=
    decodeIdentList_map ld hdm'
  rw [show relAliasToMany ({ data := some (.jarr (ld.map encodeIdent)) } : relAlias)
      = some ⟨[], [], ld⟩
    from by unfold relAliasToMany; simp only [hdec]]
  rfl

theorem toOneEntries_append (a b : List (String × relAlias)) :
    toOneEntries (a ++ b) = toOneEntries a ++ toOneEntries b := by
  unfold toOneEntries
  rw [List.filterMap_append]

theorem toManyEntries_append (a b : List (String × relAlias)) :
    toManyEntries (a ++ b) = toManyEntries a ++ toManyEntries b := by
  unfold toManyEntries
  rw [List.filterMap_append]

/-- The classification phase of the unmarshal-side document decode, fed
with sections whose lookups agree with the original resource. -/
theorem pipeline_core (r : Resource) (t0 : String) (oid : Option JsonVal)
    (mv av : List (String × JsonVal)) (E : List (String × relAlias))
    (hm : ∀ nm, alistGet mv nm = alistGet r.ident.meta nm)
    (ha : ∀ nm, alistGet av nm = alistGet r.attributes nm)
    (honeL : ∀ nm, alistGet (toOneEntries E) nm = alistGet r.toOneRelationships nm)
    (hmanyL : ∀ nm, alistGet (toManyEntries E) nm = alistGet r.toManyRelationships nm)
    (hclean : ∀ p ∈ E, decodesClean p.2)
    (hEnd : (E.map Prod.fst).Nodup) :
    ∃ r'', classifyRels
        { ident := { rtype := t0, id := oid, meta := mv }, attributes := av, links := [] } E
        = some (.ok r'')
      ∧ r''.ident.id = oid
      ∧ (∀ nm, alistGet r''.ident.meta nm = alistGet r.ident.meta nm)
      ∧ (∀ nm, alistGet r''.attributes nm = alistGet r.attributes nm)
      ∧ (∀ nm, alistGet r''.toOneRelationships nm = alistGet r.toOneRelationships nm)
      ∧ (∀ nm, alistGet r''.toManyRelationships nm = alistGet r.toManyRelationships nm) := by
  refine ⟨_, classifyRels_clean E _ hclean hEnd (fun p hp => ⟨rfl, rfl⟩), rfl, hm, ha, ?_, ?_⟩
  · intro nm
    show alistGet ([] ++ toOneEntries E) nm = _
    rw [List.nil_append]
    exact honeL nm
  · intro nm
    show alistGet ([] ++ toManyEntries E) nm = _
    rw [List.nil_append]
    exact hmanyL nm

/-- `Resource.UnmarshalJSON` inverts `Resource.MarshalJSON` on the
resources the marshal pipeline produces, up to member lookups. -/
theorem jsonToResource_pipeline (r : Resource)
    (hlinks : r.links = [])
    (hAnd : (r.attributes.map Prod.fst).Nodup)
    (hMnd : (r.ident.meta.map Prod.fst).Nodup)
    (hRnd : ((r.toOneRelationships.map Prod.fst) ++ (r.toManyRelationships.map Prod.fst)).Nodup)
    (honep : ∀ p ∈ r.toOneRelationships, p.2.meta = [] ∧ p.2.links = [] ∧ p.2.data.meta = [])
    (hmanyp : ∀ p ∈ r.toManyRelationships,
      p.2.meta = [] ∧ p.2.links = [] ∧ ∀ i ∈ p.2.data, i.meta = []) :
    ∃ r'', jsonToResource (resourceToJson r) = some (.ok r'')
      ∧ r''.ident.id = r.ident.id
      ∧ (∀ nm, alistGet r''.ident.meta nm = alistGet r.ident.meta nm)
      ∧ (∀ nm, alistGet r''.attributes nm = alistGet r.attributes nm)
      ∧ (∀ nm, alistGet r''.toOneRelationships nm = alistGet r.toOneRelationships nm)
      ∧ (∀ nm, alistGet r''.toManyRelationships nm = alistGet r.toManyRelationships nm) := by
  have htype : ∃ t0, decodeStrField (docObj r) "type" = .ok t0 := by
    by_cases hrt : r.ident.rtype = ""
    · refine ⟨"", ?_⟩
      unfold decodeStrField
      rw [docObj_get_type, if_pos hrt]
    · refine ⟨r.ident.rtype, ?_⟩
      unfold decodeStrField
      rw [docObj_get_type, if_neg hrt]
  obtain ⟨t0, ht0⟩ := htype
  have hmv : ∀ nm,
      alistGet (if r.ident.meta.isEmpty then [] else sortByKey r.ident.meta) nm
        = alistGet r.ident.meta nm := by
    intro nm
    by_cases hme : r.ident.meta.isEmpty
    · rw [if_pos hme, List.isEmpty_iff.mp hme]
    · rw [if_neg hme, alistGet_sortByKey _ hMnd]
  have hav : ∀ nm,
      alistGet (if r.attributes.isEmpty then [] else sortByKey r.attributes) nm
        = alistGet r.attributes nm := by
    intro nm
    by_cases hae : r.attributes.isEmpty
    · rw [if_pos hae, List.isEmpty_iff.mp hae]
    · rw [if_neg hae, alistGet_sortByKey _ hAnd]
  have hmetaD : (alistGet (docObj r) "meta" = none
        ∧ (if r.ident.meta.isEmpty then [] else sortByKey r.ident.meta)
          = ([] : List (String × JsonVal)))
      ∨ alistGet (docObj r) "meta"
        = some (.jobj (if r.ident.meta.isEmpty then [] else sortByKey r.ident.meta)) := by
    by_cases hme : r.ident.meta.isEmpty
    · exact Or.inl ⟨by rw [docObj_get_meta, if_pos hme], by rw [if_pos hme]⟩
    · exact Or.inr (by rw [docObj_get_meta, if_neg hme, if_neg hme])
  have hattrD : (alistGet (docObj r) "attributes" = none
        ∧ (if r.attributes.isEmpty then [] else sortByKey r.attributes)
          = ([] : List (String × JsonVal)))
      ∨ alistGet (docObj r) "attributes"
        = some (.jobj (if r.attributes.isEmpty then [] else sortByKey r.attributes)) := by
    by_cases hae : r.attributes.isEmpty
    · exact Or.inl ⟨by rw [docObj_get_attributes, if_pos hae], by rw [if_pos hae]⟩
    · exact Or.inr (by rw [docObj_get_attributes, if_neg hae, if_neg hae])
  have hrelsD : (alistGet (docObj r) "relationships" = none
        ∧ (if (relsList r).isEmpty then [] else sortByKey (relsList r))
          = ([] : List (String × JsonVal)))
      ∨ alistGet (docObj r) "relationships"
        = some (.jobj (if (relsList r).isEmpty then [] else sortByKey (relsList r))) := by
    by_cases hre : (relsList r).isEmpty
    · exact Or.inl ⟨by rw [docObj_get_relationships, if_pos hre], by rw [if_pos hre]⟩
    · exact Or.inr (by rw [docObj_get_relationships, if_neg hre, if_neg hre])
  have hmemrels : ∀ p ∈ sortByKey (relsList r),
      (∃ l, p.2 = encodeToOneLinkage l ∧ l.meta = [] ∧ l.links = [] ∧ l.data.meta = [])
      ∨ (∃ l, p.2 = encodeToManyLinkage l ∧ l.meta = [] ∧ l.links = []
          ∧ ∀ i ∈ l.data, i.meta = []) := by
    intro p hp
    have hp2 : p ∈ relsList r := (List.mergeSort_perm (relsList r) _).mem_iff.mp hp
    rcases List.mem_append.mp hp2 with h | h
    · obtain ⟨q, hq, hqe⟩ := List.mem_map.mp h
      obtain ⟨qm, ql, qd⟩ := honep q hq
      refine Or.inl ⟨q.2, ?_, qm, ql, qd⟩
      rw [← hqe]
    · obtain ⟨q, hq, hqe⟩ := List.mem_map.mp h
      obtain ⟨qm, ql, qd⟩ := hmanyp q hq
      refine Or.inr ⟨q.2, ?_, qm, ql, qd⟩
      rw [← hqe]
  have hE : decodeRelAliasEntries (if (relsList r).isEmpty then [] else sortByKey (relsList r))
      = .ok (if (relsList r).isEmpty then []
             else (sortByKey (relsList r)).map (fun p => (p.1, decodedAlias p.2))) := by
    by_cases hre : (relsList r).isEmpty
    · rw [if_pos hre, if_pos hre]
      rfl
    · rw [if_neg hre, if_neg hre]
      apply decodeRelAliasEntries_map
      intro p hp
      rcases hmemrels p hp with ⟨l, hpe, h1, h2, h3⟩ | ⟨l, hpe, h1, h2, h3⟩
      · exact ⟨_, by rw [hpe]; exact decodeRelAlias_toOne l h1 h2⟩
      · exact ⟨_, by rw [hpe]; exact decodeRelAlias_toMany l h1 h2⟩
  have hcleanE : ∀ p ∈ (if (relsList r).isEmpty then []
      else (sortByKey (relsList r)).map (fun p => (p.1, decodedAlias p.2))),
      decodesClean p.2 := by
    by_cases hre : (relsList r).isEmpty
    · rw [if_pos hre]
      intro p hp
      simp at hp
    · rw [if_neg hre]
      intro p hp
      obtain ⟨q, hq, hqe⟩ := List.mem_map.mp hp
      rcases hmemrels q hq with ⟨l, hpe, h1, h2, h3⟩ | ⟨l, hpe, h1, h2, h3⟩
      · rw [← hqe]
        show decodesClean (decodedAlias q.2)
        rw [hpe]
        exact clean_of_one l h1 h2 h3
      · rw [← hqe]
        show decodesClean (decodedAlias q.2)
        rw [hpe]
        exact clean_of_many l h1 h2 h3
  have hrelkeys : (relsList r).map Prod.fst
      = (r.toOneRelationships.map Prod.fst) ++ (r.toManyRelationships.map Prod.fst) := by
    unfold relsList
    rw [List.map_append, List.map_map, List.map_map]
    rfl
  have hone0 : (relsList r).isEmpty = true → r.toOneRelationships = [] := by
    intro hre
    have h2 := List.isEmpty_iff.mp hre
    unfold relsList at h2
    have h3 := List.append_eq_nil.mp h2
    exact List.map_eq_nil_iff.mp h3.1
  have hmany0 : (relsList r).isEmpty = true → r.toManyRelationships = [] := by
    intro hre
    have h2 := List.isEmpty_iff.mp hre
    unfold relsList at h2
    have h3 := List.append_eq_nil.mp h2
    exact List.map_eq_nil_iff.mp h3.2
  have hdecEntries : ((relsList r).map (fun p => (p.1, decodedAlias p.2)))
      = r.toOneRelationships.map (fun p => (p.1, decodedAlias (encodeToOneLinkage p.2)))
        ++ r.toManyRelationships.map (fun p => (p.1, decodedAlias (encodeToManyLinkage p.2))) := by
    unfold relsList
    rw [List.map_append, List.map_map, List.map_map]
    rfl
  have hToneDec : toOneEntries ((relsList r).map (fun p => (p.1, decodedAlias p.2)))
      = r.toOneRelationships := by
    rw [hdecEntries, toOneEntries_append,
      toOneEntries_decode_ones _ honep,
      toOneEntries_decode_manys _ (fun q hq => ⟨(hmanyp q hq).1, (hmanyp q hq).2.1⟩)]
    simp
  have hTmanyDec : toManyEntries ((relsList r).map (fun p => (p.1, decodedAlias p.2)))
      = r.toManyRelationships := by
    rw [hdecEntries, toManyEntries_append,
      toManyEntries_decode_ones _ (fun q hq => ⟨(honep q hq).1, (honep q hq).2.1⟩),
      toManyEntries_decode_manys _ hmanyp]
    simp
  have hEperm : ((if (relsList r).isEmpty then []
      else (sortByKey (relsList r)).map (fun p => (p.1, decodedAlias p.2)))
        : List (String × relAlias)).Perm
      ((relsList r).map (fun p => (p.1, decodedAlias p.2)))
      ∨ ((relsList r).isEmpty = true) := by
    by_cases hre : (relsList r).isEmpty
    · exact Or.inr hre
    · rw [if_neg hre]
      exact Or.inl ((List.mergeSort_perm (relsList r) _).map _)
  have honeL : ∀ nm, alistGet (toOneEntries (if (relsList r).isEmpty then []
      else (sortByKey (relsList r)).map (fun p => (p.1, decodedAlias p.2)))) nm
        = alistGet r.toOneRelationships nm := by
    intro nm
    rcases hEperm with hperm | hre
    · have hp2 := hperm.filterMap (fun p => (relAliasToOne p.2).map (fun l => (p.1, l)))
      have hp3 : (toOneEntries (if (relsList r).isEmpty then []
          else (sortByKey (relsList r)).map (fun p => (p.1, decodedAlias p.2)))).Perm
            r.toOneRelationships := by
        rw [← hToneDec]
        exact hp2
      exact (alistGet_perm r.toOneRelationships _ (hRnd.of_append_left) hp3.symm nm).symm
    · rw [if_pos hre, hone0 hre]
      rfl
  have hmanyL : ∀ nm, alistGet (toManyEntries (if (relsList r).isEmpty then []
      else (sortByKey (relsList r)).map (fun p => (p.1, decodedAlias p.2)))) nm
        = alistGet r.toManyRelationships nm := by
    intro nm
    rcases hEperm with hperm | hre
    · have hp2 := hperm.filterMap (fun p => (relAliasToMany p.2).map (fun l => (p.1, l)))
      have hp3 : (toManyEntries (if (relsList r).isEmpty then []
          else (sortByKey (relsList r)).map (fun p => (p.1, decodedAlias p.2)))).Perm
            r.toManyRelationships := by
        rw [← hTmanyDec]
        exact hp2
      exact (alistGet_perm r.toManyRelationships _ (hRnd.of_append_right) hp3.symm nm).symm
    · rw [if_pos hre, hmany0 hre]
      rfl
  have hEnd : (((if (relsList r).isEmpty then []
      else (sortByKey (relsList r)).map (fun p => (p.1, decodedAlias p.2)))
        : List (String × relAlias)).map Prod.fst).Nodup := by
    by_cases hre : (relsList r).isEmpty
    · rw [if_pos hre]
      exact List.nodup_nil
    · rw [if_neg hre]
      rw [List.map_map]
      rw [show (Prod.fst ∘ fun p : String × JsonVal => (p.1, decodedAlias p.2)) = Prod.fst
        from rfl]
      refine ((List.mergeSort_perm (relsList r) _).map Prod.fst).nodup_iff.mpr ?_
      rw [hrelkeys]
      exact hRnd
  obtain ⟨r'', hcl, h2, h3, h4, h5, h6⟩ := pipeline_core r t0 (alistGet (docObj r) "id")
    (if r.ident.meta.isEmpty then [] else sortByKey r.ident.meta)
    (if r.attributes.isEmpty then [] else sortByKey r.attributes)
    (if (relsList r).isEmpty then []
      else (sortByKey (relsList r)).map (fun p => (p.1, decodedAlias p.2)))
    hmv hav honeL hmanyL hcleanE hEnd
  refine ⟨r'', ?_, by rw [h2, docObj_get_id], h3, h4, h5, h6⟩
  rw [resourceToJson_docObj,
    jsonToResource_steps (docObj r) t0 _ _ _ _ ht0 hmetaD hattrD
      (docObj_get_links r hlinks) hrelsD hE]
  exact hcl

/-! ### Lookups that miss the written entries -/

theorem attrWrites_lookup_none (v : GoVal) (fs : List field) (hnd : (fs.map fkey).Nodup)
    (f : field) (hf : f ∈ fs) (htyp : f.tag.typ = TagValueAttr) (hwf : writtenF v f = false) :
    alistGet (attrWrites v fs) f.tag.name = none := by
  rw [alistGet_none_iff]
  intro hc
  obtain ⟨p, hp, hpk⟩ := List.mem_map.mp hc
  obtain ⟨g, hg, h1, h2, h3⟩ := attrWrites_mem v fs p hp
  have hname : g.tag.name = f.tag.name := by rw [h3] at hpk; exact hpk
  have hgf : g = f := eq_of_fkey_nodup hnd hg hf (by simp [fkey, h1, htyp, hname])
  rw [hgf, hwf] at h2
  exact absurd h2 (by decide)

theorem metaWrites_lookup_none (v : GoVal) (fs : List field) (hnd : (fs.map fkey).Nodup)
    (f : field) (hf : f ∈ fs) (htyp : f.tag.typ = TagValueMeta) (hwf : writtenF v f = false) :
    alistGet (metaWrites v fs) f.tag.name = none := by
  rw [alistGet_none_iff]
  intro hc
  obtain ⟨p, hp, hpk⟩ := List.mem_map.mp hc
  obtain ⟨g, hg, h1, h2, h3⟩ := metaWrites_mem v fs p hp
  have hname : g.tag.name = f.tag.name := by rw [h3] at hpk; exact hpk
  have hgf : g = f := eq_of_fkey_nodup hnd hg hf (by simp [fkey, h1, htyp, hname])
  rw [hgf, hwf] at h2
  exact absurd h2 (by decide)

theorem toOneWrites_lookup_none (v : GoVal) (fs : List field) (hnd : (fs.map fkey).Nodup)
    (f : field) (hf : f ∈ fs) (htyp : f.tag.typ = TagValueRel) (hwf : writtenF v f = false) :
    alistGet (toOneWrites v fs) f.tag.name = none := by
  rw [alistGet_none_iff]
  intro hc
  obtain ⟨g, hg, h1, h2, -, h4⟩ := toOneWrites_key_mem v fs f.tag.name hc
  have hgf : g = f := eq_of_fkey_nodup hnd hg hf (by simp [fkey, h1, htyp, h4])
  rw [hgf, hwf] at h2
  exact absurd h2 (by decide)

theorem toManyWrites_lookup_none (v : GoVal) (fs : List field) (hnd : (fs.map fkey).Nodup)
    (f : field) (hf : f ∈ fs) (htyp : f.tag.typ = TagValueRel) (hwf : writtenF v f = false) :
    alistGet (toManyWrites v fs) f.tag.name = none := by
  rw [alistGet_none_iff]
  intro hc
  obtain ⟨g, hg, h1, h2, -, h4⟩ := toManyWrites_key_mem v fs f.tag.name hc
  have hgf : g = f := eq_of_fkey_nodup hnd hg hf (by simp [fkey, h1, htyp, h4])
  rw [hgf, hwf] at h2
  exact absurd h2 (by decide)

/-! ### Per-field unmarshal steps -/

theorem fieldByIndex_struct (t : GoType) (ws : List GoVal) (k : Nat) :
    fieldByIndex (.vstruct t ws) [k] = ws.getD k .vinvalid := rfl

theorem unmarshalFields_cons_ok (r : Resource) (v v₁ : GoVal) (f : field) (fs : List field)
    (h : unmarshalField v r f = .ok v₁) :
    unmarshalFields r v (f :: fs) = unmarshalFields r v₁ fs := by
  rw [unmarshalFields, h]

theorem initFieldUpdate_struct (t : GoType) (ws : List GoVal) (k : Nat)
    (upd : GoVal → Except GoErr GoVal) (hk : k < ws.length) (v' : GoVal)
    (hupd : upd (initValue (ws.getD k .vinvalid)) = .ok v') :
    initFieldUpdate (.vstruct t ws) [k] upd = .ok (.vstruct t (ws.set k v')) := by
  rw [initFieldUpdate]
  simp only [mapDeref, hk, if_true, initFieldUpdate, hupd, Except.map]

theorem unmarshalField_attr (t : GoType) (ws : List GoVal) (r : Resource) (f : field)
    (k : Nat) (hk : k < ws.length) (hi : f.idxs = [k])
    (htyp : f.tag.typ = TagValueAttr)
    (data : JsonVal) (hlook : alistGet r.attributes f.tag.name = some data)
    (v' : GoVal)
    (hun : unmarshalJson (some data) (initValue (ws.getD k .vinvalid)) f.tag.quote = .ok v') :
    unmarshalField (.vstruct t ws) r f = .ok (.vstruct t (ws.set k v')) := by
  rw [unmarshalField, if_neg (by rw [htyp]; decide), if_pos htyp, unmarshalAttr, hlook, hi]
  apply initFieldUpdate_struct t ws k _ hk v'
  rw [hun]

theorem unmarshalField_attr_none (t : GoType) (ws : List GoVal) (r : Resource) (f : field)
    (htyp : f.tag.typ = TagValueAttr)
    (hlook : alistGet r.attributes f.tag.name = none) :
    unmarshalField (.vstruct t ws) r f = .ok (.vstruct t ws) := by
  rw [unmarshalField, if_neg (by rw [htyp]; decide), if_pos htyp, unmarshalAttr, hlook]

theorem unmarshalField_meta (t : GoType) (ws : List GoVal) (r : Resource) (f : field)
    (k : Nat) (hk : k < ws.length) (hi : f.idxs = [k])
    (htyp : f.tag.typ = TagValueMeta)
    (data : JsonVal) (hlook : alistGet r.ident.meta f.tag.name = some data)
    (v' : GoVal)
    (hun : unmarshalJson (some data) (initValue (ws.getD k .vinvalid)) f.tag.quote = .ok v') :
    unmarshalField (.vstruct t ws) r f = .ok (.vstruct t (ws.set k v')) := by
  rw [unmarshalField, if_neg (by rw [htyp]; decide), if_neg (by rw [htyp]; decide),
    if_neg (by rw [htyp]; decide), if_pos htyp, unmarshalMeta, hlook, hi]
  apply initFieldUpdate_struct t ws k _ hk v'
  rw [hun]

theorem unmarshalField_meta_none (t : GoType) (ws : List GoVal) (r : Resource) (f : field)
    (htyp : f.tag.typ = TagValueMeta)
    (hlook : alistGet r.ident.meta f.tag.name = none) :
    unmarshalField (.vstruct t ws) r f = .ok (.vstruct t ws) := by
  rw [unmarshalField, if_neg (by rw [htyp]; decide), if_neg (by rw [htyp]; decide),
    if_neg (by rw [htyp]; decide), if_pos htyp, unmarshalMeta, hlook]

theorem unmarshalField_id (t : GoType) (ws : List GoVal) (r : Resource) (f : field)
    (k : Nat) (hk : k < ws.length) (hi : f.idxs = [k])
    (htyp : f.tag.typ = TagValueId)
    (data : JsonVal) (hlook : r.ident.id = some data)
    (v' : GoVal)
    (hun : unmarshalJson (some data) (initValue (ws.getD k .vinvalid)) f.tag.quote = .ok v') :
    unmarshalField (.vstruct t ws) r f = .ok (.vstruct t (ws.set k v')) := by
  rw [unmarshalField, if_pos htyp, unmarshalId, hlook, hi]
  apply initFieldUpdate_struct t ws k _ hk v'
  rw [hun]

theorem unmarshalField_id_none (t : GoType) (ws : List GoVal) (r : Resource) (f : field)
    (htyp : f.tag.typ = TagValueId)
    (hlook : r.ident.id = none) :
    unmarshalField (.vstruct t ws) r f = .ok (.vstruct t ws) := by
  rw [unmarshalField, if_pos htyp, unmarshalId, hlook]

theorem unmarshalField_rel_toOne (t : GoType) (ws : List GoVal) (r : Resource) (f : field)
    (k : Nat) (hk : k < ws.length) (hi : f.idxs = [k])
    (htyp : f.tag.typ = TagValueRel)
    (hone : isToOne (ws.getD k .vinvalid) = true)
    (lrec : ToOneResourceLinkage)
    (hlook : alistGet r.toOneRelationships f.tag.name = some lrec)
    (data : JsonVal) (hid : lrec.data.id = some data)
    (v' : GoVal)
    (hun : unmarshalJson (some data) (initValue (ws.getD k .vinvalid)) f.tag.quote = .ok v') :
    unmarshalField (.vstruct t ws) r f = .ok (.vstruct t (ws.set k v')) := by
  rw [unmarshalField, if_neg (by rw [htyp]; decide), if_neg (by rw [htyp]; decide),
    if_pos htyp]
  simp only [unmarshalRel, unmarshalToOneRel, hi, fieldByIndex_struct, hone, if_true,
    hlook, hid]
  apply initFieldUpdate_struct t ws k _ hk v'
  rw [hun]

theorem unmarshalField_rel_toOne_none (t : GoType) (ws : List GoVal) (r : Resource)
    (f : field) (k : Nat) (hi : f.idxs = [k])
    (htyp : f.tag.typ = TagValueRel)
    (hone : isToOne (ws.getD k .vinvalid) = true)
    (hlook : alistGet r.toOneRelationships f.tag.name = none) :
    unmarshalField (.vstruct t ws) r f = .ok (.vstruct t ws) := by
  rw [unmarshalField, if_neg (by rw [htyp]; decide), if_neg (by rw [htyp]; decide),
    if_pos htyp]
  simp only [unmarshalRel, unmarshalToOneRel, hi, fieldByIndex_struct, hone, if_true,
    hlook]

theorem unmarshalField_rel_toMany_none (t : GoType) (ws : List GoVal) (r : Resource)
    (f : field) (k : Nat) (hi : f.idxs = [k])
    (htyp : f.tag.typ = TagValueRel)
    (hone : isToOne (ws.getD k .vinvalid) = false)
    (hlook : alistGet r.toManyRelationships f.tag.name = none) :
    unmarshalField (.vstruct t ws) r f = .ok (.vstruct t ws) := by
  rw [unmarshalField, if_neg (by rw [htyp]; decide), if_neg (by rw [htyp]; decide),
    if_pos htyp]
  simp only [unmarshalRel, unmarshalToManyRel, hi, fieldByIndex_struct, hone,
    Bool.false_eq_true, if_false, hlook]

theorem unmarshalField_rel_toMany_empty (t : GoType) (ws : List GoVal) (r : Resource)
    (f : field) (k : Nat) (hi : f.idxs = [k])
    (htyp : f.tag.typ = TagValueRel)
    (hone : isToOne (ws.getD k .vinvalid) = false)
    (lrec : ToManyResourceLinkage)
    (hlook : alistGet r.toManyRelationships f.tag.name = some lrec)
    (hempty : lrec.data.isEmpty = true) :
    unmarshalField (.vstruct t ws) r f = .ok (.vstruct t ws) := by
  rw [unmarshalField, if_neg (by rw [htyp]; decide), if_neg (by rw [htyp]; decide),
    if_pos htyp]
  simp only [unmarshalRel, unmarshalToManyRel, hi, fieldByIndex_struct, hone,
    Bool.false_eq_true, if_false, hlook, hempty, if_true]

theorem unmarshalField_rel_toMany (t : GoType) (ws : List GoVal) (r : Resource)
    (f : field) (k : Nat) (hk : k < ws.length) (hi : f.idxs = [k])
    (htyp : f.tag.typ = TagValueRel)
    (e : GoType) (hfv : ws.getD k .vinvalid = .vslice e [])
    (hone : isToOne (GoVal.vslice e []) = false)
    (lrec : ToManyResourceLinkage)
    (hlook : alistGet r.toManyRelationships f.tag.name = some lrec)
    (hne : lrec.data.isEmpty = false)
    (vs : List GoVal)
    (helems : unmarshalToManyElems f e f.tag.quote [] lrec.data = .ok vs) :
    unmarshalField (.vstruct t ws) r f
      = .ok (.vstruct t (ws.set k (.vslice e vs))) := by
  rw [unmarshalField, if_neg (by rw [htyp]; decide), if_neg (by rw [htyp]; decide),
    if_pos htyp]
  simp only [unmarshalRel, unmarshalToManyRel, hi, fieldByIndex_struct, hfv, hone,
    Bool.false_eq_true, if_false, hlook, hne]
  apply initFieldUpdate_struct t ws k _ hk (.vslice e vs)
  rw [hfv, show initValue (GoVal.vslice e []) = GoVal.vslice e [] from rfl]
  simp only [helems, bind, Except.bind]

/-- The element loop restores a to-many relationship's elements from the
identifiers the marshal loop wrote for them. -/
theorem unmarshalToManyElems_round (f : field) (e : GoType) :
    ∀ xs : List GoVal,
      (∀ x ∈ xs, x.typeOf = e ∧ presentVal x ∧ (f.tag.quote = true → scalarVal x = true)) →
      unmarshalToManyElems f e f.tag.quote [] (idsOf f xs) = .ok xs := by
  intro xs
  induction xs with
  | nil => intro _; rfl
  | cons x rest ih =>
    intro h
    obtain ⟨hty, hpr, hq⟩ := h x (by simp)
    obtain ⟨j, hj⟩ := present_encode x f.tag.quote hpr
    have hjx : encElemJ f x = j := by simp only [encElemJ, hj]
    have henc : marshalJson (derefValue x) f.tag.quote = .ok (encElemJ f x) := by
      rw [hj, hjx]
    have hun : unmarshalJson (some (encElemJ f x))
        (initValue (GoType.zeroVal x.typeOf)) f.tag.quote = .ok x :=
      scalar_round x f.tag.quote _ hpr hq henc
    rw [hty] at hun
    have ihr := ih (fun y hy => h y (List.mem_cons_of_mem x hy))
    simp only [idsOf, List.map_cons] at ihr ⊢
    simp only [unmarshalToManyElems, List.headD, List.drop_nil, hun, ihr, bind,
      Except.bind]

/-! ### Assembling the unmarshal loop on a flat record -/

theorem relElem_isToOne (e : GoType) (xs : List GoVal) (h : e.kind ≠ Kind.uint8) :
    isToOne (GoVal.vslice e xs) = false := by
  simp [isToOne, GoVal.kind, GoVal.elemKind, h]

/-- A member id field with uniformly empty id names is *the* id field. -/
theorem idField_eq_of_mem (fs : List field) (hnd : (fs.map fkey).Nodup) (f : field)
    (hf : f ∈ fs) (htyp : f.tag.typ = TagValueId) (hname : f.tag.name = "")
    (hall : ∀ g ∈ fs, g.tag.typ = TagValueId → g.tag.name = "") :
    idField fs = some f := by
  induction fs with
  | nil => simp at hf
  | cons g rest ih =>
    simp only [List.map_cons, List.nodup_cons] at hnd
    rcases List.mem_cons.mp hf with rfl | hf'
    · exact idField_cons_pos _ _ htyp
    · by_cases hg : g.tag.typ = TagValueId
      · have hgname := hall g (by simp) hg
        exact absurd (show fkey g ∈ rest.map fkey from by
          rw [show fkey g = fkey f by simp [fkey, hg, htyp, hgname, hname]]
          exact List.mem_map_of_mem fkey hf') hnd.1
      · rw [idField_cons_neg _ _ hg]
        exact ih hnd.2 hf' (fun q hq hqt => hall q (by simp [hq]) hqt)

/-- The marshaled fragment of a flat field is the encoding of its value. -/
theorem encOfField_flat_ok (n : String) (sfs : List SimpleField) (f : field)
    (k : Nat) (s : SimpleField) (hk : sfs[k]? = some s) (hi : f.idxs = [k])
    (hp : presentVal s.value) :
    marshalJson (derefValue s.value) f.tag.quote
      = .ok (encOfField (mkFlatVal n sfs) f) := by
  obtain ⟨j, hj⟩ := present_encode s.value f.tag.quote hp
  have hjx : encOfField (mkFlatVal n sfs) f = j := by
    simp only [encOfField, hi, fieldByIndex_flat n sfs k s hk, hj]
  rw [hj, hjx]

/-- Every admitted field of a flat record has a mappable tag kind. -/
theorem fieldSpec_typ_cases (sfs : List SimpleField) (f : field)
    (hs : FieldSpec sfs f) :
    (f.tag.typ = TagValueId ∧ f.tag.name = "") ∨ f.tag.typ = TagValueAttr
      ∨ f.tag.typ = TagValueMeta ∨ f.tag.typ = TagValueRel := by
  obtain ⟨k, s, hk, ht, hi, hok⟩ := hs
  obtain ⟨h1, h2⟩ := parseTag_ok_typ s.sfield _ _ f.tag
    (by rw [← SimpleField.parsedTag]; exact ht)
  rcases h2 with ⟨ha, hb⟩ | ha | ha | ha
  · exact Or.inl ⟨h1.trans ha, hb⟩
  · exact Or.inr (Or.inl (h1.trans ha))
  · exact Or.inr (Or.inr (Or.inl (h1.trans ha)))
  · exact Or.inr (Or.inr (Or.inr (h1.trans ha)))

/-- The per-field unmarshal loop on a flat record: starting from zeroed
slots, every listed field's slot is restored to its admitted value and the
other slots are untouched. -/
theorem unmarshalFields_flat (n : String) (sfs : List SimpleField) (r'' : Resource)
    (fs0 : List field)
    (hspec0 : ∀ f ∈ fs0, FieldSpec sfs f)
    (hdk0 : (fs0.map fkey).Nodup)
    (hA : ∀ nm, alistGet r''.attributes nm
        = alistGet (attrWrites (mkFlatVal n sfs) fs0) nm)
    (hM : ∀ nm, alistGet r''.ident.meta nm
        = alistGet (metaWrites (mkFlatVal n sfs) fs0) nm)
    (hO : ∀ nm, alistGet r''.toOneRelationships nm
        = alistGet (toOneWrites (mkFlatVal n sfs) fs0) nm)
    (hT : ∀ nm, alistGet r''.toManyRelationships nm
        = alistGet (toManyWrites (mkFlatVal n sfs) fs0) nm)
    (hI : r''.ident.id = (match idField fs0 with
        | some f0 => if writtenF (mkFlatVal n sfs) f0
            then some (encOfField (mkFlatVal n sfs) f0) else none
        | none => none)) :
    ∀ (fs : List field) (ws : List GoVal),
      (∀ f ∈ fs, f ∈ fs0) →
      ws.length = sfs.length →
      (∀ f ∈ fs, ∀ k s, sfs[k]? = some s → f.idxs = [k] →
        ws.getD k .vinvalid = GoType.zeroVal s.value.typeOf) →
      ((fs.map (fun f => f.idxs)).Nodup) →
      ∃ ws', unmarshalFields r'' (.vstruct (mkFlatType n sfs) ws) fs
          = .ok (.vstruct (mkFlatType n sfs) ws')
        ∧ ws'.length = ws.length
        ∧ (∀ k, (∀ f ∈ fs, f.idxs ≠ [k]) → ws'.getD k .vinvalid = ws.getD k .vinvalid)
        ∧ (∀ f ∈ fs, ∀ k s, sfs[k]? = some s → f.idxs = [k] →
            ws'.getD k .vinvalid = s.value) := by
  have hall : ∀ g ∈ fs0, g.tag.typ = TagValueId → g.tag.name = "" := by
    intro g hg hgt
    rcases fieldSpec_typ_cases sfs g (hspec0 g hg) with ⟨-, hb⟩ | ha | ha | ha
    · exact hb
    · exact absurd (hgt.symm.trans ha) (by decide)
    · exact absurd (hgt.symm.trans ha) (by decide)
    · exact absurd (hgt.symm.trans ha) (by decide)
  intro fs
  induction fs with
  | nil =>
    intro ws _ _ _ _
    exact ⟨ws, rfl, rfl, fun _ _ => rfl, fun f hf => absurd hf (by simp)⟩
  | cons f fs ih =>
    intro ws hsub hlen hz hnd
    simp only [List.map_cons, List.nodup_cons] at hnd
    obtain ⟨hnotin, hndt⟩ := hnd
    have hfs0 : f ∈ fs0 := hsub f (by simp)
    obtain ⟨k, s, hk, ht, hi, hok⟩ := hspec0 f hfs0
    have hkl : k < ws.length := by rw [hlen]; exact lget_some_lt sfs k s hk
    have hzk : ws.getD k .vinvalid = GoType.zeroVal s.value.typeOf :=
      hz f (by simp) k s hk hi
    have hval := simpleFieldOK_val s f.tag ht hok
    have hwf : writtenF (mkFlatVal n sfs) f = !f.tag.omitempty :=
      writtenF_flat n sfs f ⟨k, s, hk, ht, hi, hok⟩
    have hfbi : fieldByIndex (mkFlatVal n sfs) f.idxs = s.value := by
      rw [hi]; exact fieldByIndex_flat n sfs k s hk
    have hstep : unmarshalField (.vstruct (mkFlatType n sfs) ws) r'' f
        = .ok (.vstruct (mkFlatType n sfs) (ws.set k s.value)) := by
      cases homit : f.tag.omitempty with
      | true =>
        have hzs := fieldValOK_omit f.tag s.value hval homit
        have hwt : writtenF (mkFlatVal n sfs) f = false := by rw [hwf, homit]; rfl
        have hset : ws.set k s.value = ws := by
          rw [zeroSupported_eq_zero s.value hzs, ← hzk, lset_getD_self]
        rw [hset]
        rcases fieldSpec_typ_cases sfs f ⟨k, s, hk, ht, hi, hok⟩ with
          ⟨htyp, hname⟩ | htyp | htyp | htyp
        · have hidf : idField fs0 = some f :=
            idField_eq_of_mem fs0 hdk0 f hfs0 htyp hname hall
          have hlookid : r''.ident.id = none := by
            rw [hI, hidf]
            simp only [hwt, Bool.false_eq_true, if_false]
          exact unmarshalField_id_none _ ws r'' f htyp hlookid
        · exact unmarshalField_attr_none _ ws r'' f htyp
            ((hA _).trans (attrWrites_lookup_none _ fs0 hdk0 f hfs0 htyp hwt))
        · exact unmarshalField_meta_none _ ws r'' f htyp
            ((hM _).trans (metaWrites_lookup_none _ fs0 hdk0 f hfs0 htyp hwt))
        · cases hone : isToOne (ws.getD k .vinvalid) with
          | true =>
            exact unmarshalField_rel_toOne_none _ ws r'' f k hi htyp hone
              ((hO _).trans (toOneWrites_lookup_none _ fs0 hdk0 f hfs0 htyp hwt))
          | false =>
            exact unmarshalField_rel_toMany_none _ ws r'' f k hi htyp hone
              ((hT _).trans (toManyWrites_lookup_none _ fs0 hdk0 f hfs0 htyp hwt))
      | false =>
        have hwt : writtenF (mkFlatVal n sfs) f = true := by rw [hwf, homit]; rfl
        rcases fieldSpec_typ_cases sfs f ⟨k, s, hk, ht, hi, hok⟩ with
          ⟨htyp, hname⟩ | htyp | htyp | htyp
        · obtain ⟨hp, hq⟩ := fieldValOK_plain f.tag s.value hval homit
            (by rw [htyp]; decide)
          have hun := scalar_round s.value f.tag.quote _ hp hq
            (encOfField_flat_ok n sfs f k s hk hi hp)
          rw [← hzk] at hun
          have hidf : idField fs0 = some f :=
            idField_eq_of_mem fs0 hdk0 f hfs0 htyp hname hall
          have hlookid : r''.ident.id = some (encOfField (mkFlatVal n sfs) f) := by
            rw [hI, hidf]
            simp only [hwt, if_true]
          exact unmarshalField_id _ ws r'' f k hkl hi htyp _ hlookid s.value hun
        · obtain ⟨hp, hq⟩ := fieldValOK_plain f.tag s.value hval homit
            (by rw [htyp]; decide)
          have hun := scalar_round s.value f.tag.quote _ hp hq
            (encOfField_flat_ok n sfs f k s hk hi hp)
          rw [← hzk] at hun
          exact unmarshalField_attr _ ws r'' f k hkl hi htyp _
            ((hA _).trans (attrWrites_lookup _ fs0 hdk0 f hfs0 htyp hwt)) s.value hun
        · obtain ⟨hp, hq⟩ := fieldValOK_plain f.tag s.value hval homit
            (by rw [htyp]; decide)
          have hun := scalar_round s.value f.tag.quote _ hp hq
            (encOfField_flat_ok n sfs f k s hk hi hp)
          rw [← hzk] at hun
          exact unmarshalField_meta _ ws r'' f k hkl hi htyp _
            ((hM _).trans (metaWrites_lookup _ fs0 hdk0 f hfs0 htyp hwt)) s.value hun
        · rcases fieldValOK_rel_cases f.tag s.value hval homit htyp with
            ⟨e, xs, hveq, hrelE, hxs⟩ | ⟨hp, hq⟩
          · have hfv : ws.getD k .vinvalid = .vslice e [] := by
              rw [hzk, hveq]; rfl
            have honeZ : isToOne (GoVal.vslice e []) = false :=
              relElem_isToOne e [] hrelE.2
            have honeM : isToOne (derefValue (fieldByIndex (mkFlatVal n sfs) f.idxs))
                = false := by
              rw [hfbi, hveq]
              exact relElem_isToOne e xs hrelE.2
            have hlook : alistGet r''.toManyRelationships f.tag.name
                = some { data := idsOf f xs } := by
              rw [(hT _).trans (toManyWrites_lookup _ fs0 hdk0 f hfs0 htyp hwt honeM)]
              rw [hfbi, hveq]
              rfl
            cases xs with
            | nil =>
              have hset : ws.set k s.value = ws := by
                rw [hveq, ← hfv, lset_getD_self]
              rw [hset]
              exact unmarshalField_rel_toMany_empty _ ws r'' f k hi htyp
                (by rw [hfv]; exact honeZ) _ hlook rfl
            | cons y ys =>
              have helems := unmarshalToManyElems_round f e (y :: ys) hxs
              rw [hveq]
              exact unmarshalField_rel_toMany _ ws r'' f k hkl hi htyp e hfv honeZ
                _ hlook (by simp [idsOf]) (y :: ys) helems
          · have hone : isToOne (ws.getD k .vinvalid) = true := by
              rw [hzk]
              exact present_zero_isToOne s.value hp
            have honeM : isToOne (derefValue (fieldByIndex (mkFlatVal n sfs) f.idxs))
                = true := by
              rw [hfbi]
              exact present_isToOne s.value hp
            have hun := scalar_round s.value f.tag.quote _ hp hq
              (encOfField_flat_ok n sfs f k s hk hi hp)
            rw [← hzk] at hun
            exact unmarshalField_rel_toOne _ ws r'' f k hkl hi htyp hone _
              ((hO _).trans (toOneWrites_lookup _ fs0 hdk0 f hfs0 htyp hwt honeM))
              _ rfl s.value hun
    rw [unmarshalFields_cons_ok r'' _ _ f fs hstep]
    obtain ⟨ws', hrec, hlen', hout, hin⟩ := ih (ws.set k s.value)
      (fun g hg => hsub g (by simp [hg]))
      (by rw [List.length_set]; exact hlen)
      (fun g hg k2 s2 hk2 hi2 => by
        have hne : k2 ≠ k := fun hc => hnotin (by
          rw [hi, ← hc, ← hi2]
          exact List.mem_map_of_mem _ hg)
        rw [lgetD_set_other ws k2 k _ _ hne]
        exact hz g (by simp [hg]) k2 s2 hk2 hi2)
      hndt
    refine ⟨ws', hrec, by rw [hlen', List.length_set], ?_, ?_⟩
    · intro k2 hall2
      rw [hout k2 (fun g hg => hall2 g (by simp [hg])),
        lgetD_set_other ws k2 k _ _ (fun hc => (hall2 f (by simp)) (by rw [hi, hc]))]
    · intro g hg k2 s2 hk2 hi2
      rcases List.mem_cons.mp hg with rfl | hg'
      · have hk2k : [k] = [k2] := hi ▸ hi2
        have hk2k' : k2 = k := by injection hk2k with h1; exact h1.symm
        subst hk2k'
        have hs2 : s2 = s := by
          rw [hk] at hk2
          injection hk2 with h1
          exact h1.symm
        subst hs2
        rw [hout k2 (fun q hq hc => hnotin (by
          rw [hi, ← hc]
          exact List.mem_map_of_mem _ hq))]
        exact lgetD_set_self ws k2 s2.value .vinvalid hkl
      · exact hin g hg' k2 s2 hk2 hi2

/-! ### The amended round trip -/

theorem simpleFieldOK_parses (s : SimpleField) (h : SimpleFieldOK s) :
    ∃ t, s.parsedTag = .ok t := by
  unfold SimpleFieldOK at h
  split at h
  · exact h.elim
  · rename_i t hp
    exact ⟨t, hp⟩

theorem lget_mem {α : Type} (l : List α) (k : Nat) (a : α) (hk : l[k]? = some a) :
    a ∈ l := by
  induction l generalizing k with
  | nil => simp at hk
  | cons x xs ih =>
    cases k with
    | zero =>
      simp only [List.getElem?_cons_zero, Option.some.injEq] at hk
      rw [← hk]
      exact List.mem_cons_self x xs
    | succ k =>
      simp only [List.getElem?_cons_succ] at hk
      exact List.mem_cons_of_mem x (ih k hk)

theorem zeroFields_flat (sfs : List SimpleField) :
    GoType.zeroFields (sfs.map SimpleField.sfield)
      = sfs.map (fun s => GoType.zeroVal s.value.typeOf) := by
  induction sfs with
  | nil => rfl
  | cons s rest ih =>
    simp only [List.map_cons]
    rw [show GoType.zeroFields (SimpleField.sfield s :: List.map SimpleField.sfield rest)
        = GoType.zeroVal s.value.typeOf :: GoType.zeroFields (List.map SimpleField.sfield rest)
      from rfl, ih]

theorem list_eq_of_getD {α : Type} (d : α) :
    ∀ (l1 l2 : List α), l1.length = l2.length →
      (∀ k, k < l1.length → l1.getD k d = l2.getD k d) → l1 = l2 := by
  intro l1
  induction l1 with
  | nil =>
    intro l2 hlen _
    cases l2 with
    | nil => rfl
    | cons y ys => simp at hlen
  | cons x xs ih =>
    intro l2 hlen h
    cases l2 with
    | nil => simp at hlen
    | cons y ys =>
      have hx : x = y := h 0 (by simp)
      have ht := ih ys (by simpa using hlen)
        (fun k hk => h (k + 1) (by simpa using Nat.succ_lt_succ hk))
      rw [hx, ht]

/-- The to-one linkages the marshal loop writes carry no links, meta, or
identifier meta. -/
theorem toOneWrites_shape (v : GoVal) (fs : List field) (p : String × ToOneResourceLinkage)
    (hp : p ∈ toOneWrites v fs) :
    p.2.meta = [] ∧ p.2.links = [] ∧ p.2.data.meta = [] := by
  obtain ⟨g, -, -, -, -, hpe⟩ := toOneWrites_mem v fs p hp
  rw [hpe]
  exact ⟨rfl, rfl, rfl⟩

/-- The to-many linkages the marshal loop writes carry no links or meta,
and their identifiers carry no meta. -/
theorem toManyWrites_shape (v : GoVal) (fs : List field)
    (p : String × ToManyResourceLinkage) (hp : p ∈ toManyWrites v fs) :
    p.2.meta = [] ∧ p.2.links = [] ∧ ∀ i ∈ p.2.data, i.meta = [] := by
  obtain ⟨g, -, -, -, -, hpe⟩ := toManyWrites_mem v fs p hp
  rw [hpe]
  refine ⟨rfl, rfl, ?_⟩
  intro i hi
  simp only [idsOf, List.mem_map] at hi
  obtain ⟨x, -, hx⟩ := hi
  rw [← hx]

/-- `MarshalResource` reduction on a flat record with the empty override
environment. -/
theorem MarshalResource_flat (n : String) (sfs : List SimpleField)
    (fs : List field) (hp : parseTags (mkFlatVal n sfs) = .ok fs)
    (r : Resource) (hm : marshalFields (mkFlatVal n sfs) newResource fs = .ok r) :
    MarshalResource emptyMarshalerEnv (mkFlatVal n sfs) = .ok (resourceToJson r) := by
  have hder : derefInput (fun t => (emptyMarshalerEnv t).isSome) (mkFlatVal n sfs)
      = mkFlatVal n sfs := rfl
  have hne : ¬ (GoVal.kind (mkFlatVal n sfs) ≠ Kind.struct_) := fun hc => hc rfl
  simp only [MarshalResource, hder]
  simp only [show emptyMarshalerEnv (GoVal.typeOf (mkFlatVal n sfs)) = none from rfl]
  rw [if_neg hne]
  simp only [hp, hm]

/-- `UnmarshalResource` reduction on a pointer to a zeroed flat record with
the empty override environment. -/
theorem UnmarshalResource_flat (n : String) (sfs : List SimpleField) (data : JsonVal)
    (r : Resource) (hj : jsonToResource data = some (.ok r))
    (fs : List field) (hp : parseTags (GoType.zeroVal (mkFlatType n sfs)) = .ok fs)
    (ws' : List GoVal)
    (hu : unmarshalFields r (GoType.zeroVal (mkFlatType n sfs)) fs
        = .ok (.vstruct (mkFlatType n sfs) ws')) :
    UnmarshalResource emptyUnmarshalerEnv data
        (.vptr (mkFlatType n sfs) (some (GoType.zeroVal (mkFlatType n sfs))))
      = some (.ok (.vptr (mkFlatType n sfs)
          (some (.vstruct (mkFlatType n sfs) ws')))) := by
  have hder : derefInput (fun t => (emptyUnmarshalerEnv t).isSome)
      (GoVal.vptr (mkFlatType n sfs) (some (GoType.zeroVal (mkFlatType n sfs))))
      = GoType.zeroVal (mkFlatType n sfs) := rfl
  have hnp : ¬ (GoVal.kind (GoVal.vptr (mkFlatType n sfs)
      (some (GoType.zeroVal (mkFlatType n sfs)))) ≠ Kind.pointer) := fun hc => hc rfl
  have hns : ¬ (GoVal.kind (GoType.zeroVal (mkFlatType n sfs)) ≠ Kind.struct_) :=
    fun hc => hc rfl
  simp only [UnmarshalResource]
  rw [if_neg hnp]
  simp only [hder]
  simp only [show emptyUnmarshalerEnv (GoVal.typeOf (GoType.zeroVal (mkFlatType n sfs)))
      = none from rfl]
  rw [if_neg hns]
  simp only [hj, hp]
  rw [show mapDerefInput (fun t => (emptyUnmarshalerEnv t).isSome)
      (fun w => unmarshalFields r w fs)
      (GoVal.vptr (mkFlatType n sfs) (some (GoType.zeroVal (mkFlatType n sfs))))
    = (unmarshalFields r (GoType.zeroVal (mkFlatType n sfs)) fs).map
        (fun w' => GoVal.vptr (mkFlatType n sfs) (some w')) from rfl]
  rw [hu]
  rfl

/-- **C1 (amended).**  The spec's round-trip claim fails as stated (see
`claim_C1_counterexample`: a nil pointer attribute comes back allocated to
zero), but it holds for every flat record whose annotated fields carry
admitted values: tags that parse with pairwise-distinct `(kind, name)`
keys, `omitempty` fields zero-valued of supported shape, to-many
relationship fields holding well-typed slices of allocated pointer chains
to scalars of non-byte kind, and every other field holding an allocated
pointer chain to a scalar (plain scalar when the `string` option is set).
For such a record, `MarshalResource` succeeds and `UnmarshalResource` on
its document, into a pointer to a zeroed record of the same type,
reproduces the record field-for-field. -/
theorem claim_C1 (n : String) (sfs : List SimpleField)
    (hok : ∀ s ∈ sfs, SimpleFieldOK s)
    (hdk : (sfs.map simpleFieldKey).Nodup) :
    ∃ j, MarshalResource emptyMarshalerEnv (mkFlatVal n sfs) = .ok j
      ∧ UnmarshalResource emptyUnmarshalerEnv j
          (.vptr (mkFlatType n sfs) (some (GoType.zeroVal (mkFlatType n sfs))))
        = some (.ok (.vptr (mkFlatType n sfs) (some (mkFlatVal n sfs)))) := by
  have hok' : ∀ s ∈ sfs, ∃ t, s.parsedTag = .ok t :=
    fun s hs => simpleFieldOK_parses s (hok s hs)
  have hspec0 : ∀ f ∈ resolvedFlat sfs, FieldSpec sfs f := by
    intro f hf
    obtain ⟨k, s, hk, ht, hi⟩ := resolvedFlat_mem sfs f hf
    exact ⟨k, s, hk, ht, hi, hok s (lget_mem sfs k s hk)⟩
  have hnd0 : ((resolvedFlat sfs).map fkey).Nodup :=
    resolvedFlat_keys_nodup sfs hok' hdk
  have hfresh : ∀ f ∈ resolvedFlat sfs, FreshFor newResource f :=
    fun f _ => ⟨fun _ => rfl, fun _ => rfl, fun _ => ⟨rfl, rfl⟩⟩
  have hmw := marshalFields_writes n sfs (resolvedFlat sfs) newResource hspec0 hnd0 hfresh
  cases hmr : marshalFields (mkFlatVal n sfs) newResource (resolvedFlat sfs) with
  | error e =>
    rw [hmr] at hmw
    exact absurd hmw (by simp)
  | ok r1 =>
  rw [hmr] at hmw
  injection hmw with hr1
  have hl1 : r1.links = [] := by rw [hr1]; rfl
  have ha1 : r1.attributes = attrWrites (mkFlatVal n sfs) (resolvedFlat sfs) := by
    rw [hr1]; rfl
  have hm1 : r1.ident.meta = metaWrites (mkFlatVal n sfs) (resolvedFlat sfs) := by
    rw [hr1]; rfl
  have ho1 : r1.toOneRelationships = toOneWrites (mkFlatVal n sfs) (resolvedFlat sfs) := by
    rw [hr1]; rfl
  have ht1 : r1.toManyRelationships
      = toManyWrites (mkFlatVal n sfs) (resolvedFlat sfs) := by
    rw [hr1]; rfl
  have hid1 : r1.ident.id = (match idField (resolvedFlat sfs) with
      | some f0 => if writtenF (mkFlatVal n sfs) f0
          then some (encOfField (mkFlatVal n sfs) f0) else none
      | none => none) := by
    rw [hr1]
    cases hidf : idField (resolvedFlat sfs) with
    | none => rfl
    | some f0 => rfl
  obtain ⟨r'', hjr, hid'', hm'', ha'', ho'', ht''⟩ := jsonToResource_pipeline r1
    hl1
    (by rw [ha1]; exact attrWrites_keys_nodup _ _ hnd0)
    (by rw [hm1]; exact metaWrites_keys_nodup _ _ hnd0)
    (by rw [ho1, ht1]; exact relWrites_keys_nodup _ _ hnd0)
    (by rw [ho1]; exact fun p hp => toOneWrites_shape _ _ p hp)
    (by rw [ht1]; exact fun p hp => toManyWrites_shape _ _ p hp)
  have hws0len : (GoType.zeroFields (sfs.map SimpleField.sfield)).length = sfs.length := by
    rw [zeroFields_flat, List.length_map]
  obtain ⟨ws', hrec, hlen', hout, hin⟩ :=
    unmarshalFields_flat n sfs r'' (resolvedFlat sfs) hspec0 hnd0
      (fun nm => by rw [ha'' nm, ha1])
      (fun nm => by rw [hm'' nm, hm1])
      (fun nm => by rw [ho'' nm, ho1])
      (fun nm => by rw [ht'' nm, ht1])
      (by rw [hid'', hid1])
      (resolvedFlat sfs) (GoType.zeroFields (sfs.map SimpleField.sfield))
      (fun f hf => hf)
      hws0len
      (fun f hf k s hk hi => by
        rw [zeroFields_flat]
        exact lgetD_map_get _ sfs k s _ hk)
      (resolvedFlat_idxs_nodup sfs hok')
  have hws' : ws' = sfs.map SimpleField.value := by
    apply list_eq_of_getD GoVal.vinvalid
    · rw [hlen', hws0len, List.length_map]
    · intro k hkl
      have hkl2 : k < sfs.length := by rw [hlen', hws0len] at hkl; exact hkl
      obtain ⟨s, hks⟩ : ∃ s, sfs[k]? = some s :=
        ⟨sfs[k], List.getElem?_eq_getElem hkl2⟩
      obtain ⟨t, hts⟩ := hok' s (lget_mem sfs k s hks)
      have hcov : ({ tag := t, idxs := [k] } : field) ∈ resolvedFlat sfs :=
        resolvedFlat_covers sfs k s hks t hts
      rw [hin { tag := t, idxs := [k] } hcov k s hks rfl]
      rw [lgetD_map_get SimpleField.value sfs k s _ hks]
  have hptagsV : parseTags (mkFlatVal n sfs) = .ok (resolvedFlat sfs) :=
    parseTags_flat_resolved n sfs (sfs.map SimpleField.value) hok' hdk
  have hptagsZ : parseTags (GoType.zeroVal (mkFlatType n sfs)) = .ok (resolvedFlat sfs) :=
    parseTags_flat_resolved n sfs (GoType.zeroFields (sfs.map SimpleField.sfield)) hok' hdk
  refine ⟨resourceToJson r1, MarshalResource_flat n sfs (resolvedFlat sfs) hptagsV r1 hmr, ?_⟩
  have hu : unmarshalFields r'' (GoType.zeroVal (mkFlatType n sfs)) (resolvedFlat sfs)
      = .ok (.vstruct (mkFlatType n sfs) ws') := hrec
  have hfin := UnmarshalResource_flat n sfs (resourceToJson r1) r'' hjr
    (resolvedFlat sfs) hptagsZ ws' hu
  rw [hws'] at hfin
  exact hfin

/-- The example article record of the spec, as a flat record. -/
def articleFields : List SimpleField :=
  [ ⟨"Id", "id,articles,string", .vint 1⟩
  , ⟨"Title", "attr,title", .vstring "Hello World"⟩
  , ⟨"Author", "rel,author,people,string", .vint 2⟩
  , ⟨"Comments", "rel,comments,comments,string", .vslice .int [.vint 3, .vint 4]⟩ ]

/-- Witness: the amended round trip at the spec's example article. -/
theorem claim_C1_witness :
    (∀ s ∈ articleFields, SimpleFieldOK s)
    ∧ (articleFields.map simpleFieldKey).Nodup
    ∧ ∃ j, MarshalResource emptyMarshalerEnv (mkFlatVal "Article" articleFields) = .ok j
      ∧ UnmarshalResource emptyUnmarshalerEnv j
          (.vptr (mkFlatType "Article" articleFields)
            (some (GoType.zeroVal (mkFlatType "Article" articleFields))))
        = some (.ok (.vptr (mkFlatType "Article" articleFields)
            (some (mkFlatVal "Article" articleFields)))) := by
  have hOK : ∀ s ∈ articleFields, SimpleFieldOK s := by
    intro s hs
    simp only [articleFields, List.mem_cons] at hs
    rcases hs with rfl | rfl | rfl | rfl | hs0
    · with_unfolding_all exact ⟨rfl, fun _ => rfl⟩
    · with_unfolding_all exact ⟨rfl, fun _ => rfl⟩
    · with_unfolding_all exact ⟨rfl, fun _ => rfl⟩
    · with_unfolding_all refine ⟨⟨rfl, by decide⟩, ?_⟩
      intro x hx
      rcases List.mem_cons.mp hx with rfl | hx2
      · exact ⟨rfl, rfl, fun _ => rfl⟩
      · rcases List.mem_cons.mp hx2 with rfl | hx3
        · exact ⟨rfl, rfl, fun _ => rfl⟩
        · exact absurd hx3 (List.not_mem_nil x)
    · exact absurd hs0 (List.not_mem_nil s)
  have hND : (articleFields.map simpleFieldKey).Nodup := by
    with_unfolding_all decide
  exact ⟨hOK, hND, claim_C1 "Article" articleFields hOK hND⟩
